import Mathlib

/-!
Verification of the zod-form-data library: a shallow embedding of its
schema-driven flattening, unflattening, schema-flattening, coercion and
submission-parsing algorithms, together with theorems settling the
specification claims about them.

Conventions of the embedding:
- JavaScript runtime values are modelled by `JSV`; numbers are modelled as
  integers (the repository only exchanges integral numbers in the behaviours
  under study).
- JavaScript objects are modelled as ordered association lists, matching the
  insertion-order semantics of plain JS objects for non-integer-like keys
  (all keys produced by the library contain a dot or a letter, so the JS
  integer-key reordering rule never applies).
- `Map`/object mutation is modelled by pure update functions with the exact
  replace-in-place-or-append semantics of JS property assignment.
-/

/-- Model of a JavaScript runtime value as handled by the library: undefined,
null, strings, numbers (modelled as integers), booleans, plain objects
(ordered field lists) and arrays. -/
inductive JSV where
  | vUndef
  | vNull
  | vStr (s : String)
  | vNum (n : Int)
  | vBool (b : Bool)
  | vObj (fields : List (String × JSV))
  | vArr (elems : List JSV)

namespace JSV

mutual

/-- Structural equality test on modelled JS values. -/
def beqV : JSV → JSV → Bool
  | .vUndef, .vUndef => true
  | .vNull, .vNull => true
  | .vStr a, .vStr b => a == b
  | .vNum a, .vNum b => a == b
  | .vBool a, .vBool b => a == b
  | .vObj a, .vObj b => beqFields a b
  | .vArr a, .vArr b => beqElems a b
  | _, _ => false

/-- Structural equality test on object field lists. -/
def beqFields : List (String × JSV) → List (String × JSV) → Bool
  | [], [] => true
  | (k, v) :: r, (k2, v2) :: r2 => k == k2 && beqV v v2 && beqFields r r2
  | _, _ => false

/-- Structural equality test on array element lists. -/
def beqElems : List JSV → List JSV → Bool
  | [], [] => true
  | v :: r, v2 :: r2 => beqV v v2 && beqElems r r2
  | _, _ => false

end

mutual

theorem beqV_iff : ∀ a b : JSV, beqV a b = true ↔ a = b
  | .vUndef, b => by cases b <;> simp [beqV]
  | .vNull, b => by cases b <;> simp [beqV]
  | .vStr a, b => by cases b <;> simp [beqV]
  | .vNum a, b => by cases b <;> simp [beqV]
  | .vBool a, b => by cases b <;> simp [beqV]
  | .vObj a, b => by
      cases b
      case vObj b2 => simpa only [beqV, vObj.injEq] using beqFields_iff a b2
      all_goals simp [beqV]
  | .vArr a, b => by
      cases b
      case vArr b2 => simpa only [beqV, vArr.injEq] using beqElems_iff a b2
      all_goals simp [beqV]

theorem beqFields_iff : ∀ a b : List (String × JSV), beqFields a b = true ↔ a = b
  | [], [] => by simp [beqFields]
  | (k, v) :: r, (k2, v2) :: r2 => by
      simp only [beqFields, List.cons.injEq, Prod.mk.injEq, Bool.and_eq_true,
        beq_iff_eq, beqV_iff v v2, beqFields_iff r r2]
      try tauto
  | [], _ :: _ => by simp [beqFields]
  | _ :: _, [] => by simp [beqFields]

theorem beqElems_iff : ∀ a b : List JSV, beqElems a b = true ↔ a = b
  | [], [] => by simp [beqElems]
  | v :: r, v2 :: r2 => by
      simp only [beqElems, List.cons.injEq, Bool.and_eq_true,
        beqV_iff v v2, beqElems_iff r r2]
  | [], _ :: _ => by simp [beqElems]
  | _ :: _, [] => by simp [beqElems]

end

instance : DecidableEq JSV := fun a b => decidable_of_iff _ (beqV_iff a b)

end JSV

open JSV

/-- Property read on a modelled JS object: the value of the first matching
field, or undefined when the field is absent (JS read semantics). -/
def getF (fs : List (String × JSV)) (k : String) : JSV :=
  match fs.find? (fun p => p.1 == k) with
  | some p => p.2
  | none => JSV.vUndef

/-- Property write on a modelled JS object: replaces the value in place when
the key exists (keeping its position) and appends otherwise, matching JS
assignment on plain objects. -/
def setF (fs : List (String × JSV)) (k : String) (v : JSV) : List (String × JSV) :=
  if fs.any (fun p => p.1 == k) then
    fs.map (fun p => if p.1 == k then (k, v) else p)
  else fs ++ [(k, v)]

/-- JS truthiness of a modelled value (NaN does not arise in the integer
number model). -/
def jsTruthy : JSV → Bool
  | .vUndef => false
  | .vNull => false
  | .vBool b => b
  | .vNum n => n != 0
  | .vStr s => s ≠ ""
  | .vObj _ => true
  | .vArr _ => true

/-- Property read through an arbitrary value: objects give the field value,
anything else (arrays read by a non-index name, primitives, undefined) gives
undefined, as in JS. -/
def getProp (v : JSV) (k : String) : JSV :=
  match v with
  | .vObj fs => getF fs k
  | _ => JSV.vUndef

/-- Generic keyed update on an association list with JS object/Map semantics:
replace in place when the key is present, append otherwise. Models both
`Map.set` and JS property assignment on the flat maps the library builds. -/
def recSet {α : Type} (m : List (String × α)) (k : String) (v : α) : List (String × α) :=
  if m.any (fun p => p.1 == k) then
    m.map (fun p => if p.1 == k then (k, v) else p)
  else m ++ [(k, v)]

/-- Key deletion on an association list (models the JS delete operator). -/
def recDelete {α : Type} (m : List (String × α)) (k : String) : List (String × α) :=
  m.filter (fun p => p.1 ≠ k)

/-- Key list of an association list (models Object.keys, insertion order). -/
def recKeys {α : Type} (m : List (String × α)) : List String :=
  m.map (fun p => p.1)

/-- Keyed lookup on an association list (first match). -/
def recGet {α : Type} (m : List (String × α)) (k : String) : Option α :=
  (m.find? (fun p => p.1 == k)).map (fun p => p.2)

/-- Character-level splitter behind `splitDot`: cuts the character stream at
each dot, keeping empty segments, exactly as JS `split(".")` does. -/
def splitDotAux : List Char → List Char → List (List Char)
  | [], cur => [cur.reverse]
  | c :: cs, cur =>
    if c = '.' then cur.reverse :: splitDotAux cs []
    else splitDotAux cs (c :: cur)

/-- Path splitting on the fixed dot delimiter, modelling JS `key.split(".")`
(the empty string splits to one empty segment, empty segments between
consecutive dots are kept). -/
def splitDot (s : String) : List String :=
  (splitDotAux s.data []).map (fun l => ⟨l⟩)

/-- Prefix test on strings, modelling JS `key.startsWith(p)`. -/
def strStartsWith (s p : String) : Bool :=
  p.data.isPrefixOf s.data

/-- Path joining on the fixed dot delimiter (the left inverse of
`splitDot`). -/
def joinDot : List String → String
  | [] => ""
  | [s] => s
  | s :: r :: rest => s ++ "." ++ joinDot (r :: rest)

/-- Prefix builder used by the object and discriminated-union cases of the
flatteners: `prefix ? prefix + "." + key : key`. -/
def joinKey (pfx k : String) : String :=
  if pfx = "" then k else pfx ++ "." ++ k

/-- Models `!Number.isNaN(Number(s))` on the delimiter-free path segments the
library produces. On that domain a segment is numeric exactly when it is a
(possibly empty) run of decimal digits: `Number("") = 0`, digit runs parse as
integers, and segments that begin with a letter (field names, record keys)
are NaN. Exotic numeric spellings (exponents, hex, "Infinity") never occur as
segments of keys built by the library and are outside the modelled domain. -/
def jsIsNumeric (s : String) : Bool :=
  s.data.all (fun c => c.isDigit)

/-- Numeric value of a digit-run segment, models `Number(key)` for the array
index keys on which the unflattener uses it. -/
def digitsToNat (s : String) : Nat :=
  s.data.foldl (fun n c => n * 10 + (c.toNat - 48)) 0

/-- Array read at an index: undefined for holes and out-of-range reads. -/
def arrGet (xs : List JSV) (i : Nat) : JSV :=
  (xs.get? i).getD JSV.vUndef

/-- Array write at an index: in-range writes replace, past-the-end writes
extend the array with holes (which read as undefined) up to the index. -/
def arrSet (xs : List JSV) (i : Nat) (v : JSV) : List JSV :=
  if i < xs.length then xs.set i v
  else xs ++ List.replicate (i - xs.length) .vUndef ++ [v]

/-- Faithful port of the `nest` helper shared by `unflattenZodFormData` and
`unflattenZodFormErrors` (packages/lib/src/parse-zod-form-data.ts lines
123-221 and the unflatten-zod-form-errors source). The source walks the split
key with a level index; here the remaining segments are passed as a list,
which is the same traversal. On the last segment the value is pushed when the
container is an array (so array indices in the input are ignored and gaps
collapse) and assigned when it is an object. On middle segments the next
segment decides array versus object nesting; the array-within-array branch of
the source only logs a warning and mutates nothing. -/
def nestL (data : JSV) (keys : List String) (value : JSV) : JSV :=
  match keys with
  | [] => data
  | [k] =>
    match data with
    | .vArr a => .vArr (a ++ [value])
    | .vObj o => .vObj (setF o k value)
    | _ => data
  | k :: nk :: rest =>
    if jsIsNumeric nk then
      match data with
      | .vArr _ => data
      | .vObj o =>
        if jsTruthy (getF o k) then
          .vObj (setF o k (nestL (getF o k) (nk :: rest) value))
        else
          .vObj (setF o k (nestL (.vArr []) (nk :: rest) value))
      | _ => data
    else
      match data with
      | .vArr a =>
        let i := digitsToNat k
        if arrGet a i ≠ .vUndef then
          .vArr (arrSet a i (nestL (arrGet a i) (nk :: rest) value))
        else
          .vArr (arrSet a i (nestL (.vObj []) (nk :: rest) value))
      | .vObj o =>
        if jsTruthy (getF o k) then
          .vObj (setF o k (nestL (getF o k) (nk :: rest) value))
        else
          .vObj (setF o k (nestL (.vObj []) (nk :: rest) value))
      | _ => data

/-- Faithful port of `unflattenZodFormData` (packages/lib/src/parse-zod-form-data.ts
lines 117-240): fold the flat entries through `nest` into a fresh result
object, with the optional root projection. `unflattenZodFormErrors`
(src/unnamed/part_011 lines 264-387) is the identical algorithm with string
leaves; it is covered by applying this function to string-valued entries. -/
def unflattenZodFormData (data : List (String × JSV)) (root : Option String) : JSV :=
  let result := data.foldl (fun acc p =>
    match root with
    | some r => if strStartsWith p.1 (r ++ ".") then nestL acc (splitDot p.1) p.2 else acc
    | none => nestL acc (splitDot p.1) p.2) (.vObj [])
  match root with
  | some r =>
    match result with
    | .vObj o => getF o r
    | _ => .vUndef
  | none => result

/-- Claim C5: unflattening the flat map with entries at indices 0 and 2
collapses the gap: the two values land at consecutive positions 0 and 1,
because on the last key segment the nest helper pushes onto arrays without
consulting the numeric index. The same evaluation settles the
unflattenZodFormErrors form of the claim, which runs the identical algorithm
on string leaves. -/
theorem c5_sparse_array_gap_collapses :
    unflattenZodFormData
      [("items.0", .vStr "First error"), ("items.2", .vStr "Third error")] none
      = .vObj [("items", .vArr [.vStr "First error", .vStr "Third error"])] := by
  decide

/-- Fragment of the Zod v4 schema algebra exercised by the claims: primitive
leaves (string, number, boolean), literals, objects with an ordered field
shape, arrays, records, the optional/nullable/default wrappers and the two
union forms. Other node kinds of the source (map, set, tuple, intersection,
transform, pipe, catch, promise, custom, lazy) are not needed by any claim
about the value flattener and are omitted from this type; the schema
flattener claims use a separate type with lazy references below. -/
inductive ZodSchema where
  | zString
  | zNumber
  | zBool
  | zLiteral (lit : JSV)
  | zObject (shape : List (String × ZodSchema))
  | zArray (elem : ZodSchema)
  | zRecord (valT : ZodSchema)
  | zOptional (inner : ZodSchema)
  | zNullable (inner : ZodSchema)
  | zDefault (dflt : JSV) (inner : ZodSchema)
  | zUnion (opts : List ZodSchema)
  | zDiscUnion (disc : String) (opts : List ZodSchema)

open ZodSchema

/-- Shape lookup by field name, models `candidate.shape[discriminator]`. -/
def shapeGet (shape : List (String × ZodSchema)) (k : String) : Option ZodSchema :=
  (shape.find? (fun p => p.1 == k)).map (fun p => p.2)

/-- Port of `extractLiteralValue` (src/src/flatten-zod-form-data.ts lines
85-97): the literal value carried by a literal schema, undefined otherwise.
In Zod v4 a literal def always carries its value, modelled here as the `lit`
field. -/
def extractLiteralValue : Option ZodSchema → Option JSV
  | some (.zLiteral l) => some l
  | _ => none

/-- Port of `resolveOption` (src/src/flatten-zod-form-data.ts lines 116-135):
for an undefined discriminator value no option is selected; otherwise the
first object option whose discriminator field is a literal equal to the
runtime value is selected. The optionsMap fast path of the source is keyed by
exactly these literal values, so it selects the same option. -/
def resolveOption (opts : List ZodSchema) (d : String) (discValue : JSV) : Option ZodSchema :=
  if discValue = .vUndef then none
  else opts.find? (fun o =>
    match o with
    | .zObject shape =>
      match extractLiteralValue (shapeGet shape d) with
      | some l => beqV l discValue
      | none => false
    | _ => false)

theorem resolveOption_mem {opts : List ZodSchema} {d : String} {dv : JSV} {o : ZodSchema}
    (h : resolveOption opts d dv = some o) : o ∈ opts := by
  unfold resolveOption at h
  split at h
  · exact absurd h (by simp)
  · exact List.mem_of_find?_eq_some h


mutual

/-- Port of the recursive `flatten` worker of `flattenZodFormData`
(src/src/flatten-zod-form-data.ts lines 99-374), threading the flat map being
built. Discriminated unions are handled before the switch: the discriminator
path is always recorded, and when an option is resolved and the value is a
plain object the non-discriminator fields of that option are flattened under
the same prefix. The object case fires for any non-null value of JS type
"object" (which includes arrays); the array case only recurses over actual
arrays (no placeholder entry is emitted otherwise); records iterate the
entries of the runtime value; unions are stored as leaves; literals store the
literal value; optional/default/nullable unwrap, with the default value
substituted for undefined and null stopping at a nullable; primitive leaves
store the value verbatim. -/
def flattenAux (m : List (String × JSV)) (s : ZodSchema) (v : JSV) (pfx : String) :
    List (String × JSV) :=
  match s with
  | .zDiscUnion d opts =>
    let discValue : JSV := match v with | .vObj fs => getF fs d | _ => .vUndef
    let m1 := recSet m (joinKey pfx d) discValue
    match v with
    | .vObj _ =>
      if discValue = .vUndef then m1
      else flattenDiscScan m1 opts d discValue v pfx
    | _ => m1
  | .zObject shape =>
    match v with
    | .vObj _ => flattenObjFields m shape v pfx
    | .vArr _ => flattenObjFields m shape v pfx
    | _ => m
  | .zArray e =>
    match v with
    | .vArr xs => flattenArrElems m e xs pfx 0
    | _ => m
  | .zUnion _ => recSet m pfx v
  | .zOptional inner => flattenAux m inner v pfx
  | .zDefault dflt inner => flattenAux m inner (if v = .vUndef then dflt else v) pfx
  | .zRecord valT =>
    match v with
    | .vObj fs => flattenRecEntries m valT fs pfx
    | .vArr xs => flattenRecEntries m valT (xs.enum.map (fun p => (toString p.1, p.2))) pfx
    | _ => m
  | .zNullable inner => if v = .vNull then m else flattenAux m inner v pfx
  | .zLiteral lit => recSet m pfx lit
  | .zString => recSet m pfx v
  | .zNumber => recSet m pfx v
  | .zBool => recSet m pfx v
termination_by (sizeOf s, 0)

/-- Field loop of the object case: each declared field recurses with the
property read off the value (undefined when absent) at prefix `pfx.field`. -/
def flattenObjFields (m : List (String × JSV)) (shape : List (String × ZodSchema))
    (v : JSV) (pfx : String) : List (String × JSV) :=
  match shape with
  | [] => m
  | (f, fs) :: rest =>
    flattenObjFields (flattenAux m fs (getProp v f) (joinKey pfx f)) rest v pfx
termination_by (sizeOf shape, 0)

/-- Option scan of the discriminated-union case: recurses into the first
object option whose discriminator field is a literal equal to the runtime
discriminator value, exactly the option `resolveOption` selects (see
`flattenDiscScan_eq_resolveOption`); when no option matches, nothing beyond
the discriminator entry is recorded. The source computes the selected option
with a find and then recurses into it; this scan fuses the two, which is the
same computation. -/
def flattenDiscScan (m : List (String × JSV)) (opts : List ZodSchema) (d : String)
    (discValue : JSV) (v : JSV) (pfx : String) : List (String × JSV) :=
  match opts with
  | [] => m
  | .zObject shape :: rest =>
    match extractLiteralValue (shapeGet shape d) with
    | some l =>
      if beqV l discValue then flattenDiscFields m shape d v pfx
      else flattenDiscScan m rest d discValue v pfx
    | none => flattenDiscScan m rest d discValue v pfx
  | _ :: rest => flattenDiscScan m rest d discValue v pfx
termination_by (sizeOf opts, 1)

/-- Field loop of the matched discriminated-union option: like the object
loop but skipping the discriminator field, at the same prefix level. -/
def flattenDiscFields (m : List (String × JSV)) (shape : List (String × ZodSchema))
    (d : String) (v : JSV) (pfx : String) : List (String × JSV) :=
  match shape with
  | [] => m
  | (f, fs) :: rest =>
    if f = d then flattenDiscFields m rest d v pfx
    else flattenDiscFields (flattenAux m fs (getProp v f) (joinKey pfx f)) rest d v pfx
termination_by (sizeOf shape, 0)

/-- Element loop of the array case: element `i` recurses at `pfx.i` (the
source always inserts the dot, even for an empty prefix). -/
def flattenArrElems (m : List (String × JSV)) (e : ZodSchema) (xs : List JSV)
    (pfx : String) (i : Nat) : List (String × JSV) :=
  match xs with
  | [] => m
  | x :: rest => flattenArrElems (flattenAux m e x (pfx ++ "." ++ toString i)) e rest pfx (i + 1)
termination_by (sizeOf e, 1 + xs.length)

/-- Entry loop of the record case: each present key of the runtime value
recurses with the record value schema at `pfx.key`. -/
def flattenRecEntries (m : List (String × JSV)) (valT : ZodSchema)
    (entries : List (String × JSV)) (pfx : String) : List (String × JSV) :=
  match entries with
  | [] => m
  | (k, w) :: rest => flattenRecEntries (flattenAux m valT w (pfx ++ "." ++ k)) valT rest pfx
termination_by (sizeOf valT, 1 + entries.length)

end

/-- Port of `flattenZodFormData` (src/src/flatten-zod-form-data.ts lines
65-378): run the worker on an empty map. -/
def flattenZodFormData (s : ZodSchema) (v : JSV) : List (String × JSV) :=
  flattenAux [] s v ""

/-- The two-alternative discriminated union schema of the discriminated-union
re-flattening example: field "status" is a union on discriminator "type" of a
guest option (optional expiresAt) and a member option (numeric level). -/
def statusSchema : ZodSchema :=
  .zObject [("status", .zDiscUnion "type"
    [ .zObject [("type", .zLiteral (.vStr "guest")), ("expiresAt", .zOptional .zString)],
      .zObject [("type", .zLiteral (.vStr "member")), ("level", .zNumber)]])]

/-- Claim C2: flattening the member value against the discriminated union at
prefix "status" yields exactly the discriminator entry and the matched
option's sibling field at the same prefix level, with no key from the guest
option; and for a runtime discriminator value matching no option only the
discriminator entry is emitted. -/
theorem c2_disc_union_reflatten :
    flattenZodFormData statusSchema
        (.vObj [("status", .vObj [("type", .vStr "member"), ("level", .vNum 3)])])
      = [("status.type", .vStr "member"), ("status.level", .vNum 3)]
    ∧ flattenZodFormData statusSchema
        (.vObj [("status", .vObj [("type", .vStr "owner"), ("level", .vNum 3)])])
      = [("status.type", .vStr "owner")] := by
  constructor <;>
    simp [flattenZodFormData, statusSchema, flattenAux, flattenObjFields,
      flattenDiscScan, flattenDiscFields, flattenArrElems, flattenRecEntries,
      getProp, getF, joinKey, recSet, extractLiteralValue, shapeGet, beqV]

/-- Key of a path built by repeatedly extending a prefix with segments
through the `prefix ? prefix + "." + segment : segment` rule of the
flattener. -/
def pathKey (pfx : String) (segs : List String) : String :=
  segs.foldl joinKey pfx

/-- Declared leaf paths of a schema that the flattener is guaranteed to reach
for a given value: a leaf (primitive, literal or union-as-leaf) is reached at
the empty path; a declared field of an object is reached when the value at
the object position is itself an object (the object case of the flattener
only recurses into values of JS type object) and the rest of the path is
reached in the field; optional, nullable (on non-null values) and default
wrappers are transparent, with the default value substituted for undefined. -/
inductive PresentPath : ZodSchema → JSV → List String → Prop where
  | leafString (v : JSV) : PresentPath .zString v []
  | leafNumber (v : JSV) : PresentPath .zNumber v []
  | leafBool (v : JSV) : PresentPath .zBool v []
  | leafLiteral (lit v : JSV) : PresentPath (.zLiteral lit) v []
  | leafUnion (opts : List ZodSchema) (v : JSV) : PresentPath (.zUnion opts) v []
  | objField {shape : List (String × ZodSchema)} {fs : List (String × JSV)}
      {f : String} {sf : ZodSchema} {rest : List String}
      (hmem : (f, sf) ∈ shape)
      (hrest : PresentPath sf (getF fs f) rest) :
      PresentPath (.zObject shape) (.vObj fs) (f :: rest)
  | wrapOptional {inner : ZodSchema} {v : JSV} {segs : List String}
      (h : PresentPath inner v segs) : PresentPath (.zOptional inner) v segs
  | wrapNullable {inner : ZodSchema} {v : JSV} {segs : List String}
      (hne : v ≠ .vNull) (h : PresentPath inner v segs) :
      PresentPath (.zNullable inner) v segs
  | wrapDefault {dflt : JSV} {inner : ZodSchema} {v : JSV} {segs : List String}
      (h : PresentPath inner (if v = .vUndef then dflt else v) segs) :
      PresentPath (.zDefault dflt inner) v segs

theorem recKeys_recSet_mono {α : Type} {m : List (String × α)} {k k2 : String} {v : α}
    (h : k ∈ recKeys m) : k ∈ recKeys (recSet m k2 v) := by
  unfold recSet recKeys at *
  rcases List.mem_map.mp h with ⟨p, hp, hkp⟩
  split
  · by_cases hc : p.1 == k2
    · have hpk : p.1 = k2 := by simpa using hc
      refine List.mem_map.mpr ⟨(k2, v), List.mem_map.mpr ⟨p, hp, by simp [hc]⟩, ?_⟩
      simp [← hkp, hpk]
    · exact List.mem_map.mpr ⟨p, List.mem_map.mpr ⟨p, hp, by simp [hc]⟩, hkp⟩
  · simp only [List.map_append]
    exact List.mem_append_left _ (List.mem_map.mpr ⟨p, hp, hkp⟩)

theorem recKeys_recSet_self {α : Type} {m : List (String × α)} {k : String} {v : α} :
    k ∈ recKeys (recSet m k v) := by
  unfold recSet recKeys
  split
  · next hany =>
    rcases List.any_eq_true.mp hany with ⟨p, hp, hpk⟩
    refine List.mem_map.mpr ⟨(k, v), ?_, rfl⟩
    refine List.mem_map.mpr ⟨p, hp, ?_⟩
    simp [hpk]
  · simp [recKeys]

mutual

theorem flattenAux_keys_mono {k : String} (m : List (String × JSV)) (s : ZodSchema)
    (v : JSV) (pfx : String) (h : k ∈ recKeys m) : k ∈ recKeys (flattenAux m s v pfx) := by
  cases s with
  | zString => simpa only [flattenAux] using recKeys_recSet_mono h
  | zNumber => simpa only [flattenAux] using recKeys_recSet_mono h
  | zBool => simpa only [flattenAux] using recKeys_recSet_mono h
  | zLiteral lit => simpa only [flattenAux] using recKeys_recSet_mono h
  | zUnion opts => simpa only [flattenAux] using recKeys_recSet_mono h
  | zObject shape =>
    cases v with
    | vObj fs => simpa only [flattenAux] using flattenObjFields_keys_mono m shape _ pfx h
    | vArr xs => simpa only [flattenAux] using flattenObjFields_keys_mono m shape _ pfx h
    | vUndef => simpa only [flattenAux] using h
    | vNull => simpa only [flattenAux] using h
    | vStr a => simpa only [flattenAux] using h
    | vNum a => simpa only [flattenAux] using h
    | vBool a => simpa only [flattenAux] using h
  | zArray e =>
    cases v with
    | vArr xs => simpa only [flattenAux] using flattenArrElems_keys_mono m e xs pfx 0 h
    | vUndef => simpa only [flattenAux] using h
    | vNull => simpa only [flattenAux] using h
    | vStr a => simpa only [flattenAux] using h
    | vNum a => simpa only [flattenAux] using h
    | vBool a => simpa only [flattenAux] using h
    | vObj fs => simpa only [flattenAux] using h
  | zRecord valT =>
    cases v with
    | vObj fs => simpa only [flattenAux] using flattenRecEntries_keys_mono m valT fs pfx h
    | vArr xs => simpa only [flattenAux] using flattenRecEntries_keys_mono m valT _ pfx h
    | vUndef => simpa only [flattenAux] using h
    | vNull => simpa only [flattenAux] using h
    | vStr a => simpa only [flattenAux] using h
    | vNum a => simpa only [flattenAux] using h
    | vBool a => simpa only [flattenAux] using h
  | zOptional inner => simpa only [flattenAux] using flattenAux_keys_mono m inner v pfx h
  | zDefault dflt inner =>
    simpa only [flattenAux] using flattenAux_keys_mono m inner _ pfx h
  | zNullable inner =>
    by_cases hv : v = .vNull
    · simpa only [flattenAux, hv, if_pos rfl] using h
    · simpa only [flattenAux, if_neg hv] using flattenAux_keys_mono m inner v pfx h
  | zDiscUnion d opts =>
    cases v with
    | vObj fs =>
      simp only [flattenAux]
      by_cases hd : getF fs d = .vUndef
      · simpa only [hd, if_pos rfl] using recKeys_recSet_mono h
      · simpa only [if_neg hd] using
          flattenDiscScan_keys_mono _ opts d _ _ pfx (recKeys_recSet_mono h)
    | vUndef => simpa only [flattenAux] using recKeys_recSet_mono h
    | vNull => simpa only [flattenAux] using recKeys_recSet_mono h
    | vStr a => simpa only [flattenAux] using recKeys_recSet_mono h
    | vNum a => simpa only [flattenAux] using recKeys_recSet_mono h
    | vBool a => simpa only [flattenAux] using recKeys_recSet_mono h
    | vArr xs => simpa only [flattenAux] using recKeys_recSet_mono h
termination_by (sizeOf s, 0)

theorem flattenDiscScan_keys_mono {k : String} (m : List (String × JSV))
    (opts : List ZodSchema) (d : String) (discValue : JSV) (v : JSV) (pfx : String)
    (h : k ∈ recKeys m) : k ∈ recKeys (flattenDiscScan m opts d discValue v pfx) := by
  cases opts with
  | nil => simpa only [flattenDiscScan] using h
  | cons o rest =>
    cases o with
    | zObject shape =>
      simp only [flattenDiscScan]
      cases hlit : extractLiteralValue (shapeGet shape d) with
      | some l =>
        by_cases hb : beqV l discValue
        · simpa only [hb, if_pos rfl] using flattenDiscFields_keys_mono m shape d v pfx h
        · simpa only [if_neg hb] using flattenDiscScan_keys_mono m rest d discValue v pfx h
      | none => exact flattenDiscScan_keys_mono m rest d discValue v pfx h
    | zString => simpa only [flattenDiscScan] using flattenDiscScan_keys_mono m rest d discValue v pfx h
    | zNumber => simpa only [flattenDiscScan] using flattenDiscScan_keys_mono m rest d discValue v pfx h
    | zBool => simpa only [flattenDiscScan] using flattenDiscScan_keys_mono m rest d discValue v pfx h
    | zLiteral lit => simpa only [flattenDiscScan] using flattenDiscScan_keys_mono m rest d discValue v pfx h
    | zArray e => simpa only [flattenDiscScan] using flattenDiscScan_keys_mono m rest d discValue v pfx h
    | zRecord valT => simpa only [flattenDiscScan] using flattenDiscScan_keys_mono m rest d discValue v pfx h
    | zOptional inner => simpa only [flattenDiscScan] using flattenDiscScan_keys_mono m rest d discValue v pfx h
    | zNullable inner => simpa only [flattenDiscScan] using flattenDiscScan_keys_mono m rest d discValue v pfx h
    | zDefault dflt inner => simpa only [flattenDiscScan] using flattenDiscScan_keys_mono m rest d discValue v pfx h
    | zUnion opts2 => simpa only [flattenDiscScan] using flattenDiscScan_keys_mono m rest d discValue v pfx h
    | zDiscUnion d2 opts2 => simpa only [flattenDiscScan] using flattenDiscScan_keys_mono m rest d discValue v pfx h
termination_by (sizeOf opts, 1)

theorem flattenObjFields_keys_mono {k : String} (m : List (String × JSV))
    (shape : List (String × ZodSchema)) (v : JSV) (pfx : String)
    (h : k ∈ recKeys m) : k ∈ recKeys (flattenObjFields m shape v pfx) := by
  cases shape with
  | nil => simpa only [flattenObjFields] using h
  | cons p rest =>
    obtain ⟨f, fs⟩ := p
    simpa only [flattenObjFields] using
      flattenObjFields_keys_mono _ rest v pfx (flattenAux_keys_mono m fs _ _ h)
termination_by (sizeOf shape, 0)

theorem flattenDiscFields_keys_mono {k : String} (m : List (String × JSV))
    (shape : List (String × ZodSchema)) (d : String) (v : JSV) (pfx : String)
    (h : k ∈ recKeys m) : k ∈ recKeys (flattenDiscFields m shape d v pfx) := by
  cases shape with
  | nil => simpa only [flattenDiscFields] using h
  | cons p rest =>
    obtain ⟨f, fs⟩ := p
    by_cases hd : f = d
    · simpa only [flattenDiscFields, hd, if_pos rfl] using
        flattenDiscFields_keys_mono m rest d v pfx h
    · simpa only [flattenDiscFields, if_neg hd] using
        flattenDiscFields_keys_mono _ rest d v pfx (flattenAux_keys_mono m fs _ _ h)
termination_by (sizeOf shape, 0)

theorem flattenArrElems_keys_mono {k : String} (m : List (String × JSV)) (e : ZodSchema)
    (xs : List JSV) (pfx : String) (i : Nat)
    (h : k ∈ recKeys m) : k ∈ recKeys (flattenArrElems m e xs pfx i) := by
  cases xs with
  | nil => simpa only [flattenArrElems] using h
  | cons x rest =>
    simpa only [flattenArrElems] using
      flattenArrElems_keys_mono _ e rest pfx (i + 1) (flattenAux_keys_mono m e x _ h)
termination_by (sizeOf e, 1 + xs.length)

theorem flattenRecEntries_keys_mono {k : String} (m : List (String × JSV)) (valT : ZodSchema)
    (entries : List (String × JSV)) (pfx : String)
    (h : k ∈ recKeys m) : k ∈ recKeys (flattenRecEntries m valT entries pfx) := by
  cases entries with
  | nil => simpa only [flattenRecEntries] using h
  | cons p rest =>
    obtain ⟨ek, ew⟩ := p
    simpa only [flattenRecEntries] using
      flattenRecEntries_keys_mono _ valT rest pfx (flattenAux_keys_mono m valT ew _ h)
termination_by (sizeOf valT, 1 + entries.length)

end

theorem objFields_key_mem {v : JSV} {f : String} {sf : ZodSchema} {target : String}
    {pfx : String}
    (hin : ∀ m : List (String × JSV), target ∈ recKeys (flattenAux m sf (getProp v f) (joinKey pfx f))) :
    ∀ (shape : List (String × ZodSchema)) (m : List (String × JSV)), (f, sf) ∈ shape →
      target ∈ recKeys (flattenObjFields m shape v pfx) := by
  intro shape
  induction shape with
  | nil => intro m hmem; cases hmem
  | cons p rest ih =>
    intro m hmem
    obtain ⟨g, gs⟩ := p
    rcases List.mem_cons.mp hmem with heq | htail
    · obtain ⟨hf, hs⟩ := Prod.mk.injEq .. ▸ heq
      subst hf; subst hs
      simp only [flattenObjFields]
      exact flattenObjFields_keys_mono _ rest v pfx (hin m)
    · simp only [flattenObjFields]
      exact ih _ htail

theorem presentPath_key_mem {s : ZodSchema} {v : JSV} {segs : List String}
    (h : PresentPath s v segs) :
    ∀ (m : List (String × JSV)) (pfx : String),
      pathKey pfx segs ∈ recKeys (flattenAux m s v pfx) := by
  induction h with
  | leafString v => intro m pfx; simpa only [flattenAux, pathKey, List.foldl] using recKeys_recSet_self
  | leafNumber v => intro m pfx; simpa only [flattenAux, pathKey, List.foldl] using recKeys_recSet_self
  | leafBool v => intro m pfx; simpa only [flattenAux, pathKey, List.foldl] using recKeys_recSet_self
  | leafLiteral lit v => intro m pfx; simpa only [flattenAux, pathKey, List.foldl] using recKeys_recSet_self
  | leafUnion opts v => intro m pfx; simpa only [flattenAux, pathKey, List.foldl] using recKeys_recSet_self
  | objField hmem hrest ih =>
    intro m pfx
    simp only [flattenAux, pathKey, List.foldl]
    exact objFields_key_mem (fun m2 => by simpa only [getProp] using ih m2 _) _ m hmem
  | wrapOptional h ih => intro m pfx; simpa only [flattenAux] using ih m pfx
  | wrapNullable hne h ih =>
    intro m pfx
    simp only [flattenAux, if_neg hne]
    exact ih m pfx
  | wrapDefault h ih =>
    intro m pfx
    simp only [flattenAux]
    exact ih m pfx

/-- Claim C3, counterexample: against the schema with a nested object field
a.b, a value that omits the intermediate object "a" flattens to the empty
map, so the declared leaf path "a.b" is not present as a key, refuting the
claim that every declared leaf path is present for every value. -/
theorem c3_counterexample :
    flattenZodFormData (.zObject [("a", .zObject [("b", .zString)])]) (.vObj []) = []
    ∧ ("a.b" ∈ recKeys (flattenZodFormData
        (.zObject [("a", .zObject [("b", .zString)])]) (.vObj [])) → False) := by
  constructor
  · simp [flattenZodFormData, flattenAux, flattenObjFields, getProp, getF, joinKey, recSet]
  · intro hmem
    revert hmem
    simp [flattenZodFormData, flattenAux, flattenObjFields, getProp, getF, joinKey, recSet, recKeys]

/-- Claim C3, amended: a declared leaf path is present as a key in the
flattened output whenever every enclosing object value along the path is
itself a present object; in particular a leaf field omitted from a present
object still gets its key (with value undefined), but paths below an
omitted or non-object intermediate value are not emitted at all. -/
theorem c3_present_leaf_paths {s : ZodSchema} {v : JSV} {segs : List String}
    (h : PresentPath s v segs) :
    pathKey "" segs ∈ recKeys (flattenZodFormData s v) :=
  presentPath_key_mem h [] ""

/-- Witness for the amended claim C3 at a concrete input: the schema
user.name with the value that contains user as an empty object; the key
user.name is present and maps to undefined. -/
theorem c3_present_leaf_paths_witness :
    PresentPath (.zObject [("user", .zObject [("name", .zString)])])
      (.vObj [("user", .vObj [])]) ["user", "name"]
    ∧ "user.name" ∈ recKeys (flattenZodFormData
        (.zObject [("user", .zObject [("name", .zString)])]) (.vObj [("user", .vObj [])]))
    ∧ recGet (flattenZodFormData
        (.zObject [("user", .zObject [("name", .zString)])]) (.vObj [("user", .vObj [])]))
        "user.name" = some .vUndef := by
  have hpath : PresentPath (.zObject [("user", .zObject [("name", .zString)])])
      (.vObj [("user", .vObj [])]) ["user", "name"] := by
    refine PresentPath.objField (List.mem_singleton.mpr rfl) ?_
    refine PresentPath.objField (List.mem_singleton.mpr rfl) ?_
    exact PresentPath.leafString _
  refine ⟨hpath, c3_present_leaf_paths hpath, ?_⟩
  simp [flattenZodFormData, flattenAux, flattenObjFields, getProp, getF, joinKey,
    recSet, recGet]

/-- Claim C4, counterexample: flattening an array-typed field with an empty
array value, or with the field absent altogether, emits no entry at all for
that field; in particular there is no entry tags.0, refuting the claim that
exactly one placeholder entry is emitted. -/
theorem c4_counterexample :
    flattenZodFormData (.zObject [("tags", .zArray .zString)])
      (.vObj [("tags", .vArr [])]) = []
    ∧ flattenZodFormData (.zObject [("tags", .zArray .zString)]) (.vObj []) = [] := by
  constructor <;>
    simp [flattenZodFormData, flattenAux, flattenObjFields, flattenArrElems,
      getProp, getF, joinKey, recSet]

/-- Claim C4, amended: flattening an array-typed position with an empty
array value or a non-array (absent) value adds no entries to the flat map:
the source only recurses over actual array elements and emits no placeholder
row. -/
theorem c4_empty_array_no_entries (e : ZodSchema) (v : JSV)
    (m : List (String × JSV)) (pfx : String)
    (h : v = .vArr [] ∨ ∀ xs : List JSV, v ≠ .vArr xs) :
    flattenAux m (.zArray e) v pfx = m := by
  rcases h with h | h
  · subst h; simp only [flattenAux, flattenArrElems]
  · cases v with
    | vArr xs => exact absurd rfl (h xs)
    | vUndef => simp only [flattenAux]
    | vNull => simp only [flattenAux]
    | vStr a => simp only [flattenAux]
    | vNum a => simp only [flattenAux]
    | vBool a => simp only [flattenAux]
    | vObj fs => simp only [flattenAux]

/-- Witness for the amended claim C4 at concrete inputs: the empty array and
the absent (undefined) value both leave the map unchanged. -/
theorem c4_empty_array_no_entries_witness :
    ((.vArr [] : JSV) = .vArr [] ∨ ∀ xs : List JSV, (.vArr [] : JSV) ≠ .vArr xs)
    ∧ flattenAux [] (.zArray .zString) (.vArr []) "tags" = []
    ∧ ((.vUndef : JSV) = .vArr [] ∨ ∀ xs : List JSV, (.vUndef : JSV) ≠ .vArr xs)
    ∧ flattenAux [] (.zArray .zString) JSV.vUndef "tags" = [] := by
  refine ⟨Or.inl rfl, c4_empty_array_no_entries _ _ _ _ (Or.inl rfl),
    Or.inr (fun xs => by simp), c4_empty_array_no_entries _ _ _ _ (Or.inr (fun xs => by simp))⟩

/-- Error message of the BoolAsString schema
(packages/lib/src/coerce-form-data.ts lines 11-17). -/
def boolAsStringMessage : String :=
  "Must be a boolean string (\"true\", \"false\", or \"on\")"

/-- Port of BoolAsString (packages/lib/src/coerce-form-data.ts lines 11-17):
the raw string must fully match the case-sensitive regex (true|false|on),
otherwise parsing fails with the boolean-string message; a match is then
transformed to the boolean which is true exactly for "true" and "on". -/
def boolAsStringParse (s : String) : Except String Bool :=
  if s = "true" ∨ s = "false" ∨ s = "on" then .ok (s == "true" || s == "on")
  else .error boolAsStringMessage

/-- Boolean branch of coerceFormData (packages/lib/src/coerce-form-data.ts
lines 59-63): the raw transport string is parsed by BoolAsString and the
resulting boolean is piped into the boolean leaf schema, which accepts it. -/
def coerceBooleanFormData (s : String) : Except String JSV :=
  (boolAsStringParse s).map (fun b => .vBool b)

/-- Claim C7: boolean leaf coercion accepts exactly the case-sensitive raw
strings "true", "false" and "on"; "on" and "true" coerce to true, "false"
coerces to false, and every other string, for example "yes", fails with the
boolean-string message rather than silently defaulting. -/
theorem c7_boolean_coercion :
    coerceBooleanFormData "true" = .ok (.vBool true)
    ∧ coerceBooleanFormData "on" = .ok (.vBool true)
    ∧ coerceBooleanFormData "false" = .ok (.vBool false)
    ∧ (∀ s : String, s ≠ "true" → s ≠ "false" → s ≠ "on" →
        coerceBooleanFormData s = .error boolAsStringMessage)
    ∧ coerceBooleanFormData "yes" = .error boolAsStringMessage := by
  refine ⟨rfl, rfl, rfl, ?_, rfl⟩
  intro s h1 h2 h3
  simp [coerceBooleanFormData, boolAsStringParse, h1, h2, h3, Except.map]

/-- Witness for claim C7: the universally quantified rejection clause applied
at the concrete raw string "yes" (and, for case-sensitivity, at "True"). -/
theorem c7_boolean_coercion_witness :
    (("yes" : String) ≠ "true" ∧ ("yes" : String) ≠ "false" ∧ ("yes" : String) ≠ "on"
      ∧ coerceBooleanFormData "yes" = .error boolAsStringMessage)
    ∧ (("True" : String) ≠ "true"
      ∧ coerceBooleanFormData "True" = .error boolAsStringMessage) := by
  exact ⟨⟨by decide, by decide, by decide,
      c7_boolean_coercion.2.2.2.1 "yes" (by decide) (by decide) (by decide)⟩,
    by decide,
      c7_boolean_coercion.2.2.2.1 "True" (by decide) (by decide) (by decide)⟩

/-- Lexicographic order on character lists by code unit, the comparison JS
`Array.prototype.sort()` applies to string keys. -/
def charsLe : List Char → List Char → Bool
  | [], _ => true
  | _ :: _, [] => false
  | a :: as, b :: bs => if a = b then charsLe as bs else decide (a.val < b.val)

/-- Lexicographic string order by code unit (the ASCII keys of the flat maps
order identically under UTF-16 code units and unicode scalar values). -/
def strLe (a b : String) : Bool :=
  charsLe a.data b.data

/-- Ordered insertion for the insertion sort below. -/
def insertLe {α : Type} (le : α → α → Bool) (x : α) : List α → List α
  | [] => [x]
  | y :: ys => if le x y then x :: y :: ys else y :: insertLe le x ys

/-- Insertion sort; stable, so it agrees with the JS sort on the key lists
involved here (which are duplicate-free). -/
def sortByLe {α : Type} (le : α → α → Bool) (l : List α) : List α :=
  l.foldr (insertLe le) []

/-- Parser for the key pattern used throughout getFieldArrayHelpers
(src/src/index.ts lines 241-380), the regex path\.(\d+)(.*) anchored at the
start: the key must extend path with a dot, then a maximal nonempty run of
decimal digits (the element index), and the remainder is the suffix. -/
def parseIdxKey (path key : String) : Option (Nat × String) :=
  if (path.data ++ ['.']).isPrefixOf key.data then
    let rest := key.data.drop (path.data.length + 1)
    let digits := rest.takeWhile (fun c => c.isDigit)
    let suffix := rest.dropWhile (fun c => c.isDigit)
    if digits = [] then none else some (digitsToNat ⟨digits⟩, ⟨suffix⟩)
  else none

/-- Maximal element index present under the array path, -1 when none: the
filter-and-reduce at the start of the add helper (src/src/index.ts lines
244-251). -/
def currentMaxIdx (m : List (String × JSV)) (path : String) : Int :=
  (recKeys m).foldl (fun mx k =>
    if strStartsWith k (path ++ ".") then
      match parseIdxKey path k with
      | some (i, _) => max mx (Int.ofNat i)
      | none => mx
    else mx) (-1)

/-- Port of the add helper (src/src/index.ts lines 241-283). The update
starts from a copy of the previous map; when inserting at an occupied index,
all keys at or past the insertion index are shifted up by one, iterating the
key snapshot in reverse sorted order, each step writing the shifted key and
deleting the old one; then the new value is written, object values spreading
into one entry per field. -/
def fieldArrayAdd (m : List (String × JSV)) (path : String) (value : JSV)
    (atIndex : Option Nat) : List (String × JSV) :=
  let maxIdx := currentMaxIdx m path
  let insertIndex : Nat := match atIndex with
    | some i => i
    | none => (maxIdx + 1).toNat
  let m1 := match atIndex with
    | some i =>
      if (Int.ofNat i) ≤ maxIdx then
        ((sortByLe strLe (recKeys m)).reverse).foldl (fun acc k =>
          match parseIdxKey path k with
          | some (ci, suffix) =>
            if ci ≥ insertIndex then
              recDelete (recSet acc (path ++ "." ++ toString (ci + 1) ++ suffix)
                ((recGet acc k).getD .vUndef)) k
            else acc
          | none => acc) m
      else m
    | none => m
  match value with
  | .vObj fields => fields.foldl (fun acc p =>
      recSet acc (path ++ "." ++ toString insertIndex ++ "." ++ p.1) p.2) m1
  | .vArr xs => (xs.enum).foldl (fun acc p =>
      recSet acc (path ++ "." ++ toString insertIndex ++ "." ++ toString p.1) p.2) m1
  | _ => recSet m1 (path ++ "." ++ toString insertIndex) value

/-- Port of the remove helper (src/src/index.ts lines 284-314): delete every
key that starts with path.index, then shift every key with a larger element
index down by one, iterating the fresh key snapshot in insertion order. -/
def fieldArrayRemove (m : List (String × JSV)) (path : String) (index : Nat) :
    List (String × JSV) :=
  let m1 := (recKeys m).foldl (fun acc k =>
    if strStartsWith k (path ++ "." ++ toString index) then recDelete acc k else acc) m
  (recKeys m1).foldl (fun acc k =>
    match parseIdxKey path k with
    | some (ci, suffix) =>
      if ci > index then
        recDelete (recSet acc (path ++ "." ++ toString (ci - 1) ++ suffix)
          ((recGet acc k).getD .vUndef)) k
      else acc
    | none => acc) m1

/-- Port of the move helper (src/src/index.ts lines 315-380): collect the
moved element's entries by suffix, delete them, shift the intermediate
elements (down by one when moving towards larger indices, in insertion
order; up by one when moving towards smaller indices, in reverse sorted
order), then write the moved entries at the target index. -/
def fieldArrayMove (m : List (String × JSV)) (path : String)
    (fromIndex toIndex : Nat) : List (String × JSV) :=
  let itemKeys := (recKeys m).filter (fun k =>
    match parseIdxKey path k with
    | some (ci, _) => ci == fromIndex
    | none => false)
  if itemKeys = [] then m
  else
    let itemData := itemKeys.foldl (fun acc k =>
      match parseIdxKey path k with
      | some (_, suffix) => recSet acc suffix ((recGet m k).getD .vUndef)
      | none => acc) ([] : List (String × JSV))
    let m1 := itemKeys.foldl (fun acc k => recDelete acc k) m
    let m2 :=
      if fromIndex < toIndex then
        (recKeys m1).foldl (fun acc k =>
          match parseIdxKey path k with
          | some (ci, suffix) =>
            if fromIndex < ci ∧ ci ≤ toIndex then
              recDelete (recSet acc (path ++ "." ++ toString (ci - 1) ++ suffix)
                ((recGet acc k).getD .vUndef)) k
            else acc
          | none => acc) m1
      else if toIndex < fromIndex then
        ((sortByLe strLe (recKeys m1)).reverse).foldl (fun acc k =>
          match parseIdxKey path k with
          | some (ci, suffix) =>
            if toIndex ≤ ci ∧ ci < fromIndex then
              recDelete (recSet acc (path ++ "." ++ toString (ci + 1) ++ suffix)
                ((recGet acc k).getD .vUndef)) k
            else acc
          | none => acc) m1
      else m1
    itemData.foldl (fun acc p =>
      recSet acc (path ++ "." ++ toString toIndex ++ p.1) p.2) m2

/-- Observable array at a path, derived from the flat map the way the field
binding projection derives it (src/src/get-field-props.ts lines 213-237):
collect the element indices present among the keys, sort them numerically,
and read the value at each index path. -/
def readFieldArray (m : List (String × JSV)) (path : String) : List JSV :=
  let idxs := (recKeys m).foldl (fun s k =>
    match parseIdxKey path k with
    | some (i, _) => if i ∈ s then s else s ++ [i]
    | none => s) ([] : List Nat)
  (sortByLe (fun a b => decide (a ≤ b)) idxs).map (fun i =>
    (recGet m (path ++ "." ++ toString i)).getD .vUndef)

/-- Claim C8: starting from the flat map for ["A","B","C"] at path items,
the mutation sequence add("X", 1), move(3, 0), remove(2), add("Z") produces
the arrays ["A","X","B","C"], ["C","A","X","B"], ["C","A","B"] and
["C","A","B","Z"] in turn, and every committed intermediate map is free of
key collisions (each operation computes its result from a copy before it is
committed, and no two entries ever share a key). -/
theorem c8_array_mutation_sequence :
    let m0 : List (String × JSV) :=
      [("items.0", .vStr "A"), ("items.1", .vStr "B"), ("items.2", .vStr "C")]
    let m1 := fieldArrayAdd m0 "items" (.vStr "X") (some 1)
    let m2 := fieldArrayMove m1 "items" 3 0
    let m3 := fieldArrayRemove m2 "items" 2
    let m4 := fieldArrayAdd m3 "items" (.vStr "Z") none
    readFieldArray m1 "items" = [.vStr "A", .vStr "X", .vStr "B", .vStr "C"]
    ∧ readFieldArray m2 "items" = [.vStr "C", .vStr "A", .vStr "X", .vStr "B"]
    ∧ readFieldArray m3 "items" = [.vStr "C", .vStr "A", .vStr "B"]
    ∧ readFieldArray m4 "items" = [.vStr "C", .vStr "A", .vStr "B", .vStr "Z"]
    ∧ (recKeys m1).Nodup ∧ (recKeys m2).Nodup ∧ (recKeys m3).Nodup ∧ (recKeys m4).Nodup := by
  decide

/-- Schema fragment for analysing flattenZodFormSchema
(src/src/flatten-zod-form-schema.ts): string leaves, objects, arrays and
lazy wrappers. A lazy wrapper is modelled as a named reference resolved
through an environment, which plays the role of the getter closure; a
self-referential lazy schema is an environment entry that mentions its own
name. -/
inductive SchemaR where
  | rString
  | rObject (shape : List (String × SchemaR))
  | rArray (elem : SchemaR)
  | rLazy (name : String)

mutual

/-- Fuel-indexed embedding of the flatten worker of flattenZodFormSchema
(src/src/flatten-zod-form-schema.ts lines 9-76) on the fragment above. The
source function has no recursion bound of its own; the fuel only bounds the
call depth of the embedding, with none meaning the computation did not
complete within the given depth. Objects recurse per field at prefix.field,
arrays recurse on the element at prefix.#, a lazy wrapper invokes its getter
and recurses at the same prefix with no depth cap of any kind, and leaves
store the schema at the current path. -/
def flattenSchemaRFuel (env : String → SchemaR) :
    Nat → List (String × SchemaR) → SchemaR → String → Option (List (String × SchemaR))
  | 0, _, _, _ => none
  | n + 1, m, s, pfx =>
    match s with
    | .rString => some (recSet m pfx .rString)
    | .rObject shape => flattenSchemaRShape env n m shape pfx
    | .rArray e => flattenSchemaRFuel env n m e (pfx ++ ".#")
    | .rLazy name => flattenSchemaRFuel env n m (env name) pfx
termination_by n _ _ _ => (n, 0)

/-- Field loop of the object case of the fuel-indexed schema flattener. -/
def flattenSchemaRShape (env : String → SchemaR) :
    Nat → List (String × SchemaR) → List (String × SchemaR) → String →
      Option (List (String × SchemaR))
  | _, m, [], _ => some m
  | n, m, (f, fs) :: rest, pfx =>
    match flattenSchemaRFuel env n m fs (joinKey pfx f) with
    | some m2 => flattenSchemaRShape env n m2 rest pfx
    | none => none
termination_by n _ shape _ => (n, 1 + sizeOf shape)

end

/-- Environment of the self-referential lazy comment schema from the
repository's own flatten-zod-form-schema test: a lazy schema whose target is
an object with a string field text and a field replies that is an array of
the lazy schema itself. -/
def selfEnv : String → SchemaR := fun _ =>
  .rObject [("text", .rString), ("replies", .rArray (.rLazy "self"))]

/-- Claim C9: evaluation of the code at the failing input. For every
recursion budget, flattening the self-referential lazy comment schema fails
to complete: the lazy branch of flattenZodFormSchema dereferences the getter
and recurses with no depth cap, so the descent through
lazy, object, replies-array, lazy never terminates (a stack overflow at
runtime), and the repository's own test expectation of a path set capped at
depth three is never produced. -/
theorem c9_lazy_schema_no_cap :
    ∀ (n : Nat) (m : List (String × SchemaR)) (pfx : String),
      flattenSchemaRFuel selfEnv n m (.rLazy "self") pfx = none := by
  intro n
  induction n using Nat.strong_induction_on with
  | _ n ih =>
    intro m pfx
    match n with
    | 0 => simp only [flattenSchemaRFuel]
    | 1 => simp only [flattenSchemaRFuel, selfEnv]
    | 2 => simp only [flattenSchemaRFuel, flattenSchemaRShape, selfEnv]
    | (j + 3) =>
      have hrec := ih j (by omega)
      simp only [flattenSchemaRFuel, flattenSchemaRShape, selfEnv, hrec]

mutual

/-- Port of the flatten worker of flattenZodFormSchema
(src/src/flatten-zod-form-schema.ts lines 9-76) on the embedded schema
fragment, in source case order: objects recurse per field at prefix.field;
arrays recurse on the element at prefix.#; discriminated unions register the
discriminator path as a string leaf and then flatten every option at the
same prefix; plain unions are kept as a single leaf at the prefix; optional
and default unwrap; records recurse on the value schema at prefix.*; every
other node (primitive leaves, literals, and nullable, for which the source
has no case) is stored as a leaf at the current path. -/
def flattenSchemaAux (m : List (String × ZodSchema)) (s : ZodSchema) (pfx : String) :
    List (String × ZodSchema) :=
  match s with
  | .zObject shape => flattenSchemaShape m shape pfx
  | .zArray e => flattenSchemaAux m e (pfx ++ ".#")
  | .zDiscUnion d opts => flattenSchemaOpts (recSet m (joinKey pfx d) .zString) opts pfx
  | .zUnion opts => recSet m pfx (.zUnion opts)
  | .zOptional inner => flattenSchemaAux m inner pfx
  | .zDefault _ inner => flattenSchemaAux m inner pfx
  | .zRecord valT => flattenSchemaAux m valT (pfx ++ ".*")
  | .zString => recSet m pfx .zString
  | .zNumber => recSet m pfx .zNumber
  | .zBool => recSet m pfx .zBool
  | .zLiteral lit => recSet m pfx (.zLiteral lit)
  | .zNullable inner => recSet m pfx (.zNullable inner)

/-- Field loop of the object case of the schema flattener. -/
def flattenSchemaShape (m : List (String × ZodSchema))
    (shape : List (String × ZodSchema)) (pfx : String) : List (String × ZodSchema) :=
  match shape with
  | [] => m
  | (f, fs) :: rest => flattenSchemaShape (flattenSchemaAux m fs (joinKey pfx f)) rest pfx

/-- Option loop of the discriminated-union case of the schema flattener. -/
def flattenSchemaOpts (m : List (String × ZodSchema)) (opts : List ZodSchema)
    (pfx : String) : List (String × ZodSchema) :=
  match opts with
  | [] => m
  | o :: rest => flattenSchemaOpts (flattenSchemaAux m o pfx) rest pfx

end

/-- Port of flattenZodFormSchema (src/src/flatten-zod-form-schema.ts): run
the worker on an empty map; the resulting association list is the shape of
the returned object schema. -/
def flattenZodFormSchema (s : ZodSchema) : List (String × ZodSchema) :=
  flattenSchemaAux [] s ""

/-- Character-level digit-run replacement behind `hashKey`; the flag records
whether the previous character was part of a digit run. -/
def hashChars : List Char → Bool → List Char
  | [], _ => []
  | c :: cs, inRun =>
    if c.isDigit then
      (if inRun then hashChars cs true else '#' :: hashChars cs true)
    else c :: hashChars cs false

/-- Models `key.replace(/(\d+)/g, "#")` used by the submitted-key lookup of
parseFormData and convertFormDataToObject: every maximal run of decimal
digits in the key is replaced by a single hash character. -/
def hashKey (s : String) : String :=
  ⟨hashChars s.data false⟩

/-- Port of matchWildcardString (src/src/parse-zod-form-data.ts lines
76-87): the pattern matches the key when they split into the same number of
dot segments and each pattern segment is the record placeholder star or
equals the corresponding key segment. -/
def matchWildcardString (pattern key : String) : Bool :=
  let pp := splitDot pattern
  let tp := splitDot key
  if pp.length = tp.length then
    (pp.zip tp).all (fun q => q.1 == "*" || q.1 == q.2)
  else false

/-- The per-key schema lookup of the first pass of parseFormData
(src/src/parse-zod-form-data.ts lines 104-112): exact lookup of the
hash-substituted key in the flattened schema shape, with a fallback to the
first star-bearing shape key that wildcard-matches it. -/
def matchingSchemaFor (shape : List (String × ZodSchema)) (keyWithHash : String) :
    Option ZodSchema :=
  match recGet shape keyWithHash with
  | some sch => some sch
  | none =>
    (shape.find? (fun p => p.1.data.contains '*' && matchWildcardString p.1 keyWithHash)).map
      (fun p => p.2)

/-- Models `Number(raw)` on integral spellings: the empty string is 0, an
optional sign followed by a digit run parses as an integer, anything else is
NaN (none). Fractional and exotic spellings do not occur in the behaviours
under study. -/
def jsNumberParse (s : String) : Option Int :=
  match s.data with
  | [] => some 0
  | '-' :: ds =>
    if ds ≠ [] ∧ ds.all (fun c => c.isDigit) then some (-(digitsToNat ⟨ds⟩ : Int)) else none
  | '+' :: ds =>
    if ds ≠ [] ∧ ds.all (fun c => c.isDigit) then some ((digitsToNat ⟨ds⟩ : Int)) else none
  | ds =>
    if ds.all (fun c => c.isDigit) then some ((digitsToNat ⟨ds⟩ : Int)) else none

/-- First pass of parseFormData (src/src/parse-zod-form-data.ts lines
104-159), which coerces each submitted entry: the schema for a key is looked
up through `matchingSchemaFor` on the hash-substituted key; a bare number
leaf uses the lenient Number conversion, recording a coercion error and
retaining the raw string when it yields NaN; any other matched leaf runs the
coercion layer (passed as a parameter: the v4 coerce-form-data module is not
part of the sources, and per the specification the coercion layer is a
per-leaf collaborator producing a typed value or a failure message), with
failures recorded against the key unless the matched schema is a union;
unmatched keys store the raw transport value with no error. -/
def parseStep (shape : List (String × ZodSchema))
    (coerce : ZodSchema → String → Except String JSV)
    (acc : List (String × JSV) × List (String × String)) (e : String × String) :
    List (String × JSV) × List (String × String) :=
  let result := acc.1
  let cErrs := acc.2
  match matchingSchemaFor shape (hashKey e.1) with
  | some msch =>
    match msch with
    | .zNumber =>
      match jsNumberParse e.2 with
      | some val => (recSet result e.1 (.vNum val), cErrs)
      | none => (recSet result e.1 (.vStr e.2),
          recSet cErrs e.1 "Expected number, received string")
    | _ =>
      match coerce msch e.2 with
      | .ok val => (recSet result e.1 val, cErrs)
      | .error msg =>
        match msch with
        | .zUnion _ => (recSet result e.1 (.vStr e.2), cErrs)
        | .zDiscUnion _ _ => (recSet result e.1 (.vStr e.2), cErrs)
        | _ => (recSet result e.1 (.vStr e.2), recSet cErrs e.1 msg)
  | none => (recSet result e.1 (.vStr e.2), cErrs)

/-- The first pass folds the per-entry step over the submitted entries,
starting from an empty result map and an empty coercion-error map. -/
def parseFirstPass (shape : List (String × ZodSchema))
    (coerce : ZodSchema → String → Except String JSV)
    (form : List (String × String)) :
    List (String × JSV) × List (String × String) :=
  form.foldl (parseStep shape coerce) (([], []) : _ × _)

/-- Error payload of a failed parse (src/src/parse-zod-form-data.ts lines
21-26 and 64-74): the optional whole-form and global slots, the nested field
error tree and the flat path-to-message map. -/
structure ParseErrorsM where
  form : Option String
  global : Option String
  fields : JSV
  flattened : List (String × String)

/-- Result of parseFormData: a typed success value or the error payload. -/
inductive ParseResultM where
  | success (data : JSV)
  | failure (errors : ParseErrorsM)

/-- Flat map of validation failures built from the issue list of a failed
full-schema validation (src/src/parse-zod-form-data.ts lines 174-182):
issues with a nonempty path are recorded per joined path, later issues
overwriting earlier ones at the same path. -/
def validationErrorsOf (issues : List (String × String)) : List (String × String) :=
  issues.foldl (fun acc i => if i.1 ≠ "" then recSet acc i.1 i.2 else acc) []

/-- JS object spread `{...a, ...b}` on flat string maps: entries of b
override entries of a at colliding keys. -/
def mergeSpread (a b : List (String × String)) : List (String × String) :=
  b.foldl (fun acc p => recSet acc p.1 p.2) a

/-- Port of buildErrorPayload (src/src/parse-zod-form-data.ts lines 55-74)
as invoked by parseFormData, whose overrides pin form and global to
undefined, so they fall back to the form and global entries of the flat map;
the nested field tree unflattens the non-meta entries. -/
def buildErrorPayloadM (flattened : List (String × String)) : ParseErrorsM :=
  { form := recGet flattened "form"
    global := recGet flattened "global"
    fields := unflattenZodFormData
      ((flattened.filter (fun p => p.1 ≠ "form" ∧ p.1 ≠ "global")).map
        (fun p => (p.1, JSV.vStr p.2))) none
    flattened := flattened }

/-- Port of parseFormData (src/src/parse-zod-form-data.ts lines 89-200).
The full-schema validation is the external collaborator the specification
scopes out; it is passed as a parameter producing either the validated
(possibly transformed) value or a list of path-message issues. After the
coercion pass the flat result is unflattened and validated; success requires
a successful validation and an empty coercion-error map; otherwise the
coercion errors and the validation errors are merged by object spread, with
validation messages taking the colliding keys, and a failure payload is
built from the merged map (or, when the merged map is empty, the data is
returned as a success). -/
def parseFormDataM (s : ZodSchema) (coerce : ZodSchema → String → Except String JSV)
    (validate : JSV → Except (List (String × String)) JSV)
    (form : List (String × String)) : ParseResultM :=
  let shape := flattenZodFormSchema s
  let fp := parseFirstPass shape coerce form
  let unflattenedData := unflattenZodFormData fp.1 none
  match validate unflattenedData with
  | .ok data =>
    if fp.2 = [] then .success data
    else
      let merged := mergeSpread fp.2 []
      if merged = [] then .success data
      else .failure (buildErrorPayloadM merged)
  | .error issues =>
    let merged := mergeSpread fp.2 (validationErrorsOf issues)
    if merged = [] then .success unflattenedData
    else .failure (buildErrorPayloadM merged)

theorem recSet_cons_ne {α : Type} {p : String × α} {rest : List (String × α)}
    {k : String} {v : α} (h : p.1 ≠ k) :
    recSet (p :: rest) k v = p :: recSet rest k v := by
  unfold recSet
  by_cases hr : (rest.any fun q => q.1 == k) = true <;>
    simp [List.any_cons, h, hr]

theorem recGet_cons_self {α : Type} {p : String × α} {rest : List (String × α)}
    (h : p.1 = k) : recGet (p :: rest) k = some p.2 := by
  simp [recGet, List.find?_cons, h]

theorem recGet_cons_ne {α : Type} {p : String × α} {rest : List (String × α)}
    {k : String} (h : p.1 ≠ k) : recGet (p :: rest) k = recGet rest k := by
  simp [recGet, List.find?_cons, h]

theorem recGet_recSet_self {α : Type} (m : List (String × α)) (k : String) (v : α) :
    recGet (recSet m k v) k = some v := by
  induction m with
  | nil => simp [recSet, recGet]
  | cons p rest ih =>
    by_cases hp : p.1 = k
    · unfold recSet
      simp only [List.any_cons, hp, beq_self_eq_true, Bool.true_or, if_pos, List.map_cons]
      simp [recGet, List.find?_cons, hp]
    · rw [recSet_cons_ne hp, recGet_cons_ne hp, ih]

theorem find?_map_replace {α : Type} {k k2 : String} {v : α} (h : k2 ≠ k)
    (l : List (String × α)) :
    (l.map (fun q => if q.1 == k then (k, v) else q)).find? (fun q => q.1 == k2)
      = l.find? (fun q => q.1 == k2) := by
  induction l with
  | nil => rfl
  | cons q qs ih =>
    simp only [List.map_cons]
    by_cases hq : q.1 = k
    · rw [if_pos (show (q.1 == k) = true by simpa using hq)]
      rw [List.find?_cons_of_neg _ (by simpa using Ne.symm h)]
      rw [List.find?_cons_of_neg _ (by simpa using (by rw [hq]; exact Ne.symm h : ¬ q.1 = k2))]
      exact ih
    · rw [if_neg (show ¬ (q.1 == k) = true by simpa using hq)]
      by_cases h2 : q.1 = k2
      · rw [List.find?_cons_of_pos _ (by simpa using h2),
          List.find?_cons_of_pos _ (by simpa using h2)]
      · rw [List.find?_cons_of_neg _ (by simpa using h2),
          List.find?_cons_of_neg _ (by simpa using h2)]
        exact ih

theorem recGet_recSet_ne {α : Type} (m : List (String × α)) {k k2 : String} (v : α)
    (h : k2 ≠ k) : recGet (recSet m k v) k2 = recGet m k2 := by
  unfold recSet
  by_cases hany : (m.any fun p => p.1 == k) = true
  · simp only [if_pos hany]
    unfold recGet
    rw [find?_map_replace h]
  · simp only [if_neg hany]
    unfold recGet
    rw [List.find?_append]
    have : ([(k, v)].find? (fun p => p.1 == k2)) = none := by
      simp [List.find?_cons, Ne.symm h]
    rw [this]
    simp

theorem mem_recKeys_iff_isSome {α : Type} {m : List (String × α)} {k : String} :
    k ∈ recKeys m ↔ (recGet m k).isSome := by
  induction m with
  | nil => simp [recKeys, recGet]
  | cons p rest ih =>
    by_cases hp : p.1 = k
    · simp [recKeys, recGet, List.find?_cons, hp]
    · simp only [recKeys, List.map_cons, List.mem_cons] at *
      rw [recGet_cons_ne hp]
      simpa [Ne.symm hp] using ih

theorem recKeys_recSet {α : Type} (m : List (String × α)) (k : String) (v : α) :
    recKeys (recSet m k v) = if k ∈ recKeys m then recKeys m else recKeys m ++ [k] := by
  unfold recSet recKeys
  have hany : (m.any fun p => p.1 == k) = true ↔ k ∈ m.map (fun p => p.1) := by
    simp [List.any_eq_true, List.mem_map]
  by_cases hc : (m.any fun p => p.1 == k) = true
  · rw [if_pos hc, if_pos (hany.mp hc), List.map_map]
    refine List.map_congr_left ?_
    intro p hp
    by_cases hpk : p.1 = k <;> simp [hpk]
  · rw [if_neg hc, if_neg (fun hmem => hc (hany.mpr hmem))]
    simp

theorem recKeys_recSet_nodup {α : Type} {m : List (String × α)} {k : String} {v : α}
    (h : (recKeys m).Nodup) : (recKeys (recSet m k v)).Nodup := by
  rw [recKeys_recSet]
  by_cases hc : k ∈ recKeys m
  · rwa [if_pos hc]
  · rw [if_neg hc]
    simpa [List.nodup_append] using ⟨h, hc⟩

theorem validationErrorsOf_nodup (issues : List (String × String)) :
    (recKeys (validationErrorsOf issues)).Nodup := by
  unfold validationErrorsOf
  suffices hgen : ∀ acc : List (String × String), (recKeys acc).Nodup →
      (recKeys (issues.foldl
        (fun acc i => if i.1 ≠ "" then recSet acc i.1 i.2 else acc) acc)).Nodup by
    exact hgen [] (by simp [recKeys])
  induction issues with
  | nil => intro acc h; exact h
  | cons i rest ih =>
    intro acc h
    simp only [List.foldl_cons]
    by_cases hi : i.1 ≠ ""
    · rw [if_pos hi]; exact ih _ (recKeys_recSet_nodup h)
    · rw [if_neg hi]; exact ih _ h

theorem recGet_foldl_recSet_not_mem {α : Type} {b : List (String × α)}
    {a : List (String × α)} {p : String} (h : p ∉ recKeys b) :
    recGet (b.foldl (fun acc q => recSet acc q.1 q.2) a) p = recGet a p := by
  induction b generalizing a with
  | nil => rfl
  | cons q rest ih =>
    simp only [recKeys, List.map_cons, List.mem_cons, not_or] at h
    simp only [List.foldl_cons]
    rw [ih (by simpa [recKeys] using h.2)]
    exact recGet_recSet_ne a _ (Ne.symm (by exact fun hh => h.1 hh.symm))

theorem recGet_mergeSpread_right {a b : List (String × String)} {p : String}
    (hnd : (recKeys b).Nodup) (hmem : p ∈ recKeys b) :
    recGet (mergeSpread a b) p = recGet b p := by
  unfold mergeSpread
  induction b generalizing a with
  | nil => cases hmem
  | cons q rest ih =>
    simp only [recKeys, List.map_cons, List.nodup_cons] at hnd
    by_cases hp : p = q.1
    · subst hp
      simp only [List.foldl_cons]
      rw [recGet_foldl_recSet_not_mem (by simpa [recKeys] using hnd.1)]
      rw [recGet_recSet_self]
      exact (recGet_cons_self rfl).symm
    · have hrest : p ∈ recKeys rest := by
        simp only [recKeys, List.map_cons, List.mem_cons] at hmem
        exact hmem.resolve_left hp
      simp only [List.foldl_cons]
      rw [ih hnd.2 hrest]
      exact (recGet_cons_ne (fun hh => hp hh.symm)).symm

theorem mergeSpread_ne_nil_of_mem {a b : List (String × String)} {p : String}
    (hnd : (recKeys b).Nodup) (hmem : p ∈ recKeys b) :
    mergeSpread a b ≠ [] := by
  intro hnil
  have h1 := recGet_mergeSpread_right (a := a) hnd hmem
  rw [hnil] at h1
  have h2 := mem_recKeys_iff_isSome.mp hmem
  rw [← h1] at h2
  simp [recGet] at h2

/-- Claim C6: in a failed submission parse, whenever a coercion failure and
a schema-validation failure are both recorded at the same path, the message
reported for that path in the flattened error map of the returned payload is
the validation message: the merge spreads the validation map second, so its
entries win every key collision. -/
theorem c6_validation_precedence (s : ZodSchema)
    (coerce : ZodSchema → String → Except String JSV)
    (validate : JSV → Except (List (String × String)) JSV)
    (form : List (String × String)) (issues : List (String × String)) (p : String)
    (hval : validate (unflattenZodFormData
      (parseFirstPass (flattenZodFormSchema s) coerce form).1 none) = .error issues)
    (_hpc : p ∈ recKeys (parseFirstPass (flattenZodFormSchema s) coerce form).2)
    (hpv : p ∈ recKeys (validationErrorsOf issues)) :
    ∃ errs : ParseErrorsM, parseFormDataM s coerce validate form = .failure errs
      ∧ recGet errs.flattened p = recGet (validationErrorsOf issues) p := by
  simp only [parseFormDataM, hval]
  rw [if_neg (mergeSpread_ne_nil_of_mem (validationErrorsOf_nodup issues) hpv)]
  exact ⟨_, rfl,
    recGet_mergeSpread_right (validationErrorsOf_nodup issues) hpv⟩

/-- Concrete schema for the C6 witness: a single numeric field. -/
def c6Schema : ZodSchema := .zObject [("age", .zNumber)]

/-- Concrete coercion collaborator for the C6 witness (never consulted: the
only leaf is a bare number, which the first pass handles itself). -/
def c6Coerce : ZodSchema → String → Except String JSV := fun _ _ => .error "unused"

/-- Concrete validation collaborator for the C6 witness: always fails with
one issue at the path age. -/
def c6Validate : JSV → Except (List (String × String)) JSV :=
  fun _ => .error [("age", "Invalid input: expected number")]

/-- Concrete submitted form for the C6 witness: a non-numeric string for the
numeric field, which also produces a coercion failure at the path age. -/
def c6Form : List (String × String) := [("age", "abc")]

/-- Witness for claim C6: on the concrete form both error maps hold the path
age, the parse fails, and the reported message at age is the validation
message. -/
theorem c6_validation_precedence_witness :
    c6Validate (unflattenZodFormData
        (parseFirstPass (flattenZodFormSchema c6Schema) c6Coerce c6Form).1 none)
      = .error [("age", "Invalid input: expected number")]
    ∧ "age" ∈ recKeys (parseFirstPass (flattenZodFormSchema c6Schema) c6Coerce c6Form).2
    ∧ "age" ∈ recKeys (validationErrorsOf [("age", "Invalid input: expected number")])
    ∧ ∃ errs : ParseErrorsM,
        parseFormDataM c6Schema c6Coerce c6Validate c6Form = .failure errs
        ∧ recGet errs.flattened "age"
            = recGet (validationErrorsOf [("age", "Invalid input: expected number")]) "age" :=
  ⟨rfl, by decide, by decide,
    c6_validation_precedence c6Schema c6Coerce c6Validate c6Form _ "age" rfl
      (by decide) (by decide)⟩

theorem splitDotAux_ne_nil (xs cur : List Char) : splitDotAux xs cur ≠ [] := by
  induction xs generalizing cur with
  | nil => simp [splitDotAux]
  | cons c cs ih =>
    by_cases hc : c = '.' <;> simp [splitDotAux, hc, ih]

theorem splitDot_ne_nil (s : String) : splitDot s ≠ [] := by
  unfold splitDot
  simp [splitDotAux_ne_nil]

theorem data_append (a b : String) : (a ++ b).data = a.data ++ b.data := rfl

theorem str_eq_of_data {a b : String} (h : a.data = b.data) : a = b := by
  cases a; cases b; cases h; rfl

theorem splitDotAux_append_dot (xs ys cur : List Char) :
    splitDotAux (xs ++ '.' :: ys) cur = splitDotAux xs cur ++ splitDotAux ys [] := by
  induction xs generalizing cur with
  | nil => simp [splitDotAux]
  | cons c cs ih =>
    by_cases hc : c = '.' <;> simp [splitDotAux, hc, ih]

theorem splitDot_append_dot (a b : String) :
    splitDot (a ++ "." ++ b) = splitDot a ++ splitDot b := by
  unfold splitDot
  rw [data_append, data_append]
  have hdot : ("." : String).data = ['.'] := rfl
  rw [hdot]
  have hassoc : a.data ++ ['.'] ++ b.data = a.data ++ '.' :: b.data := by simp
  rw [hassoc, splitDotAux_append_dot]
  simp

theorem splitDotAux_no_dot {xs cur : List Char} (h : ∀ c ∈ xs, c ≠ '.') :
    splitDotAux xs cur = [cur.reverse ++ xs] := by
  induction xs generalizing cur with
  | nil => simp [splitDotAux]
  | cons c cs ih =>
    have hc : c ≠ '.' := h c (by simp)
    simp only [splitDotAux, if_neg hc]
    rw [ih (fun d hd => h d (by simp [hd]))]
    simp

theorem splitDot_single {x : String} (h : '.' ∉ x.data) : splitDot x = [x] := by
  unfold splitDot
  rw [splitDotAux_no_dot (fun c hc heq => h (heq ▸ hc))]
  simp

theorem splitDot_joinDot : ∀ (l : List String), l ≠ [] →
    (∀ x ∈ l, '.' ∉ x.data) → splitDot (joinDot l) = l
  | [], h, _ => absurd rfl h
  | [x], _, hx => by
    rw [joinDot, splitDot_single (hx x (by simp))]
  | x :: r :: rest, _, hx => by
    rw [joinDot, splitDot_append_dot, splitDot_single (hx x (by simp))]
    rw [splitDot_joinDot (r :: rest) (by simp) (fun y hy => hx y (by simp [hy]))]
    rfl

theorem hashChars_append_dot (a b : List Char) (flag : Bool) :
    hashChars (a ++ '.' :: b) flag = hashChars a flag ++ '.' :: hashChars b false := by
  induction a generalizing flag with
  | nil => simp [hashChars]
  | cons c cs ih =>
    by_cases hc : c.isDigit
    · by_cases hf : flag <;> simp [hashChars, hc, hf, ih]
    · simp [hashChars, hc, ih]

theorem hashKey_joinDot : ∀ l : List String,
    hashKey (joinDot l) = joinDot (l.map hashKey)
  | [] => rfl
  | [x] => rfl
  | x :: r :: rest => by
    show hashKey (x ++ "." ++ joinDot (r :: rest)) = _
    unfold hashKey
    rw [data_append, data_append]
    have hdot : ("." : String).data = ['.'] := rfl
    rw [hdot]
    have hassoc : x.data ++ ['.'] ++ (joinDot (r :: rest)).data
        = x.data ++ '.' :: (joinDot (r :: rest)).data := by simp
    rw [hassoc, hashChars_append_dot]
    have ih := hashKey_joinDot (r :: rest)
    unfold hashKey at ih
    show (⟨hashChars x.data false ++ '.' :: hashChars (joinDot (r :: rest)).data false⟩ : String)
      = joinDot ((x :: r :: rest).map (fun s => (⟨hashChars s.data false⟩ : String)))
    rw [List.map_cons, List.map_cons, joinDot, ← List.map_cons (fun s => (⟨hashChars s.data false⟩ : String)) r rest, ← ih]
    refine str_eq_of_data ?_
    rw [data_append, data_append]
    simp

theorem splitDot_dot_free (s : String) : ∀ x ∈ splitDot s, '.' ∉ x.data := by
  unfold splitDot
  suffices hgen : ∀ xs cur, (∀ c ∈ cur, c ≠ '.') →
      ∀ l ∈ splitDotAux xs cur, ∀ c ∈ l, c ≠ '.' by
    intro x hx hdot
    rcases List.mem_map.mp hx with ⟨l, hl, hxl⟩
    exact hgen s.data [] (by simp) l hl '.' (by rw [← hxl] at hdot; exact hdot) rfl
  intro xs
  induction xs with
  | nil =>
    intro cur hcur l hl c hc
    simp only [splitDotAux, List.mem_singleton] at hl
    subst hl
    exact hcur c (List.mem_reverse.mp hc)
  | cons d ds ih =>
    intro cur hcur l hl c hc
    by_cases hd : d = '.'
    · simp only [splitDotAux, if_pos hd, List.mem_cons] at hl
      rcases hl with hl | hl
      · subst hl; exact hcur c (List.mem_reverse.mp hc)
      · exact ih [] (by simp) l hl c hc
    · simp only [splitDotAux, if_neg hd] at hl
      refine ih (d :: cur) ?_ l hl c hc
      intro e he
      rcases List.mem_cons.mp he with he | he
      · subst he; exact hd
      · exact hcur e he

theorem joinDot_splitDotAux : ∀ (xs cur : List Char),
    joinDot ((splitDotAux xs cur).map (fun l => (⟨l⟩ : String))) = ⟨cur.reverse ++ xs⟩ := by
  intro xs
  induction xs with
  | nil => intro cur; simp [splitDotAux, joinDot]
  | cons c cs ih =>
    intro cur
    by_cases hc : c = '.'
    · simp only [splitDotAux, if_pos hc, List.map_cons]
      have hne := splitDotAux_ne_nil cs ([] : List Char)
      rcases hsp : splitDotAux cs [] with _ | ⟨l, ls⟩
      · exact absurd hsp hne
      · rw [List.map_cons, joinDot]
        have hih := ih ([] : List Char)
        rw [hsp, List.map_cons] at hih
        show (⟨cur.reverse⟩ : String) ++ "." ++ joinDot ((⟨l⟩ : String) :: ls.map (fun l => (⟨l⟩ : String))) = _
        rw [hih]
        subst hc
        refine str_eq_of_data ?_
        rw [data_append, data_append]
        simp
    · simp only [splitDotAux, if_neg hc]
      rw [ih (c :: cur)]
      simp

theorem joinDot_splitDot (s : String) : joinDot (splitDot s) = s := by
  unfold splitDot
  rw [joinDot_splitDotAux]
  rfl

theorem splitDot_hashKey (k : String) :
    splitDot (hashKey k) = (splitDot k).map hashKey := by
  have h1 : hashKey k = hashKey (joinDot (splitDot k)) := by rw [joinDot_splitDot]
  rw [h1, hashKey_joinDot]
  refine splitDot_joinDot _ ?_ ?_
  · simpa using splitDot_ne_nil k
  · intro x hx hdot
    rcases List.mem_map.mp hx with ⟨y, hy, hxy⟩
    subst hxy
    have hyd := splitDot_dot_free k y hy
    -- a dot in hashKey y must come from a dot in y
    suffices hh : ∀ (cs : List Char) (flag : Bool), '.' ∈ hashChars cs flag → '.' ∈ cs by
      exact hyd (hh y.data false hdot)
    intro cs
    induction cs with
    | nil => intro flag h; simp [hashChars] at h
    | cons c cs2 ih =>
      intro flag h
      by_cases hc : c.isDigit
      · by_cases hf : flag
        · simp only [hashChars, if_pos hc, if_pos hf] at h
          exact List.mem_cons_of_mem _ (ih true h)
        · simp only [hashChars, if_pos hc, if_neg hf, List.mem_cons] at h
          rcases h with h | h
          · exact absurd h.symm (by decide)
          · exact List.mem_cons_of_mem _ (ih true h)
      · simp only [hashChars, if_neg hc, List.mem_cons] at h
        rcases h with h | h
        · exact List.mem_cons.mpr (Or.inl h)
        · exact List.mem_cons_of_mem _ (ih false h)

def segOk (y : String) : Prop :=
  y = "#" ∨ (y ≠ "" ∧ '.' ∉ y.data ∧ '#' ∉ y.data ∧ '*' ∉ y.data)

def mixedSeg (x : String) : Prop :=
  (∃ c ∈ x.data, c.isDigit) ∧ ∃ c ∈ x.data, ¬ c.isDigit ∧ c ≠ '#'

theorem hashChars_mem_hash {xs : List Char} (h : ∃ c ∈ xs, c.isDigit) :
    '#' ∈ hashChars xs false := by
  induction xs with
  | nil => simp at h
  | cons c cs ih =>
    by_cases hc : c.isDigit
    · simp [hashChars, hc]
    · rcases h with ⟨d, hd, hdig⟩
      rcases List.mem_cons.mp hd with rfl | hd2
      · exact absurd hdig (by simpa using hc)
      · simp only [hashChars, if_neg hc]
        exact List.mem_cons_of_mem _ (ih ⟨d, hd2, hdig⟩)

theorem hashChars_mem_preserved {xs : List Char} {c : Char} (flag : Bool)
    (hc : c ∈ xs) (hnd : ¬ c.isDigit) : c ∈ hashChars xs flag := by
  induction xs generalizing flag with
  | nil => simp at hc
  | cons d ds ih =>
    rcases List.mem_cons.mp hc with rfl | hc2
    · simp [hashChars, hnd]
    · by_cases hd : d.isDigit
      · by_cases hf : flag
        · simpa [hashChars, hd, hf] using ih true hc2
        · simp only [hashChars, if_pos hd, if_neg hf]
          exact List.mem_cons_of_mem _ (ih true hc2)
      · simp only [hashChars, if_neg hd]
        exact List.mem_cons_of_mem _ (ih false hc2)

theorem hashKey_ne_of_segOk {x y : String} (hx : mixedSeg x) (hy : segOk y) :
    hashKey x ≠ y := by
  intro heq
  obtain ⟨hdig, c0, hc0, hc0nd, hc0ne⟩ := hx
  have hhash : '#' ∈ (hashKey x).data := hashChars_mem_hash hdig
  have hc0mem : c0 ∈ (hashKey x).data := hashChars_mem_preserved false hc0 hc0nd
  rcases hy with hy | ⟨_, _, hyh, _⟩
  · rw [heq, hy] at hc0mem
    exact hc0ne (by simpa using hc0mem)
  · rw [heq] at hhash
    exact hyh hhash

theorem segOk_hash : segOk "#" := Or.inl rfl

/-- A name usable as an object field or discriminator without leaving the
dot/hash/star key grammar: nonempty and free of the dot separator and of the
two placeholder characters. -/
def cleanName (n : String) : Prop :=
  n ≠ "" ∧ '.' ∉ n.data ∧ '#' ∉ n.data ∧ '*' ∉ n.data

theorem segOk_of_cleanName {n : String} (h : cleanName n) : segOk n :=
  Or.inr ⟨h.1, h.2.1, h.2.2.1, h.2.2.2⟩

/-- Record-free schemas whose object field names and discriminators are
clean: the fragment on which every key of the flattened schema splits into
clean or hash segments. Union and nullable nodes are stored as leaves by the
schema flattener, so their contents are unconstrained. -/
inductive CleanSchemaNR : ZodSchema → Prop where
  | str : CleanSchemaNR .zString
  | num : CleanSchemaNR .zNumber
  | bool : CleanSchemaNR .zBool
  | lit (l : JSV) : CleanSchemaNR (.zLiteral l)
  | union (opts : List ZodSchema) : CleanSchemaNR (.zUnion opts)
  | nullable (inner : ZodSchema) : CleanSchemaNR (.zNullable inner)
  | obj (shape : List (String × ZodSchema))
      (hn : ∀ p ∈ shape, cleanName p.1)
      (hs : ∀ p ∈ shape, CleanSchemaNR p.2) : CleanSchemaNR (.zObject shape)
  | arr (e : ZodSchema) (he : CleanSchemaNR e) : CleanSchemaNR (.zArray e)
  | disc (d : String) (opts : List ZodSchema) (hd : cleanName d)
      (ho : ∀ o ∈ opts, CleanSchemaNR o) : CleanSchemaNR (.zDiscUnion d opts)
  | opt (inner : ZodSchema) (hi : CleanSchemaNR inner) :
      CleanSchemaNR (.zOptional inner)
  | dflt (v : JSV) (inner : ZodSchema) (hi : CleanSchemaNR inner) :
      CleanSchemaNR (.zDefault v inner)

theorem mem_recKeys_recSet_elim {α : Type} {m : List (String × α)} {k k2 : String}
    {v : α} (h : k2 ∈ recKeys (recSet m k v)) : k2 ∈ recKeys m ∨ k2 = k := by
  rw [recKeys_recSet] at h
  by_cases hc : k ∈ recKeys m
  · rw [if_pos hc] at h
    exact Or.inl h
  · rw [if_neg hc] at h
    rcases List.mem_append.mp h with h1 | h1
    · exact Or.inl h1
    · exact Or.inr (by simpa using h1)

theorem splitDot_joinKey_segOk {pfx k : String}
    (hp : ∀ x ∈ splitDot pfx, segOk x) (hk : segOk k) :
    ∀ x ∈ splitDot (joinKey pfx k), segOk x := by
  have hpe : pfx ≠ "" := by
    intro he
    subst he
    have hmem : "" ∈ splitDot "" := by
      simp [splitDot, splitDotAux]
    have := hp "" hmem
    simp [segOk] at this
  unfold joinKey
  rw [if_neg hpe]
  intro x hx
  rw [splitDot_append_dot] at hx
  rcases List.mem_append.mp hx with h1 | h1
  · exact hp x h1
  · have hkd : '.' ∉ k.data := by
      rcases hk with hk | hk
      · subst hk; decide
      · exact hk.2.1
    rw [splitDot_single hkd, List.mem_singleton] at h1
    subst h1
    exact hk

mutual

theorem flattenSchemaAux_keys_clean {key : String} :
    ∀ (m : List (String × ZodSchema)) (s : ZodSchema) (pfx : String),
    CleanSchemaNR s → (∀ x ∈ splitDot pfx, segOk x) →
    key ∈ recKeys (flattenSchemaAux m s pfx) →
    key ∈ recKeys m ∨ ∀ x ∈ splitDot key, segOk x
  | m, .zString, pfx, _, hp, h => by
    rcases mem_recKeys_recSet_elim (by simpa only [flattenSchemaAux] using h) with h1 | h1
    · exact Or.inl h1
    · subst h1; exact Or.inr hp
  | m, .zNumber, pfx, _, hp, h => by
    rcases mem_recKeys_recSet_elim (by simpa only [flattenSchemaAux] using h) with h1 | h1
    · exact Or.inl h1
    · subst h1; exact Or.inr hp
  | m, .zBool, pfx, _, hp, h => by
    rcases mem_recKeys_recSet_elim (by simpa only [flattenSchemaAux] using h) with h1 | h1
    · exact Or.inl h1
    · subst h1; exact Or.inr hp
  | m, .zLiteral lit, pfx, _, hp, h => by
    rcases mem_recKeys_recSet_elim (by simpa only [flattenSchemaAux] using h) with h1 | h1
    · exact Or.inl h1
    · subst h1; exact Or.inr hp
  | m, .zUnion opts, pfx, _, hp, h => by
    rcases mem_recKeys_recSet_elim (by simpa only [flattenSchemaAux] using h) with h1 | h1
    · exact Or.inl h1
    · subst h1; exact Or.inr hp
  | m, .zNullable inner, pfx, _, hp, h => by
    rcases mem_recKeys_recSet_elim (by simpa only [flattenSchemaAux] using h) with h1 | h1
    · exact Or.inl h1
    · subst h1; exact Or.inr hp
  | m, .zObject shape, pfx, hc, hp, h => by
    cases hc with
    | obj _ hn hs =>
      exact flattenSchemaShape_keys_clean m shape pfx hn hs (Or.inr hp)
        (by simpa only [flattenSchemaAux] using h)
  | m, .zArray e, pfx, hc, hp, h => by
    cases hc with
    | arr _ he =>
      refine flattenSchemaAux_keys_clean m e (pfx ++ ".#") he ?_
        (by simpa only [flattenSchemaAux] using h)
      have hsplit : pfx ++ ".#" = pfx ++ "." ++ "#" := by
        refine str_eq_of_data ?_
        show pfx.data ++ ['.', '#'] = (pfx.data ++ ['.']) ++ ['#']
        simp
      rw [hsplit]
      intro x hx
      rw [splitDot_append_dot] at hx
      rcases List.mem_append.mp hx with h1 | h1
      · exact hp x h1
      · rw [splitDot_single (by decide), List.mem_singleton] at h1
        subst h1
        exact segOk_hash
  | _, .zRecord valT, _, hc, _, _ => by cases hc
  | m, .zOptional inner, pfx, hc, hp, h => by
    cases hc with
    | opt _ hi =>
      exact flattenSchemaAux_keys_clean m inner pfx hi hp
        (by simpa only [flattenSchemaAux] using h)
  | m, .zDefault dv inner, pfx, hc, hp, h => by
    cases hc with
    | dflt _ _ hi =>
      exact flattenSchemaAux_keys_clean m inner pfx hi hp
        (by simpa only [flattenSchemaAux] using h)
  | m, .zDiscUnion d opts, pfx, hc, hp, h => by
    cases hc with
    | disc _ _ hd ho =>
      rcases flattenSchemaOpts_keys_clean _ opts pfx ho hp
          (by simpa only [flattenSchemaAux] using h) with h1 | h1
      · rcases mem_recKeys_recSet_elim h1 with h2 | h2
        · exact Or.inl h2
        · subst h2
          exact Or.inr (splitDot_joinKey_segOk hp (segOk_of_cleanName hd))
      · exact Or.inr h1
termination_by m s pfx _ _ _ => sizeOf s

theorem flattenSchemaShape_keys_clean {key : String} :
    ∀ (m : List (String × ZodSchema)) (shape : List (String × ZodSchema)) (pfx : String),
    (∀ p ∈ shape, cleanName p.1) → (∀ p ∈ shape, CleanSchemaNR p.2) →
    (pfx = "" ∨ ∀ x ∈ splitDot pfx, segOk x) →
    key ∈ recKeys (flattenSchemaShape m shape pfx) →
    key ∈ recKeys m ∨ ∀ x ∈ splitDot key, segOk x
  | m, [], pfx, _, _, _, h => Or.inl (by simpa only [flattenSchemaShape] using h)
  | m, (f, fs) :: rest, pfx, hn, hs, hp, h => by
    have hf : cleanName f := hn (f, fs) (List.mem_cons_self _ _)
    have hfs : CleanSchemaNR fs := hs (f, fs) (List.mem_cons_self _ _)
    have hjk : ∀ x ∈ splitDot (joinKey pfx f), segOk x := by
      rcases hp with hp0 | hps
      · subst hp0
        unfold joinKey
        rw [if_pos rfl]
        intro x hx
        rw [splitDot_single hf.2.1, List.mem_singleton] at hx
        subst hx
        exact segOk_of_cleanName hf
      · exact splitDot_joinKey_segOk hps (segOk_of_cleanName hf)
    rcases flattenSchemaShape_keys_clean _ rest pfx
        (fun q hq => hn q (List.mem_cons_of_mem _ hq))
        (fun q hq => hs q (List.mem_cons_of_mem _ hq)) hp
        (by simpa only [flattenSchemaShape] using h) with h1 | h1
    · exact flattenSchemaAux_keys_clean m fs (joinKey pfx f) hfs hjk h1
    · exact Or.inr h1
termination_by m shape pfx _ _ _ _ => sizeOf shape

theorem flattenSchemaOpts_keys_clean {key : String} :
    ∀ (m : List (String × ZodSchema)) (opts : List ZodSchema) (pfx : String),
    (∀ o ∈ opts, CleanSchemaNR o) → (∀ x ∈ splitDot pfx, segOk x) →
    key ∈ recKeys (flattenSchemaOpts m opts pfx) →
    key ∈ recKeys m ∨ ∀ x ∈ splitDot key, segOk x
  | m, [], pfx, _, _, h => Or.inl (by simpa only [flattenSchemaOpts] using h)
  | m, o :: rest, pfx, ho, hp, h => by
    rcases flattenSchemaOpts_keys_clean _ rest pfx
        (fun q hq => ho q (List.mem_cons_of_mem _ hq)) hp
        (by simpa only [flattenSchemaOpts] using h) with h1 | h1
    · exact flattenSchemaAux_keys_clean m o pfx (ho o (List.mem_cons_self _ _)) hp h1
    · exact Or.inr h1
termination_by m opts pfx _ _ _ => sizeOf opts

end

theorem flattenZodFormSchema_keys_clean {shape : List (String × ZodSchema)}
    {key : String}
    (hn : ∀ p ∈ shape, cleanName p.1) (hs : ∀ p ∈ shape, CleanSchemaNR p.2)
    (h : key ∈ recKeys (flattenZodFormSchema (.zObject shape))) :
    ∀ x ∈ splitDot key, segOk x := by
  rcases flattenSchemaShape_keys_clean [] shape "" hn hs (Or.inl rfl)
      (by simpa only [flattenZodFormSchema, flattenSchemaAux] using h) with h1 | h1
  · simp [recKeys] at h1
  · exact h1

theorem segOk_star_free {x : String} (h : segOk x) : '*' ∉ x.data := by
  rcases h with h | h
  · subst h; decide
  · exact h.2.2.2

theorem joinDot_star_free : ∀ l : List String, (∀ x ∈ l, '*' ∉ x.data) →
    '*' ∉ (joinDot l).data
  | [], _ => by simp [joinDot]
  | [s], h => by simpa [joinDot] using h s (by simp)
  | s :: r :: rest, h => by
    show '*' ∉ (s ++ "." ++ joinDot (r :: rest)).data
    rw [data_append, data_append]
    intro hmem
    rcases List.mem_append.mp hmem with h1 | h1
    · rcases List.mem_append.mp h1 with h2 | h2
      · exact h s (by simp) h2
      · exact absurd h2 (by decide)
    · exact joinDot_star_free (r :: rest) (fun x hx => h x (List.mem_cons_of_mem _ hx)) h1

theorem key_star_free_of_segOk {key : String} (h : ∀ x ∈ splitDot key, segOk x) :
    '*' ∉ key.data := by
  have hj := joinDot_splitDot key
  rw [← hj]
  exact joinDot_star_free _ (fun x hx => segOk_star_free (h x hx))

theorem matchingSchemaFor_none_of_mixed {shape : List (String × ZodSchema)}
    {key : String}
    (hseg : ∀ k ∈ recKeys shape, ∀ x ∈ splitDot k, segOk x)
    (hmx : ∃ x ∈ splitDot key, mixedSeg x) :
    matchingSchemaFor shape (hashKey key) = none := by
  obtain ⟨x, hxmem, hxmix⟩ := hmx
  have hget : recGet shape (hashKey key) = none := by
    cases hg : recGet shape (hashKey key) with
    | none => rfl
    | some sch =>
      have hk : hashKey key ∈ recKeys shape :=
        mem_recKeys_iff_isSome.mpr (by rw [hg]; rfl)
      have hsg := hseg _ hk (hashKey x) (by
        rw [splitDot_hashKey]
        exact List.mem_map_of_mem _ hxmem)
      exact absurd rfl (hashKey_ne_of_segOk hxmix hsg)
  have hfind : (shape.find? (fun p => p.1.data.contains '*' &&
      matchWildcardString p.1 (hashKey key))) = none := by
    rw [List.find?_eq_none]
    intro p hpmem
    have hstar : '*' ∉ p.1.data :=
      key_star_free_of_segOk (hseg _ (List.mem_map_of_mem _ hpmem))
    simp [hstar]
  unfold matchingSchemaFor
  rw [hget]
  show (shape.find? (fun p => p.1.data.contains '*' &&
      matchWildcardString p.1 (hashKey key))).map (fun p => p.2) = none
  rw [hfind]
  rfl

theorem parseStep_preserve (shape : List (String × ZodSchema))
    (coerce : ZodSchema → String → Except String JSV)
    (acc : List (String × JSV) × List (String × String)) (e : String × String)
    {k : String} (h : k ≠ e.1) :
    recGet (parseStep shape coerce acc e).1 k = recGet acc.1 k ∧
    recGet (parseStep shape coerce acc e).2 k = recGet acc.2 k := by
  simp only [parseStep]
  constructor <;>
    (repeat' split) <;>
    first
      | exact recGet_recSet_ne _ _ h
      | rfl

theorem parseFirstPass_foldl_preserve (shape : List (String × ZodSchema))
    (coerce : ZodSchema → String → Except String JSV)
    (rest : List (String × String))
    (acc : List (String × JSV) × List (String × String)) {k : String}
    (h : ∀ e ∈ rest, k ≠ e.1) :
    recGet (rest.foldl (parseStep shape coerce) acc).1 k = recGet acc.1 k ∧
    recGet (rest.foldl (parseStep shape coerce) acc).2 k = recGet acc.2 k := by
  induction rest generalizing acc with
  | nil => exact ⟨rfl, rfl⟩
  | cons e rest2 ih =>
    have h1 := parseStep_preserve shape coerce acc e (h e (List.mem_cons_self _ _))
    simp only [List.foldl_cons]
    have h2 := ih (parseStep shape coerce acc e)
      (fun q hq => h q (List.mem_cons_of_mem _ hq))
    exact ⟨h2.1.trans h1.1, h2.2.trans h1.2⟩

theorem parseFirstPass_unmatched (shape : List (String × ZodSchema))
    (coerce : ZodSchema → String → Except String JSV)
    (form : List (String × String)) (k raw : String)
    (hnd : (form.map Prod.fst).Nodup)
    (hmem : (k, raw) ∈ form)
    (hnone : matchingSchemaFor shape (hashKey k) = none) :
    recGet (parseFirstPass shape coerce form).1 k = some (.vStr raw) ∧
    recGet (parseFirstPass shape coerce form).2 k = none := by
  unfold parseFirstPass
  have hgen : ∀ (fm : List (String × String))
      (acc : List (String × JSV) × List (String × String)),
      (fm.map Prod.fst).Nodup → (k, raw) ∈ fm → recGet acc.2 k = none →
      recGet (fm.foldl (parseStep shape coerce) acc).1 k = some (.vStr raw) ∧
      recGet (fm.foldl (parseStep shape coerce) acc).2 k = none := by
    intro fm
    induction fm with
    | nil => intro acc _ hm _; cases hm
    | cons e rest ih =>
      intro acc hnd2 hm hacc
      simp only [List.map_cons, List.nodup_cons] at hnd2
      simp only [List.foldl_cons]
      rcases List.mem_cons.mp hm with he | he
      · have hee : e = (k, raw) := he.symm
        subst hee
        have hrest : ∀ q ∈ rest, k ≠ q.1 := by
          intro q hq hkq
          exact hnd2.1 (by rw [hkq]; exact List.mem_map.mpr ⟨q, hq, rfl⟩)
        have hres := parseFirstPass_foldl_preserve shape coerce rest
          (parseStep shape coerce acc (k, raw)) hrest
        refine ⟨?_, ?_⟩
        · rw [hres.1]
          simp [parseStep, hnone, recGet_recSet_self]
        · rw [hres.2]
          simpa [parseStep, hnone] using hacc
      · have hke : k ≠ e.1 := by
          intro hkk
          have hmm : k ∈ rest.map Prod.fst := List.mem_map_of_mem Prod.fst he
          rw [hkk] at hmm
          exact hnd2.1 hmm
        have hstep := parseStep_preserve shape coerce acc e hke
        exact ih (parseStep shape coerce acc e) hnd2.2 he (hstep.2.trans hacc)
  exact hgen form ([], []) hnd hmem rfl

/-- Discriminated union mixing an object option (inner object with the
digit-bearing field b2) and a record option at the same path: the record
option contributes the wildcard shape key status.inner.*. -/
def c10CxSchema : ZodSchema :=
  .zObject [("status", .zDiscUnion "type"
    [.zObject [("type", .zLiteral (.vStr "a")),
       ("inner", .zObject [("b2", .zNumber)])],
     .zObject [("type", .zLiteral (.vStr "b")),
       ("inner", .zRecord .zBool)]])]

/-- A coercion layer that rejects every raw string, to exhibit a recorded
coercion error at the digit-bearing key. -/
def c10CxCoerce : ZodSchema → String → Except String JSV :=
  fun _ _ => .error "Expected boolean"

/-- C10 counterexample: the schema path status.inner.b2 contains the
digit-bearing field name b2, yet the hash-substituted lookup DOES find a
schema: the key hashes to status.inner.b# and the wildcard shape key
status.inner.* coming from the record option of the sibling union member
matches it, so the entry is coerced against that schema and a coercion
error IS recorded when the coercion fails — refuting both the no-match and
the no-coercion-error parts of the claim. -/
theorem c10_counterexample :
    (∃ x ∈ splitDot "status.inner.b2", mixedSeg x) ∧
    matchingSchemaFor (flattenZodFormSchema c10CxSchema) (hashKey "status.inner.b2")
      = some .zBool ∧
    recGet (parseFirstPass (flattenZodFormSchema c10CxSchema) c10CxCoerce
      [("status.inner.b2", "yes")]).2 "status.inner.b2" = some "Expected boolean" :=
  ⟨⟨"b2", by decide, by unfold mixedSeg; decide⟩, rfl, rfl⟩

/-- C10 (amended): over record-free schemas whose object field names and
discriminators are clean (nonempty, free of dots and of the hash and star
placeholders), the digit-run hash substitution makes every submitted key one
of whose dot segments mixes digits with other characters unmatchable: the
lookup finds no schema, the first pass stores the raw transport string at
that key uncoerced, and records no coercion error for it. -/
theorem c10_digit_run_hash_unmatched
    (shape : List (String × ZodSchema))
    (coerce : ZodSchema → String → Except String JSV)
    (form : List (String × String)) (k raw : String)
    (hclean1 : ∀ p ∈ shape, cleanName p.1)
    (hclean2 : ∀ p ∈ shape, CleanSchemaNR p.2)
    (hmx : ∃ x ∈ splitDot k, mixedSeg x)
    (hnd : (form.map Prod.fst).Nodup)
    (hmem : (k, raw) ∈ form) :
    matchingSchemaFor (flattenZodFormSchema (.zObject shape)) (hashKey k) = none ∧
    recGet (parseFirstPass (flattenZodFormSchema (.zObject shape)) coerce form).1 k
      = some (.vStr raw) ∧
    recGet (parseFirstPass (flattenZodFormSchema (.zObject shape)) coerce form).2 k
      = none := by
  have hnone := matchingSchemaFor_none_of_mixed
    (fun k2 hk2 => flattenZodFormSchema_keys_clean hclean1 hclean2 hk2) hmx
  have hparse := parseFirstPass_unmatched (flattenZodFormSchema (.zObject shape))
    coerce form k raw hnd hmem hnone
  exact ⟨hnone, hparse.1, hparse.2⟩

/-- Shape of the witness schema: a digit-bearing field name next to a plain
one. -/
def c10Shape : List (String × ZodSchema) :=
  [("address2", .zNumber), ("name", .zString)]

/-- Identity-like coercion layer for the witness. -/
def c10Coerce : ZodSchema → String → Except String JSV :=
  fun _ s => .ok (.vStr s)

/-- Submitted entries for the witness. -/
def c10Form : List (String × String) :=
  [("address2", "12 High St"), ("name", "Ann")]

/-- Witness for c10_digit_run_hash_unmatched on the concrete schema
{address2: number, name: string} and the submission {address2: "12 High St",
name: "Ann"}: address2 hashes to address# which matches no shape key, so the
raw string is kept and no coercion error is recorded. -/
theorem c10_digit_run_hash_unmatched_witness :
    matchingSchemaFor (flattenZodFormSchema (.zObject c10Shape)) (hashKey "address2")
      = none ∧
    recGet (parseFirstPass (flattenZodFormSchema (.zObject c10Shape)) c10Coerce
      c10Form).1 "address2" = some (.vStr "12 High St") ∧
    recGet (parseFirstPass (flattenZodFormSchema (.zObject c10Shape)) c10Coerce
      c10Form).2 "address2" = none :=
  c10_digit_run_hash_unmatched c10Shape c10Coerce c10Form "address2" "12 High St"
    (by intro p hp; rcases List.mem_cons.mp hp with h | h
        · subst h; exact ⟨by decide, by decide, by decide, by decide⟩
        · rcases List.mem_cons.mp h with h2 | h2
          · subst h2; exact ⟨by decide, by decide, by decide, by decide⟩
          · cases h2)
    (by intro p hp; rcases List.mem_cons.mp hp with h | h
        · subst h; exact .num
        · rcases List.mem_cons.mp h with h2 | h2
          · subst h2; exact .str
          · cases h2)
    ⟨"address2", by decide, by unfold mixedSeg; decide⟩
    (by decide)
    (by decide)

def digitsVal (a : Nat) (l : List Char) : Nat :=
  l.foldl (fun n c => n * 10 + (c.toNat - 48)) a

theorem digitChar_val {n : Nat} (h : n < 10) : (Nat.digitChar n).toNat - 48 = n := by
  interval_cases n <;> rfl

theorem digitChar_isDigit {n : Nat} (h : n < 10) : (Nat.digitChar n).isDigit = true := by
  interval_cases n <;> rfl

theorem toDigitsCore_append : ∀ (fuel n : Nat) (ds : List Char),
    Nat.toDigitsCore 10 fuel n ds = Nat.toDigitsCore 10 fuel n [] ++ ds := by
  intro fuel
  induction fuel with
  | zero => intro n ds; rfl
  | succ fuel ih =>
    intro n ds
    show Nat.toDigitsCore 10 (fuel + 1) n ds = Nat.toDigitsCore 10 (fuel + 1) n [] ++ ds
    simp only [Nat.toDigitsCore]
    by_cases h : n / 10 = 0
    · rw [if_pos h, if_pos h]
      rfl
    · rw [if_neg h, if_neg h]
      rw [ih (n / 10) (Nat.digitChar (n % 10) :: ds), ih (n / 10) [Nat.digitChar (n % 10)]]
      simp

theorem digitsVal_append (a : Nat) (l1 l2 : List Char) :
    digitsVal a (l1 ++ l2) = digitsVal (digitsVal a l1) l2 := by
  simp [digitsVal, List.foldl_append]

theorem toDigitsCore_val : ∀ (fuel n : Nat), n < fuel → ∀ a : Nat,
    digitsVal a (Nat.toDigitsCore 10 fuel n []) =
      a * 10 ^ (Nat.toDigitsCore 10 fuel n []).length + n := by
  intro fuel
  induction fuel with
  | zero => intro n h; exact absurd h (Nat.not_lt_zero n)
  | succ fuel ih =>
    intro n h a
    show digitsVal a (Nat.toDigitsCore 10 (fuel + 1) n []) =
      a * 10 ^ (Nat.toDigitsCore 10 (fuel + 1) n []).length + n
    simp only [Nat.toDigitsCore]
    by_cases h0 : n / 10 = 0
    · rw [if_pos h0]
      have hn : n < 10 := by omega
      show digitsVal a [Nat.digitChar (n % 10)] = a * 10 ^ ([Nat.digitChar (n % 10)]).length + n
      have hd : (Nat.digitChar (n % 10)).toNat - 48 = n % 10 :=
        digitChar_val (Nat.mod_lt _ (by norm_num))
      simp [digitsVal, hd]
      omega
    · rw [if_neg h0]
      rw [toDigitsCore_append]
      rw [digitsVal_append]
      have hlt : n / 10 < fuel := by
        have h1 : n / 10 < n := Nat.div_lt_self (by omega) (by norm_num)
        omega
      rw [ih (n / 10) hlt a]
      have hd : (Nat.digitChar (n % 10)).toNat - 48 = n % 10 :=
        digitChar_val (Nat.mod_lt _ (by norm_num))
      simp [digitsVal, hd, List.length_append, pow_succ]
      have hmod := Nat.div_add_mod n 10
      set L := (Nat.toDigitsCore 10 fuel (n / 10) []).length
      generalize (10 : Nat) ^ L = X
      ring_nf
      omega

theorem toDigitsCore_ne_nil : ∀ (fuel n : Nat), 0 < fuel →
    Nat.toDigitsCore 10 fuel n [] ≠ [] := by
  intro fuel
  induction fuel with
  | zero => intro n h; omega
  | succ fuel ih =>
    intro n _
    show Nat.toDigitsCore 10 (fuel + 1) n [] ≠ []
    simp only [Nat.toDigitsCore]
    by_cases h : n / 10 = 0
    · rw [if_pos h]; simp
    · rw [if_neg h]
      rw [toDigitsCore_append]
      simp

theorem toDigitsCore_digits : ∀ (fuel n : Nat),
    ∀ c ∈ Nat.toDigitsCore 10 fuel n [], c.isDigit = true := by
  intro fuel
  induction fuel with
  | zero => intro n c hc; simp [Nat.toDigitsCore] at hc
  | succ fuel ih =>
    intro n c hc
    rw [show Nat.toDigitsCore 10 (fuel + 1) n [] =
        (if n / 10 = 0 then [Nat.digitChar (n % 10)]
         else Nat.toDigitsCore 10 fuel (n / 10) [Nat.digitChar (n % 10)]) by
      simp only [Nat.toDigitsCore]] at hc
    by_cases h : n / 10 = 0
    · rw [if_pos h] at hc
      rw [List.mem_singleton] at hc
      subst hc
      exact digitChar_isDigit (Nat.mod_lt _ (by norm_num))
    · rw [if_neg h, toDigitsCore_append] at hc
      rcases List.mem_append.mp hc with h1 | h1
      · exact ih (n / 10) c h1
      · rw [List.mem_singleton] at h1
        subst h1
        exact digitChar_isDigit (Nat.mod_lt _ (by norm_num))

theorem toString_nat_data (n : Nat) :
    (toString n).data = Nat.toDigitsCore 10 (n + 1) n [] := rfl

theorem digitsToNat_toString (n : Nat) : digitsToNat (toString n) = n := by
  show digitsVal 0 (Nat.toDigitsCore 10 (n + 1) n []) = n
  rw [toDigitsCore_val (n + 1) n (by omega) 0]
  simp

theorem jsIsNumeric_toString (n : Nat) : jsIsNumeric (toString n) = true := by
  show (Nat.toDigitsCore 10 (n + 1) n []).all (fun c => c.isDigit) = true
  rw [List.all_eq_true]
  exact toDigitsCore_digits (n + 1) n

theorem toString_nat_ne_empty (n : Nat) : toString n ≠ "" := by
  intro h
  have h2 : (toString n).data = [] := by rw [h]
  rw [toString_nat_data] at h2
  exact toDigitsCore_ne_nil (n + 1) n (by omega) h2

theorem toString_nat_dot_free (n : Nat) : '.' ∉ (toString n).data := by
  intro h
  rw [toString_nat_data] at h
  have hd := toDigitsCore_digits (n + 1) n '.' h
  exact absurd hd (by decide)

theorem toString_nat_injective {a b : Nat} (h : toString a = toString b) : a = b := by
  have h2 := congrArg digitsToNat h
  rwa [digitsToNat_toString, digitsToNat_toString] at h2

/-- A JS property name safe for the dot-path grammar of the flatteners and
for object (rather than array) rebuilding by the nest helper: nonempty,
dot-free and not a digit run. -/
def nameOk (f : String) : Prop :=
  f ≠ "" ∧ '.' ∉ f.data ∧ jsIsNumeric f = false

/-- Schemas whose flattened entries never start with a numeric segment:
everything except arrays, looking through the unwrapping wrappers. The nest
helper cannot rebuild an array directly inside an array (that branch of the
source only logs a warning), so array element schemas must satisfy this. -/
def nonArrayB : ZodSchema → Bool
  | .zArray _ => false
  | .zOptional inner => nonArrayB inner
  | .zNullable inner => nonArrayB inner
  | .zDefault _ inner => nonArrayB inner
  | _ => true

/-- The option selected by the discriminated-union scan of the value
flattener: the first object option whose discriminator field is a literal
equal to the runtime discriminator value (compare `flattenDiscScan`). -/
def discScanFind : List ZodSchema → String → JSV → Option (List (String × ZodSchema))
  | [], _, _ => none
  | .zObject shape :: rest, d, l =>
    match extractLiteralValue (shapeGet shape d) with
    | some l2 => if beqV l2 l then some shape else discScanFind rest d l
    | none => discScanFind rest d l
  | _ :: rest, d, l => discScanFind rest d l

mutual

/-- The entries the value flattener appends for one subtree, as relative
segment paths paired with leaf values: the segment-level view of
`flattenAux` at a fresh prefix, in emission order. -/
def entriesAux (s : ZodSchema) (v : JSV) : List (List String × JSV) :=
  match s with
  | .zDiscUnion d opts =>
    let discValue : JSV := match v with | .vObj fs => getF fs d | _ => .vUndef
    ([d], discValue) :: (match v with
      | .vObj _ =>
        if discValue = .vUndef then []
        else entriesDiscScan opts d discValue v
      | _ => [])
  | .zObject shape =>
    match v with
    | .vObj _ => entriesObjFields shape v
    | .vArr _ => entriesObjFields shape v
    | _ => []
  | .zArray e =>
    match v with
    | .vArr xs => entriesArrElems e xs 0
    | _ => []
  | .zUnion _ => [([], v)]
  | .zOptional inner => entriesAux inner v
  | .zDefault dflt inner => entriesAux inner (if v = .vUndef then dflt else v)
  | .zRecord valT =>
    match v with
    | .vObj fs => entriesRecEntries valT fs
    | .vArr xs => entriesRecEntries valT (xs.enum.map (fun p => (toString p.1, p.2)))
    | _ => []
  | .zNullable inner => if v = .vNull then [] else entriesAux inner v
  | .zLiteral lit => [([], lit)]
  | .zString => [([], v)]
  | .zNumber => [([], v)]
  | .zBool => [([], v)]
termination_by (sizeOf s, 0)

/-- Segment-level view of the object field loop. -/
def entriesObjFields (shape : List (String × ZodSchema)) (v : JSV) :
    List (List String × JSV) :=
  match shape with
  | [] => []
  | (f, fs) :: rest =>
    (entriesAux fs (getProp v f)).map (fun q => (f :: q.1, q.2)) ++ entriesObjFields rest v
termination_by (sizeOf shape, 0)

/-- Segment-level view of the option scan of the discriminated-union case
(compare `flattenDiscScan`). -/
def entriesDiscScan (opts : List ZodSchema) (d : String) (discValue : JSV) (v : JSV) :
    List (List String × JSV) :=
  match opts with
  | [] => []
  | .zObject shape :: rest =>
    match extractLiteralValue (shapeGet shape d) with
    | some l =>
      if beqV l discValue then entriesDiscFields shape d v
      else entriesDiscScan rest d discValue v
    | none => entriesDiscScan rest d discValue v
  | _ :: rest => entriesDiscScan rest d discValue v
termination_by (sizeOf opts, 1)

/-- Segment-level view of the matched-option field loop (the discriminator
field is skipped). -/
def entriesDiscFields (shape : List (String × ZodSchema)) (d : String) (v : JSV) :
    List (List String × JSV) :=
  match shape with
  | [] => []
  | (f, fs) :: rest =>
    if f = d then entriesDiscFields rest d v
    else (entriesAux fs (getProp v f)).map (fun q => (f :: q.1, q.2)) ++
      entriesDiscFields rest d v
termination_by (sizeOf shape, 0)

/-- Segment-level view of the array element loop. -/
def entriesArrElems (e : ZodSchema) (xs : List JSV) (i : Nat) :
    List (List String × JSV) :=
  match xs with
  | [] => []
  | x :: rest =>
    (entriesAux e x).map (fun q => (toString i :: q.1, q.2)) ++ entriesArrElems e rest (i + 1)
termination_by (sizeOf e, 1 + xs.length)

/-- Segment-level view of the record entry loop. -/
def entriesRecEntries (valT : ZodSchema) (entries : List (String × JSV)) :
    List (List String × JSV) :=
  match entries with
  | [] => []
  | (k, w) :: rest =>
    (entriesAux valT w).map (fun q => (k :: q.1, q.2)) ++ entriesRecEntries valT rest
termination_by (sizeOf valT, 1 + entries.length)

end

/-- One submitted entry as seen from the immediate parent container: how the
nest helper transforms the child slot when the entry's remaining path and
leaf value are applied below it. Mirrors the two fresh-container branches of
the middle-segment cases of `nestL` and the overwrite of the last-segment
case. -/
def nestStep (cur : JSV) (e : List String × JSV) : JSV :=
  match e.1 with
  | [] => e.2
  | nk :: _ =>
    nestL (if jsTruthy cur then cur
           else if jsIsNumeric nk then .vArr [] else .vObj []) e.1 e.2

/-- Folding the nest helper over segment-level entries: the core loop of
`unflattenZodFormData` after the keys are split at the dots. -/
def foldNest (data : JSV) (es : List (List String × JSV)) : JSV :=
  es.foldl (fun acc e => nestL acc e.1 e.2) data

/-- Canonical fully-populated values for the round-trip: object and record
fields are present in declaration order under clean non-numeric names,
containers are nonempty, array elements are not themselves arrays, literal
positions hold the literal, nullable holds a non-null value, default a
defined one, and a discriminated-union value lists the discriminator first,
matching the first option the flattener scan selects, whose shape declares
the discriminator literal first. -/
inductive Valid : ZodSchema → JSV → Prop where
  | vstr (v : JSV) : Valid .zString v
  | vnum (v : JSV) : Valid .zNumber v
  | vbool (v : JSV) : Valid .zBool v
  | vunion (opts : List ZodSchema) (v : JSV) : Valid (.zUnion opts) v
  | vlit (l : JSV) : Valid (.zLiteral l) l
  | vopt {inner : ZodSchema} {v : JSV} (h : Valid inner v) : Valid (.zOptional inner) v
  | vnullable {inner : ZodSchema} {v : JSV} (hn : v ≠ .vNull) (h : Valid inner v) :
      Valid (.zNullable inner) v
  | vdefault {dflt : JSV} {inner : ZodSchema} {v : JSV} (hu : v ≠ .vUndef)
      (h : Valid inner v) : Valid (.zDefault dflt inner) v
  | vobj {shape : List (String × ZodSchema)} {fields : List (String × JSV)}
      (hne : shape ≠ [])
      (hnames : fields.map Prod.fst = shape.map Prod.fst)
      (hnd : (shape.map Prod.fst).Nodup)
      (hok : ∀ f ∈ shape.map Prod.fst, nameOk f)
      (hf : ∀ p ∈ shape, Valid p.2 (getF fields p.1)) :
      Valid (.zObject shape) (.vObj fields)
  | varr {e : ZodSchema} {xs : List JSV}
      (hne : xs ≠ [])
      (hna : nonArrayB e = true)
      (hx : ∀ x ∈ xs, Valid e x) :
      Valid (.zArray e) (.vArr xs)
  | vrec {valT : ZodSchema} {fs : List (String × JSV)}
      (hne : fs ≠ [])
      (hnd : (fs.map Prod.fst).Nodup)
      (hok : ∀ k ∈ fs.map Prod.fst, nameOk k)
      (hv : ∀ p ∈ fs, Valid valT p.2) :
      Valid (.zRecord valT) (.vObj fs)
  | vdisc {d : String} {opts : List ZodSchema} {l : JSV}
      {oshape : List (String × ZodSchema)} {flds : List (String × JSV)}
      (hdok : nameOk d) (hl : l ≠ .vUndef)
      (hfind : discScanFind opts d l = some ((d, .zLiteral l) :: oshape))
      (hdnotin : d ∉ oshape.map Prod.fst)
      (hnd : (oshape.map Prod.fst).Nodup)
      (hok : ∀ f ∈ oshape.map Prod.fst, nameOk f)
      (hnames : flds.map Prod.fst = oshape.map Prod.fst)
      (hf : ∀ p ∈ oshape, Valid p.2 (getF flds p.1)) :
      Valid (.zDiscUnion d opts) (.vObj ((d, l) :: flds))

theorem setF_eq_recSet (o : List (String × JSV)) (k : String) (v : JSV) :
    setF o k v = recSet o k v := rfl

theorem getF_eq_recGet (o : List (String × JSV)) (k : String) :
    getF o k = (recGet o k).getD .vUndef := by
  unfold getF recGet
  cases h : o.find? (fun p => p.1 == k) <;> simp [h]

theorem getF_cons_self {f : String} {w : JSV} {rest : List (String × JSV)} :
    getF ((f, w) :: rest) f = w := by
  simp [getF, List.find?_cons]

theorem getF_cons_ne {f k : String} {w : JSV} {rest : List (String × JSV)}
    (h : f ≠ k) : getF ((f, w) :: rest) k = getF rest k := by
  simp [getF, List.find?_cons, h]

theorem getF_append_not_mem {o : List (String × JSV)} {rest : List (String × JSV)}
    {f : String} (h : ∀ p ∈ o, p.1 ≠ f) : getF (o ++ rest) f = getF rest f := by
  induction o with
  | nil => rfl
  | cons p ps ih =>
    rw [List.cons_append]
    obtain ⟨a, b⟩ := p
    rw [getF_cons_ne (h (a, b) (List.mem_cons_self _ _))]
    exact ih (fun q hq => h q (List.mem_cons_of_mem _ hq))

theorem recSet_recSet_self {α : Type} (m : List (String × α)) (k : String) (v w : α) :
    recSet (recSet m k v) k w = recSet m k w := by
  induction m with
  | nil => simp [recSet]
  | cons p rest ih =>
    by_cases hp : p.1 = k
    · have hany : ((p :: rest).any fun q => q.1 == k) = true := by
        simp [List.any_cons, hp]
      unfold recSet
      rw [if_pos hany]
      have hmap : ((p :: rest).map (fun q => if q.1 == k then (k, v) else q))
          = (k, v) :: rest.map (fun q => if q.1 == k then (k, v) else q) := by
        simp [hp]
      rw [hmap]
      have hany2 : (((k, v) :: rest.map (fun q => if q.1 == k then (k, v) else q)).any
          fun q => q.1 == k) = true := by
        simp [List.any_cons]
      rw [if_pos hany2, if_pos hany]
      have hmap2 : ((p :: rest).map (fun q => if q.1 == k then (k, w) else q))
          = (k, w) :: rest.map (fun q => if q.1 == k then (k, w) else q) := by
        simp [hp]
      rw [hmap2]
      simp only [List.map_cons, List.map_map]
      congr 1
      · simp
      · refine List.map_congr_left ?_
        intro q hq
        by_cases hqk : q.1 = k <;> simp [hqk]
    · rw [recSet_cons_ne hp, recSet_cons_ne hp, recSet_cons_ne hp, ih]

theorem setF_setF_self (o : List (String × JSV)) (f : String) (v w : JSV) :
    setF (setF o f v) f w = setF o f w := by
  rw [setF_eq_recSet, setF_eq_recSet, setF_eq_recSet]
  exact recSet_recSet_self o f v w

theorem getF_setF_self (o : List (String × JSV)) (f : String) (w : JSV) :
    getF (setF o f w) f = w := by
  rw [setF_eq_recSet, getF_eq_recGet, recGet_recSet_self]
  rfl

theorem setF_fresh_append {o : List (String × JSV)} {f : String} {w : JSV}
    (h : ∀ p ∈ o, p.1 ≠ f) : setF o f w = o ++ [(f, w)] := by
  have hany : (o.any fun p => p.1 == f) = false := by
    rw [List.any_eq_false]
    intro p hp
    simpa using h p hp
  unfold setF
  rw [hany]
  simp

theorem arrGet_out {xs : List JSV} {i : Nat} (h : xs.length ≤ i) :
    arrGet xs i = .vUndef := by
  unfold arrGet
  rw [List.get?_eq_none.mpr h]
  rfl

theorem arrGet_last (a : List JSV) (c : JSV) : arrGet (a ++ [c]) a.length = c := by
  unfold arrGet
  rw [List.get?_append_right (le_refl _)]
  simp

theorem arrSet_append_len (a : List JSV) (x : JSV) : arrSet a a.length x = a ++ [x] := by
  unfold arrSet
  rw [if_neg (lt_irrefl _)]
  simp

theorem arrSet_last (a : List JSV) (c x : JSV) :
    arrSet (a ++ [c]) a.length x = a ++ [x] := by
  unfold arrSet
  rw [if_pos (by simp)]
  rw [List.set_append_right _ _ (le_refl _)]
  simp

theorem nestL_obj_shape (o : List (String × JSV)) (ks : List String) (hks : ks ≠ [])
    (val : JSV) : ∃ o2, nestL (.vObj o) ks val = .vObj o2 := by
  rcases ks with _ | ⟨k, _ | ⟨nk, rest⟩⟩
  · exact absurd rfl hks
  · exact ⟨setF o k val, rfl⟩
  · by_cases h1 : jsIsNumeric nk = true <;> by_cases h2 : jsTruthy (getF o k) = true <;>
      simp [nestL, h1, h2]

theorem jsTruthy_nestL {c : JSV} {ks : List String} {val : JSV} (hks : ks ≠ [])
    (hc : jsTruthy c = true) : jsTruthy (nestL c ks val) = true := by
  cases c with
  | vObj o =>
    obtain ⟨o2, ho2⟩ := nestL_obj_shape o ks hks val
    rw [ho2]
    rfl
  | vArr a =>
    rcases ks with _ | ⟨k, _ | ⟨nk, rest⟩⟩
    · exact absurd rfl hks
    · rfl
    · by_cases h1 : jsIsNumeric nk = true <;>
        by_cases h2 : arrGet a (digitsToNat k) ≠ .vUndef <;>
        simp [nestL, jsTruthy, h1, h2]
  | vUndef => simp [jsTruthy] at hc
  | vNull => simp [jsTruthy] at hc
  | vStr s =>
    rcases ks with _ | ⟨k, _ | ⟨nk, rest⟩⟩
    · exact absurd rfl hks
    · exact hc
    · by_cases h1 : jsIsNumeric nk = true <;> simp [nestL, h1, hc]
  | vNum n =>
    rcases ks with _ | ⟨k, _ | ⟨nk, rest⟩⟩
    · exact absurd rfl hks
    · exact hc
    · by_cases h1 : jsIsNumeric nk = true <;> simp [nestL, h1, hc]
  | vBool b =>
    rcases ks with _ | ⟨k, _ | ⟨nk, rest⟩⟩
    · exact absurd rfl hks
    · exact hc
    · by_cases h1 : jsIsNumeric nk = true <;> simp [nestL, h1, hc]

theorem nestStep_truthy {c : JSV} {e : List String × JSV} (hc : jsTruthy c = true)
    (he : e.1 ≠ []) : nestStep c e = nestL c e.1 e.2 := by
  rcases e with ⟨ks, val⟩
  rcases ks with _ | ⟨nk, rest⟩
  · exact absurd rfl he
  · simp [nestStep, hc]

theorem foldNest_eq_foldl_nestStep : ∀ (T : List (List String × JSV)) (c : JSV),
    jsTruthy c = true → (∀ e ∈ T, e.1 ≠ []) →
    List.foldl nestStep c T = foldNest c T := by
  intro T
  induction T with
  | nil => intro c _ _; rfl
  | cons e rest ih =>
    intro c hc he
    have he0 : e.1 ≠ [] := he e (List.mem_cons_self _ _)
    simp only [List.foldl_cons, foldNest]
    rw [nestStep_truthy hc he0]
    have htr : jsTruthy (nestL c e.1 e.2) = true := jsTruthy_nestL he0 hc
    exact ih (nestL c e.1 e.2) htr (fun q hq => he q (List.mem_cons_of_mem _ hq))

theorem getF_not_mem {o : List (String × JSV)} {f : String}
    (h : ∀ p ∈ o, p.1 ≠ f) : getF o f = .vUndef := by
  induction o with
  | nil => rfl
  | cons p ps ih =>
    obtain ⟨a, b⟩ := p
    rw [getF_cons_ne (h (a, b) (List.mem_cons_self _ _))]
    exact ih (fun q hq => h q (List.mem_cons_of_mem _ hq))

theorem foldNest_append (d : JSV) (A B : List (List String × JSV)) :
    foldNest d (A ++ B) = foldNest (foldNest d A) B := by
  simp [foldNest, List.foldl_append]

theorem nestL_obj_step (o : List (String × JSV)) (f : String) (e : List String × JSV) :
    nestL (.vObj o) (f :: e.1) e.2 = .vObj (setF o f (nestStep (getF o f) e)) := by
  rcases e with ⟨ks, val⟩
  rcases ks with _ | ⟨nk, ks2⟩
  · rfl
  · by_cases h1 : jsIsNumeric nk = true <;> by_cases h2 : jsTruthy (getF o f) = true <;>
      simp [nestL, nestStep, h1, h2]

theorem foldNest_objField : ∀ (T : List (List String × JSV))
    (o : List (String × JSV)) (f : String), T ≠ [] →
    foldNest (.vObj o) (T.map (fun q => (f :: q.1, q.2)))
      = .vObj (setF o f (List.foldl nestStep (getF o f) T)) := by
  intro T
  induction T with
  | nil => intro o f h; exact absurd rfl h
  | cons e rest ih =>
    intro o f _
    simp only [List.map_cons, foldNest, List.foldl_cons]
    rw [nestL_obj_step]
    cases rest with
    | nil => rfl
    | cons e2 rest2 =>
      have hih := ih (setF o f (nestStep (getF o f) e)) f (by simp)
      simp only [foldNest] at hih
      rw [hih, getF_setF_self, setF_setF_self]

theorem nestL_arr_step_fresh (a : List JSV) (e : List String × JSV)
    (he : e.1 ≠ []) (hnum : jsIsNumeric (e.1.headD "") = false) :
    nestL (.vArr a) (toString a.length :: e.1) e.2
      = .vArr (a ++ [nestStep .vUndef e]) := by
  rcases e with ⟨ks, val⟩
  rcases ks with _ | ⟨nk, ks2⟩
  · exact absurd rfl he
  · simp only [List.headD] at hnum
    have hidx : digitsToNat (toString a.length) = a.length := digitsToNat_toString _
    have hget : arrGet a a.length = .vUndef := arrGet_out (le_refl _)
    show nestL (.vArr a) (toString a.length :: nk :: ks2) val
      = .vArr (a ++ [nestStep .vUndef (nk :: ks2, val)])
    have hrhs : nestStep .vUndef ((nk :: ks2, val) : List String × JSV)
        = nestL (.vObj []) (nk :: ks2) val := by
      simp [nestStep, jsTruthy, hnum]
    rw [hrhs]
    simp only [nestL]
    rw [if_neg (by simp [hnum])]
    rw [hidx]
    rw [if_neg (by rw [hget]; simp)]
    rw [arrSet_append_len]

theorem nestL_arr_step_go (a : List JSV) (o : List (String × JSV))
    (e : List String × JSV) (he : e.1 ≠ [])
    (hnum : jsIsNumeric (e.1.headD "") = false) :
    nestL (.vArr (a ++ [.vObj o])) (toString a.length :: e.1) e.2
      = .vArr (a ++ [nestStep (.vObj o) e]) := by
  rcases e with ⟨ks, val⟩
  rcases ks with _ | ⟨nk, ks2⟩
  · exact absurd rfl he
  · simp only [List.headD] at hnum
    have hidx : digitsToNat (toString a.length) = a.length := digitsToNat_toString _
    have hget : arrGet (a ++ [.vObj o]) a.length = .vObj o := arrGet_last a _
    show nestL (.vArr (a ++ [.vObj o])) (toString a.length :: nk :: ks2) val
      = .vArr (a ++ [nestStep (.vObj o) (nk :: ks2, val)])
    have hrhs : nestStep (.vObj o) ((nk :: ks2, val) : List String × JSV)
        = nestL (.vObj o) (nk :: ks2) val := by
      simp [nestStep, jsTruthy]
    rw [hrhs]
    simp only [nestL]
    rw [if_neg (by simp [hnum])]
    rw [hidx]
    rw [if_pos (by rw [hget]; simp)]
    rw [hget, arrSet_last]

theorem foldNest_arrElem_go : ∀ (T : List (List String × JSV)) (a : List JSV)
    (o : List (String × JSV)),
    (∀ e ∈ T, e.1 ≠ [] ∧ jsIsNumeric (e.1.headD "") = false) →
    foldNest (.vArr (a ++ [.vObj o])) (T.map (fun q => (toString a.length :: q.1, q.2)))
      = .vArr (a ++ [List.foldl nestStep (.vObj o) T]) := by
  intro T
  induction T with
  | nil => intro a o _; rfl
  | cons e rest ih =>
    intro a o hT
    have he := hT e (List.mem_cons_self _ _)
    simp only [List.map_cons, foldNest, List.foldl_cons]
    rw [nestL_arr_step_go a o e he.1 he.2]
    have hstep : nestStep (.vObj o) e = nestL (.vObj o) e.1 e.2 :=
      nestStep_truthy rfl he.1
    obtain ⟨o2, ho2⟩ := nestL_obj_shape o e.1 he.1 e.2
    rw [hstep, ho2]
    have hih := ih a o2 (fun q hq => hT q (List.mem_cons_of_mem _ hq))
    simp only [foldNest] at hih
    exact hih

theorem foldNest_arrElem (T : List (List String × JSV)) (a : List JSV)
    (hne : T ≠ [])
    (hcl : (∃ w, T = [([], w)]) ∨
      ∀ e ∈ T, e.1 ≠ [] ∧ jsIsNumeric (e.1.headD "") = false) :
    foldNest (.vArr a) (T.map (fun q => (toString a.length :: q.1, q.2)))
      = .vArr (a ++ [List.foldl nestStep .vUndef T]) := by
  rcases hcl with ⟨w, hw⟩ | hcl
  · subst hw
    rfl
  · rcases T with _ | ⟨e, rest⟩
    · exact absurd rfl hne
    · have he := hcl e (List.mem_cons_self _ _)
      simp only [List.map_cons, foldNest, List.foldl_cons]
      rw [nestL_arr_step_fresh a e he.1 he.2]
      have hstep2 : nestStep .vUndef e = nestL (.vObj []) e.1 e.2 := by
        rcases e with ⟨ks, val⟩
        rcases ks with _ | ⟨nk, ks2⟩
        · exact absurd rfl he.1
        · simp only [List.headD] at he
          simp [nestStep, jsTruthy, he.2]
      obtain ⟨o2, ho2⟩ := nestL_obj_shape [] e.1 he.1 e.2
      rw [hstep2, ho2]
      have hih := foldNest_arrElem_go rest a o2
        (fun q hq => hcl q (List.mem_cons_of_mem _ hq))
      simp only [foldNest] at hih
      exact hih

theorem foldl_nestStep_start (q0 : List String × JSV) (rest : List (List String × JSV))
    (h0 : q0.1 ≠ []) (hall : ∀ q ∈ q0 :: rest, q.1 ≠ []) :
    List.foldl nestStep .vUndef (q0 :: rest)
      = foldNest (if jsIsNumeric (q0.1.headD "") then .vArr [] else .vObj [])
          (q0 :: rest) := by
  have hstep : nestStep .vUndef q0
      = nestL (if jsIsNumeric (q0.1.headD "") then .vArr [] else .vObj []) q0.1 q0.2 := by
    rcases q0 with ⟨ks, val⟩
    rcases ks with _ | ⟨nk, ks2⟩
    · exact absurd rfl h0
    · simp [nestStep, jsTruthy]
  simp only [List.foldl_cons, foldNest]
  rw [hstep]
  have htr : jsTruthy (nestL (if jsIsNumeric (q0.1.headD "") then .vArr [] else .vObj [])
      q0.1 q0.2) = true := by
    apply jsTruthy_nestL h0
    by_cases hn : jsIsNumeric (q0.1.headD "") = true
    · rw [if_pos hn]; rfl
    · rw [if_neg hn]; rfl
  have hrest := foldNest_eq_foldl_nestStep rest _ htr
    (fun q hq => hall q (List.mem_cons_of_mem _ hq))
  simp only [foldNest] at hrest
  rw [hrest]

theorem getProp_obj (fields : List (String × JSV)) (f : String) :
    getProp (.vObj fields) f = getF fields f := rfl

theorem entriesDiscScan_find {opts : List ZodSchema} {d : String} {l : JSV}
    {shape : List (String × ZodSchema)} (h : discScanFind opts d l = some shape)
    (v : JSV) : entriesDiscScan opts d l v = entriesDiscFields shape d v := by
  induction opts with
  | nil => simp [discScanFind] at h
  | cons o rest ih =>
    cases o with
    | zObject shape2 =>
      simp only [discScanFind] at h
      simp only [entriesDiscScan]
      cases hlit : extractLiteralValue (shapeGet shape2 d) with
      | some l2 =>
        rw [hlit] at h
        by_cases hb : beqV l2 l = true
        · simp only [hb, if_true] at h ⊢
          simp only [Option.some.injEq] at h
          rw [h]
        · simp only [hb, if_false] at h ⊢
          exact ih h
      | none =>
        rw [hlit] at h
        exact ih h
    | zString =>
      simp only [discScanFind] at h
      simpa only [entriesDiscScan] using ih h
    | zNumber =>
      simp only [discScanFind] at h
      simpa only [entriesDiscScan] using ih h
    | zBool =>
      simp only [discScanFind] at h
      simpa only [entriesDiscScan] using ih h
    | zLiteral lit =>
      simp only [discScanFind] at h
      simpa only [entriesDiscScan] using ih h
    | zArray e =>
      simp only [discScanFind] at h
      simpa only [entriesDiscScan] using ih h
    | zRecord valT =>
      simp only [discScanFind] at h
      simpa only [entriesDiscScan] using ih h
    | zOptional inner =>
      simp only [discScanFind] at h
      simpa only [entriesDiscScan] using ih h
    | zNullable inner =>
      simp only [discScanFind] at h
      simpa only [entriesDiscScan] using ih h
    | zDefault dflt inner =>
      simp only [discScanFind] at h
      simpa only [entriesDiscScan] using ih h
    | zUnion opts2 =>
      simp only [discScanFind] at h
      simpa only [entriesDiscScan] using ih h
    | zDiscUnion d2 opts2 =>
      simp only [discScanFind] at h
      simpa only [entriesDiscScan] using ih h

theorem entriesDiscFields_no_d {shape : List (String × ZodSchema)} {d : String}
    (h : d ∉ shape.map Prod.fst) (v : JSV) :
    entriesDiscFields shape d v = entriesObjFields shape v := by
  induction shape with
  | nil => simp [entriesDiscFields, entriesObjFields]
  | cons p rest ih =>
    obtain ⟨f, fs⟩ := p
    simp only [List.map_cons, List.mem_cons, not_or] at h
    simp only [entriesDiscFields, entriesObjFields]
    rw [if_neg (fun hfd => h.1 hfd.symm)]
    rw [ih h.2]

theorem entriesAux_disc_eq {d : String} {opts : List ZodSchema} {l : JSV}
    {oshape : List (String × ZodSchema)} (flds : List (String × JSV))
    (hl : l ≠ .vUndef)
    (hfind : discScanFind opts d l = some ((d, .zLiteral l) :: oshape))
    (hdnotin : d ∉ oshape.map Prod.fst) :
    entriesAux (.zDiscUnion d opts) (.vObj ((d, l) :: flds))
      = ([d], l) :: entriesObjFields oshape (.vObj ((d, l) :: flds)) := by
  simp only [entriesAux, getF_cons_self]
  rw [if_neg hl]
  rw [entriesDiscScan_find hfind]
  have hskip : entriesDiscFields ((d, ZodSchema.zLiteral l) :: oshape) d
      (.vObj ((d, l) :: flds)) = entriesDiscFields oshape d (.vObj ((d, l) :: flds)) := by
    simp only [entriesDiscFields]
    simp
  rw [hskip, entriesDiscFields_no_d hdnotin]

theorem mem_entriesObjFields {shape : List (String × ZodSchema)} {v : JSV}
    {q : List String × JSV} (h : q ∈ entriesObjFields shape v) :
    ∃ p ∈ shape, ∃ q2 ∈ entriesAux p.2 (getProp v p.1), q = (p.1 :: q2.1, q2.2) := by
  induction shape with
  | nil => simp [entriesObjFields] at h
  | cons p rest ih =>
    obtain ⟨f, fs⟩ := p
    simp only [entriesObjFields] at h
    rcases List.mem_append.mp h with h1 | h1
    · rcases List.mem_map.mp h1 with ⟨q2, hq2, hq⟩
      exact ⟨(f, fs), List.mem_cons_self _ _, q2, hq2, hq.symm⟩
    · obtain ⟨p2, hp2, q2, hq2, hq⟩ := ih h1
      exact ⟨p2, List.mem_cons_of_mem _ hp2, q2, hq2, hq⟩

theorem mem_entriesRecEntries {valT : ZodSchema} {fs : List (String × JSV)}
    {q : List String × JSV} (h : q ∈ entriesRecEntries valT fs) :
    ∃ p ∈ fs, ∃ q2 ∈ entriesAux valT p.2, q = (p.1 :: q2.1, q2.2) := by
  induction fs with
  | nil => simp [entriesRecEntries] at h
  | cons p rest ih =>
    obtain ⟨k, w⟩ := p
    simp only [entriesRecEntries] at h
    rcases List.mem_append.mp h with h1 | h1
    · rcases List.mem_map.mp h1 with ⟨q2, hq2, hq⟩
      exact ⟨(k, w), List.mem_cons_self _ _, q2, hq2, hq.symm⟩
    · obtain ⟨p2, hp2, q2, hq2, hq⟩ := ih h1
      exact ⟨p2, List.mem_cons_of_mem _ hp2, q2, hq2, hq⟩

theorem mem_entriesArrElems {e : ZodSchema} {xs : List JSV} {i : Nat}
    {q : List String × JSV} (h : q ∈ entriesArrElems e xs i) :
    ∃ n, i ≤ n ∧ ∃ x ∈ xs, ∃ q2 ∈ entriesAux e x, q = (toString n :: q2.1, q2.2) := by
  induction xs generalizing i with
  | nil => simp [entriesArrElems] at h
  | cons x rest ih =>
    simp only [entriesArrElems] at h
    rcases List.mem_append.mp h with h1 | h1
    · rcases List.mem_map.mp h1 with ⟨q2, hq2, hq⟩
      exact ⟨i, le_refl _, x, List.mem_cons_self _ _, q2, hq2, hq.symm⟩
    · obtain ⟨n, hn, x2, hx2, q2, hq2, hq⟩ := ih h1
      exact ⟨n, by omega, x2, List.mem_cons_of_mem _ hx2, q2, hq2, hq⟩

theorem canonical_fields_eq : ∀ (shape : List (String × ZodSchema))
    (fields : List (String × JSV)),
    fields.map Prod.fst = shape.map Prod.fst → (shape.map Prod.fst).Nodup →
    shape.map (fun p => (p.1, getF fields p.1)) = fields := by
  intro shape
  induction shape with
  | nil =>
    intro fields hn _
    simp only [List.map_nil] at hn ⊢
    exact (List.map_eq_nil.mp hn).symm
  | cons p rest ih =>
    intro fields hn hnd
    obtain ⟨f, fs⟩ := p
    cases fields with
    | nil => simp at hn
    | cons q qf =>
      obtain ⟨f2, w⟩ := q
      simp only [List.map_cons, List.cons.injEq] at hn
      obtain ⟨hf2, hrest⟩ := hn
      subst hf2
      simp only [List.map_cons, List.nodup_cons] at hnd
      simp only [List.map_cons]
      congr 1
      · rw [getF_cons_self]
      · have hcg : ∀ p2 ∈ rest, getF ((f2, w) :: qf) p2.1 = getF qf p2.1 := by
          intro p2 hp2
          apply getF_cons_ne
          intro hfp
          apply hnd.1
          rw [hfp]
          exact List.mem_map_of_mem Prod.fst hp2
        rw [List.map_congr_left (fun p2 hp2 => by rw [hcg p2 hp2])]
        exact ih qf hrest hnd.2

theorem entries_ne_nil {s : ZodSchema} {v : JSV} (hv : Valid s v) :
    entriesAux s v ≠ [] := by
  induction hv with
  | vstr v => simp [entriesAux]
  | vnum v => simp [entriesAux]
  | vbool v => simp [entriesAux]
  | vunion opts v => simp [entriesAux]
  | vlit l => simp [entriesAux]
  | vopt h ih => simpa only [entriesAux] using ih
  | vnullable hn h ih =>
    simp only [entriesAux]
    rw [if_neg hn]
    exact ih
  | vdefault hu h ih =>
    simp only [entriesAux]
    rw [if_neg hu]
    exact ih
  | @vobj shape fields hne hnames hnd hok hf ih =>
    simp only [entriesAux]
    rcases shape with _ | ⟨⟨f, fs⟩, rest⟩
    · exact absurd rfl hne
    · simp only [entriesObjFields]
      intro hcontra
      rcases List.append_eq_nil.mp hcontra with ⟨h1, _⟩
      exact ih (f, fs) (List.mem_cons_self _ _) (List.map_eq_nil.mp h1)
  | @varr e xs hne hna hx ih =>
    simp only [entriesAux]
    rcases xs with _ | ⟨x, rest⟩
    · exact absurd rfl hne
    · simp only [entriesArrElems]
      intro hcontra
      rcases List.append_eq_nil.mp hcontra with ⟨h1, _⟩
      exact ih x (List.mem_cons_self _ _) (List.map_eq_nil.mp h1)
  | @vrec valT fs hne hnd hok hvv ih =>
    simp only [entriesAux]
    rcases fs with _ | ⟨⟨k, w⟩, rest⟩
    · exact absurd rfl hne
    · simp only [entriesRecEntries]
      intro hcontra
      rcases List.append_eq_nil.mp hcontra with ⟨h1, _⟩
      exact ih (k, w) (List.mem_cons_self _ _) (List.map_eq_nil.mp h1)
  | @vdisc d opts l oshape flds hdok hl hfind hdnotin hnd hok hnames hf ih =>
    simp [entriesAux]

theorem entries_paths_wf {s : ZodSchema} {v : JSV} (hv : Valid s v) :
    ∀ q ∈ entriesAux s v, ∀ x ∈ q.1, x ≠ "" ∧ '.' ∉ x.data := by
  induction hv with
  | vstr v => intro q hq; simp [entriesAux] at hq; subst hq; simp
  | vnum v => intro q hq; simp [entriesAux] at hq; subst hq; simp
  | vbool v => intro q hq; simp [entriesAux] at hq; subst hq; simp
  | vunion opts v => intro q hq; simp [entriesAux] at hq; subst hq; simp
  | vlit l => intro q hq; simp [entriesAux] at hq; subst hq; simp
  | vopt h ih => intro q hq; exact ih q (by simpa only [entriesAux] using hq)
  | vnullable hn h ih =>
    intro q hq
    apply ih
    simp only [entriesAux] at hq
    rwa [if_neg hn] at hq
  | vdefault hu h ih =>
    intro q hq
    apply ih
    simp only [entriesAux] at hq
    rwa [if_neg hu] at hq
  | @vobj shape fields hne hnames hnd hok hf ih =>
    intro q hq
    simp only [entriesAux] at hq
    obtain ⟨p, hp, q2, hq2, hqe⟩ := mem_entriesObjFields hq
    subst hqe
    intro x hx
    rcases List.mem_cons.mp hx with hx | hx
    · subst hx
      have hok2 := hok p.1 (List.mem_map_of_mem Prod.fst hp)
      exact ⟨hok2.1, hok2.2.1⟩
    · exact ih p hp q2 hq2 x hx
  | @varr e xs hne hna hx ih =>
    intro q hq
    simp only [entriesAux] at hq
    obtain ⟨n, _, x2, hx2, q2, hq2, hqe⟩ := mem_entriesArrElems hq
    subst hqe
    intro y hy
    rcases List.mem_cons.mp hy with hy | hy
    · subst hy
      exact ⟨toString_nat_ne_empty n, toString_nat_dot_free n⟩
    · exact ih x2 hx2 q2 hq2 y hy
  | @vrec valT fs hne hnd hok hvv ih =>
    intro q hq
    simp only [entriesAux] at hq
    obtain ⟨p, hp, q2, hq2, hqe⟩ := mem_entriesRecEntries hq
    subst hqe
    intro x hx
    rcases List.mem_cons.mp hx with hx | hx
    · subst hx
      have hok2 := hok p.1 (List.mem_map_of_mem Prod.fst hp)
      exact ⟨hok2.1, hok2.2.1⟩
    · exact ih p hp q2 hq2 x hx
  | @vdisc d opts l oshape flds hdok hl hfind hdnotin hnd hok hnames hf ih =>
    intro q hq
    rw [entriesAux_disc_eq flds hl hfind hdnotin] at hq
    rcases List.mem_cons.mp hq with hq | hq
    · subst hq
      intro x hx
      rw [List.mem_singleton] at hx
      subst hx
      exact ⟨hdok.1, hdok.2.1⟩
    · obtain ⟨p, hp, q2, hq2, hqe⟩ := mem_entriesObjFields hq
      subst hqe
      intro x hx
      rcases List.mem_cons.mp hx with hx | hx
      · subst hx
        have hok2 := hok p.1 (List.mem_map_of_mem Prod.fst hp)
        exact ⟨hok2.1, hok2.2.1⟩
      · have hpd : p.1 ≠ d := fun hh => hdnotin (hh ▸ List.mem_map_of_mem Prod.fst hp)
        have hq2b : q2 ∈ entriesAux p.2 (getF flds p.1) := by
          rw [getProp_obj, getF_cons_ne (fun hh => hpd hh.symm)] at hq2
          exact hq2
        exact ih p hp q2 hq2b x hx

theorem entries_class {s : ZodSchema} {v : JSV} (hv : Valid s v)
    (hna : nonArrayB s = true) :
    (∃ w, entriesAux s v = [([], w)]) ∨
      ∀ q ∈ entriesAux s v, q.1 ≠ [] ∧ jsIsNumeric (q.1.headD "") = false := by
  induction hv with
  | vstr v => exact Or.inl ⟨v, by simp [entriesAux]⟩
  | vnum v => exact Or.inl ⟨v, by simp [entriesAux]⟩
  | vbool v => exact Or.inl ⟨v, by simp [entriesAux]⟩
  | vunion opts v => exact Or.inl ⟨v, by simp [entriesAux]⟩
  | vlit l => exact Or.inl ⟨l, by simp [entriesAux]⟩
  | vopt h ih =>
    simp only [nonArrayB] at hna
    simpa only [entriesAux] using ih hna
  | vnullable hn h ih =>
    simp only [nonArrayB] at hna
    simp only [entriesAux]
    rw [if_neg hn]
    exact ih hna
  | vdefault hu h ih =>
    simp only [nonArrayB] at hna
    simp only [entriesAux]
    rw [if_neg hu]
    exact ih hna
  | @vobj shape fields hne hnames hnd hok hf ih =>
    right
    intro q hq
    simp only [entriesAux] at hq
    obtain ⟨p, hp, q2, hq2, hqe⟩ := mem_entriesObjFields hq
    subst hqe
    exact ⟨by simp, (hok p.1 (List.mem_map_of_mem Prod.fst hp)).2.2⟩
  | @varr e xs hne hna2 hx ih => simp [nonArrayB] at hna
  | @vrec valT fs hne hnd hok hvv ih =>
    right
    intro q hq
    simp only [entriesAux] at hq
    obtain ⟨p, hp, q2, hq2, hqe⟩ := mem_entriesRecEntries hq
    subst hqe
    exact ⟨by simp, (hok p.1 (List.mem_map_of_mem Prod.fst hp)).2.2⟩
  | @vdisc d opts l oshape flds hdok hl hfind hdnotin hnd hok hnames hf ih =>
    right
    intro q hq
    rw [entriesAux_disc_eq flds hl hfind hdnotin] at hq
    rcases List.mem_cons.mp hq with hq | hq
    · subst hq
      exact ⟨by simp, hdok.2.2⟩
    · obtain ⟨p, hp, q2, hq2, hqe⟩ := mem_entriesObjFields hq
      subst hqe
      exact ⟨by simp, (hok p.1 (List.mem_map_of_mem Prod.fst hp)).2.2⟩

theorem foldNest_objGroups : ∀ (rshape : List (String × ZodSchema)) (v : JSV)
    (o : List (String × JSV)),
    (∀ p ∈ rshape, ∀ q ∈ o, q.1 ≠ p.1) →
    ((rshape.map Prod.fst).Nodup) →
    (∀ p ∈ rshape, entriesAux p.2 (getProp v p.1) ≠ [] ∧
      List.foldl nestStep .vUndef (entriesAux p.2 (getProp v p.1)) = getProp v p.1) →
    foldNest (.vObj o) (entriesObjFields rshape v)
      = .vObj (o ++ rshape.map (fun p => (p.1, getProp v p.1))) := by
  intro rshape
  induction rshape with
  | nil => intro v o _ _ _; simp [entriesObjFields, foldNest]
  | cons p rest ih =>
    intro v o hfresh hnd hch
    obtain ⟨f, fs⟩ := p
    simp only [entriesObjFields]
    rw [foldNest_append]
    have hT := hch (f, fs) (List.mem_cons_self _ _)
    rw [foldNest_objField _ o f hT.1]
    have hgf : getF o f = .vUndef :=
      getF_not_mem (fun q hq => hfresh (f, fs) (List.mem_cons_self _ _) q hq)
    rw [hgf, hT.2]
    rw [setF_fresh_append (fun q hq => hfresh (f, fs) (List.mem_cons_self _ _) q hq)]
    simp only [List.map_cons, List.nodup_cons] at hnd
    have hfresh2 : ∀ p2 ∈ rest, ∀ q ∈ o ++ [(f, getProp v f)], q.1 ≠ p2.1 := by
      intro p2 hp2 q hq
      rcases List.mem_append.mp hq with hq | hq
      · exact hfresh p2 (List.mem_cons_of_mem _ hp2) q hq
      · rw [List.mem_singleton] at hq
        subst hq
        intro hh
        apply hnd.1
        have hh2 : f = p2.1 := hh
        rw [hh2]
        exact List.mem_map_of_mem Prod.fst hp2
    have hih := ih v (o ++ [(f, getProp v f)]) hfresh2 hnd.2
      (fun p2 hp2 => hch p2 (List.mem_cons_of_mem _ hp2))
    rw [hih]
    simp

theorem foldNest_recGroups : ∀ (valT : ZodSchema) (fs : List (String × JSV))
    (o : List (String × JSV)),
    (∀ p ∈ fs, ∀ q ∈ o, q.1 ≠ p.1) →
    ((fs.map Prod.fst).Nodup) →
    (∀ p ∈ fs, entriesAux valT p.2 ≠ [] ∧
      List.foldl nestStep .vUndef (entriesAux valT p.2) = p.2) →
    foldNest (.vObj o) (entriesRecEntries valT fs) = .vObj (o ++ fs) := by
  intro valT fs
  induction fs with
  | nil => intro o _ _ _; simp [entriesRecEntries, foldNest]
  | cons p rest ih =>
    intro o hfresh hnd hch
    obtain ⟨k, w⟩ := p
    simp only [entriesRecEntries]
    rw [foldNest_append]
    have hT := hch (k, w) (List.mem_cons_self _ _)
    rw [foldNest_objField _ o k hT.1]
    have hgf : getF o k = .vUndef :=
      getF_not_mem (fun q hq => hfresh (k, w) (List.mem_cons_self _ _) q hq)
    rw [hgf, hT.2]
    rw [setF_fresh_append (fun q hq => hfresh (k, w) (List.mem_cons_self _ _) q hq)]
    simp only [List.map_cons, List.nodup_cons] at hnd
    have hfresh2 : ∀ p2 ∈ rest, ∀ q ∈ o ++ [(k, w)], q.1 ≠ p2.1 := by
      intro p2 hp2 q hq
      rcases List.mem_append.mp hq with hq | hq
      · exact hfresh p2 (List.mem_cons_of_mem _ hp2) q hq
      · rw [List.mem_singleton] at hq
        subst hq
        intro hh
        apply hnd.1
        have hh2 : k = p2.1 := hh
        rw [hh2]
        exact List.mem_map_of_mem Prod.fst hp2
    have hih := ih (o ++ [(k, w)]) hfresh2 hnd.2
      (fun p2 hp2 => hch p2 (List.mem_cons_of_mem _ hp2))
    rw [hih]
    simp

theorem foldNest_arrGroups : ∀ (e : ZodSchema) (xs : List JSV) (a : List JSV),
    (∀ x ∈ xs, entriesAux e x ≠ [] ∧
      List.foldl nestStep .vUndef (entriesAux e x) = x ∧
      ((∃ w, entriesAux e x = [([], w)]) ∨
        ∀ q ∈ entriesAux e x, q.1 ≠ [] ∧ jsIsNumeric (q.1.headD "") = false)) →
    foldNest (.vArr a) (entriesArrElems e xs a.length) = .vArr (a ++ xs) := by
  intro e xs
  induction xs with
  | nil => intro a _; simp [entriesArrElems, foldNest]
  | cons x rest ih =>
    intro a hch
    have hx := hch x (List.mem_cons_self _ _)
    simp only [entriesArrElems]
    rw [foldNest_append]
    rw [foldNest_arrElem _ a hx.1 hx.2.2]
    rw [hx.2.1]
    have hih := ih (a ++ [x]) (fun y hy => hch y (List.mem_cons_of_mem _ hy))
    rw [show (a ++ [x]).length = a.length + 1 by simp] at hih
    rw [hih]
    simp

theorem entries_fold {s : ZodSchema} {v : JSV} (hv : Valid s v) :
    List.foldl nestStep .vUndef (entriesAux s v) = v := by
  induction hv with
  | vstr v => simp [entriesAux, nestStep]
  | vnum v => simp [entriesAux, nestStep]
  | vbool v => simp [entriesAux, nestStep]
  | vunion opts v => simp [entriesAux, nestStep]
  | vlit l => simp [entriesAux, nestStep]
  | vopt h ih => simpa only [entriesAux] using ih
  | vnullable hn h ih =>
    simp only [entriesAux]
    rw [if_neg hn]
    exact ih
  | vdefault hu h ih =>
    simp only [entriesAux]
    rw [if_neg hu]
    exact ih
  | @vobj shape fields hne hnames hnd hok hf ih =>
    simp only [entriesAux]
    have hEne : entriesObjFields shape (.vObj fields) ≠ [] := by
      rcases shape with _ | ⟨⟨f, fs⟩, rest⟩
      · exact absurd rfl hne
      · simp only [entriesObjFields]
        intro hcontra
        rcases List.append_eq_nil.mp hcontra with ⟨h1, _⟩
        exact entries_ne_nil (hf (f, fs) (List.mem_cons_self _ _)) (List.map_eq_nil.mp h1)
    have hheads : ∀ q ∈ entriesObjFields shape (.vObj fields),
        q.1 ≠ [] ∧ jsIsNumeric (q.1.headD "") = false := by
      intro q hq
      obtain ⟨p, hp, q2, hq2, hqe⟩ := mem_entriesObjFields hq
      subst hqe
      exact ⟨by simp, (hok p.1 (List.mem_map_of_mem Prod.fst hp)).2.2⟩
    rcases hE : entriesObjFields shape (.vObj fields) with _ | ⟨q0, rest⟩
    · exact absurd hE hEne
    · have h0 := hheads q0 (hE ▸ List.mem_cons_self _ _)
      rw [foldl_nestStep_start q0 rest h0.1
        (fun q hq => (hheads q (hE ▸ hq)).1)]
      rw [if_neg (by simpa using h0.2)]
      rw [← hE]
      rw [foldNest_objGroups shape (.vObj fields) [] (by simp) hnd
        (fun p hp => ⟨entries_ne_nil (hf p hp), ih p hp⟩)]
      rw [List.nil_append]
      congr 1
      exact canonical_fields_eq shape fields hnames hnd
  | @varr e xs hne hna hx ih =>
    simp only [entriesAux]
    have hEne : entriesArrElems e xs 0 ≠ [] := by
      rcases xs with _ | ⟨x, rest⟩
      · exact absurd rfl hne
      · simp only [entriesArrElems]
        intro hcontra
        rcases List.append_eq_nil.mp hcontra with ⟨h1, _⟩
        exact entries_ne_nil (hx x (List.mem_cons_self _ _)) (List.map_eq_nil.mp h1)
    have hheads : ∀ q ∈ entriesArrElems e xs 0,
        q.1 ≠ [] ∧ jsIsNumeric (q.1.headD "") = true := by
      intro q hq
      obtain ⟨n, _, x2, hx2, q2, hq2, hqe⟩ := mem_entriesArrElems hq
      subst hqe
      exact ⟨by simp, by simpa using jsIsNumeric_toString n⟩
    rcases hE : entriesArrElems e xs 0 with _ | ⟨q0, rest⟩
    · exact absurd hE hEne
    · have h0 := hheads q0 (hE ▸ List.mem_cons_self _ _)
      rw [foldl_nestStep_start q0 rest h0.1
        (fun q hq => (hheads q (hE ▸ hq)).1)]
      rw [if_pos (by simpa using h0.2)]
      rw [← hE]
      have hgr := foldNest_arrGroups e xs []
        (fun y hy => ⟨entries_ne_nil (hx y hy), ih y hy, entries_class (hx y hy) hna⟩)
      simpa using hgr
  | @vrec valT fs hne hnd hok hvv ih =>
    simp only [entriesAux]
    have hEne : entriesRecEntries valT fs ≠ [] := by
      rcases fs with _ | ⟨⟨k, w⟩, rest⟩
      · exact absurd rfl hne
      · simp only [entriesRecEntries]
        intro hcontra
        rcases List.append_eq_nil.mp hcontra with ⟨h1, _⟩
        exact entries_ne_nil (hvv (k, w) (List.mem_cons_self _ _)) (List.map_eq_nil.mp h1)
    have hheads : ∀ q ∈ entriesRecEntries valT fs,
        q.1 ≠ [] ∧ jsIsNumeric (q.1.headD "") = false := by
      intro q hq
      obtain ⟨p, hp, q2, hq2, hqe⟩ := mem_entriesRecEntries hq
      subst hqe
      exact ⟨by simp, (hok p.1 (List.mem_map_of_mem Prod.fst hp)).2.2⟩
    rcases hE : entriesRecEntries valT fs with _ | ⟨q0, rest⟩
    · exact absurd hE hEne
    · have h0 := hheads q0 (hE ▸ List.mem_cons_self _ _)
      rw [foldl_nestStep_start q0 rest h0.1
        (fun q hq => (hheads q (hE ▸ hq)).1)]
      rw [if_neg (by simpa using h0.2)]
      rw [← hE]
      have hgr := foldNest_recGroups valT fs [] (by simp) hnd
        (fun p hp => ⟨entries_ne_nil (hvv p hp), ih p hp⟩)
      rw [hgr]
      rw [List.nil_append]
  | @vdisc d opts l oshape flds hdok hl hfind hdnotin hnd hok hnames hf ih =>
    rw [entriesAux_disc_eq flds hl hfind hdnotin]
    have hallne : ∀ q ∈ (([d], l) ::
        entriesObjFields oshape (.vObj ((d, l) :: flds))), q.1 ≠ [] := by
      intro q hq
      rcases List.mem_cons.mp hq with hq | hq
      · subst hq; simp
      · obtain ⟨p, hp, q2, hq2, hqe⟩ := mem_entriesObjFields hq
        subst hqe; simp
    rw [foldl_nestStep_start ([d], l) _ (by simp) hallne]
    rw [if_neg (by simp [hdok.2.2])]
    simp only [foldNest, List.foldl_cons]
    have hstep : nestL (.vObj []) [d] l = .vObj [(d, l)] := by
      show JSV.vObj (setF [] d l) = _
      rw [setF_fresh_append (by simp)]
      rfl
    rw [hstep]
    have hgp : ∀ p ∈ oshape,
        getProp (.vObj ((d, l) :: flds)) p.1 = getF flds p.1 := by
      intro p hp
      have hpd : p.1 ≠ d := fun hh => hdnotin (hh ▸ List.mem_map_of_mem Prod.fst hp)
      rw [getProp_obj, getF_cons_ne (fun hh => hpd hh.symm)]
    have hgr := foldNest_objGroups oshape (.vObj ((d, l) :: flds)) [(d, l)]
      (by
        intro p hp q hq
        rw [List.mem_singleton] at hq
        subst hq
        intro hh
        have hh2 : d = p.1 := hh
        exact hdnotin (hh2 ▸ List.mem_map_of_mem Prod.fst hp))
      hnd
      (by
        intro p hp
        rw [hgp p hp]
        exact ⟨entries_ne_nil (hf p hp), ih p hp⟩)
    simp only [foldNest] at hgr
    rw [hgr]
    congr 1
    show (d, l) :: oshape.map (fun p => (p.1, getProp (.vObj ((d, l) :: flds)) p.1))
      = (d, l) :: flds
    congr 1
    rw [List.map_congr_left (fun p hp => by rw [hgp p hp])]
    exact canonical_fields_eq oshape flds hnames hnd

theorem string_append_assoc (a b c : String) : a ++ b ++ c = a ++ (b ++ c) := by
  refine str_eq_of_data ?_
  rw [data_append, data_append, data_append, data_append]
  exact List.append_assoc _ _ _

theorem joinDot_append_single : ∀ (P : List String), P ≠ [] → ∀ f : String,
    joinDot (P ++ [f]) = joinDot P ++ "." ++ f
  | [], h, _ => absurd rfl h
  | [p], _, f => rfl
  | p :: r :: rest, _, f => by
    have h1 : joinDot ((p :: r :: rest) ++ [f])
        = p ++ "." ++ joinDot ((r :: rest) ++ [f]) := rfl
    rw [h1, joinDot_append_single (r :: rest) (by simp) f]
    have h2 : joinDot (p :: r :: rest) = p ++ "." ++ joinDot (r :: rest) := rfl
    rw [h2]
    refine str_eq_of_data ?_
    simp [data_append]

theorem joinDot_cons_ne_empty {p : String} {rest : List String} (hp : p ≠ "") :
    joinDot (p :: rest) ≠ "" := by
  cases rest with
  | nil => exact hp
  | cons r rs =>
    intro h
    have hd : (p ++ "." ++ joinDot (r :: rs)).data = [] := by
      rw [show p ++ "." ++ joinDot (r :: rs) = joinDot (p :: r :: rs) from rfl, h]
    rw [data_append, data_append] at hd
    simp at hd

theorem joinKey_joinDot : ∀ (P : List String), (∀ x ∈ P, x ≠ "") → ∀ f : String,
    joinKey (joinDot P) f = joinDot (P ++ [f]) := by
  intro P hP f
  rcases P with _ | ⟨p, rest⟩
  · rfl
  · rw [joinDot_append_single (p :: rest) (by simp) f]
    unfold joinKey
    rw [if_neg (joinDot_cons_ne_empty (hP p (List.mem_cons_self _ _)))]

theorem joinDot_inj {A B : List String} (hA : A ≠ []) (hB : B ≠ [])
    (hAwf : ∀ x ∈ A, '.' ∉ x.data) (hBwf : ∀ x ∈ B, '.' ∉ x.data)
    (h : joinDot A = joinDot B) : A = B := by
  have h2 := congrArg splitDot h
  rwa [splitDot_joinDot A hA hAwf, splitDot_joinDot B hB hBwf] at h2

theorem recSet_append_fresh {α : Type} {m : List (String × α)} {k : String} (v : α)
    (h : k ∉ recKeys m) : recSet m k v = m ++ [(k, v)] := by
  have hany : (m.any fun p => p.1 == k) = false := by
    rw [List.any_eq_false]
    intro p hp
    simp only [beq_iff_eq]
    intro hh
    exact h (hh ▸ List.mem_map_of_mem Prod.fst hp)
  unfold recSet
  rw [hany]
  simp

theorem flattenDiscScan_find {opts : List ZodSchema} {d : String} {l : JSV}
    {shape : List (String × ZodSchema)} (h : discScanFind opts d l = some shape)
    (m : List (String × JSV)) (v : JSV) (pfx : String) :
    flattenDiscScan m opts d l v pfx = flattenDiscFields m shape d v pfx := by
  induction opts with
  | nil => simp [discScanFind] at h
  | cons o rest ih =>
    cases o with
    | zObject shape2 =>
      simp only [discScanFind] at h
      simp only [flattenDiscScan]
      cases hlit : extractLiteralValue (shapeGet shape2 d) with
      | some l2 =>
        rw [hlit] at h
        by_cases hb : beqV l2 l = true
        · simp only [hb, if_true] at h ⊢
          simp only [Option.some.injEq] at h
          rw [h]
        · simp only [hb, if_false] at h ⊢
          exact ih h
      | none =>
        rw [hlit] at h
        exact ih h
    | zString =>
      simp only [discScanFind] at h
      simpa only [flattenDiscScan] using ih h
    | zNumber =>
      simp only [discScanFind] at h
      simpa only [flattenDiscScan] using ih h
    | zBool =>
      simp only [discScanFind] at h
      simpa only [flattenDiscScan] using ih h
    | zLiteral lit =>
      simp only [discScanFind] at h
      simpa only [flattenDiscScan] using ih h
    | zArray e =>
      simp only [discScanFind] at h
      simpa only [flattenDiscScan] using ih h
    | zRecord valT =>
      simp only [discScanFind] at h
      simpa only [flattenDiscScan] using ih h
    | zOptional inner =>
      simp only [discScanFind] at h
      simpa only [flattenDiscScan] using ih h
    | zNullable inner =>
      simp only [discScanFind] at h
      simpa only [flattenDiscScan] using ih h
    | zDefault dflt inner =>
      simp only [discScanFind] at h
      simpa only [flattenDiscScan] using ih h
    | zUnion opts2 =>
      simp only [discScanFind] at h
      simpa only [flattenDiscScan] using ih h
    | zDiscUnion d2 opts2 =>
      simp only [discScanFind] at h
      simpa only [flattenDiscScan] using ih h

theorem flattenDiscFields_no_d : ∀ (shape : List (String × ZodSchema)) (d : String)
    (m : List (String × JSV)) (v : JSV) (pfx : String), d ∉ shape.map Prod.fst →
    flattenDiscFields m shape d v pfx = flattenObjFields m shape v pfx := by
  intro shape
  induction shape with
  | nil => intro d m v pfx _; simp [flattenDiscFields, flattenObjFields]
  | cons p rest ih =>
    intro d m v pfx h
    obtain ⟨f, fs⟩ := p
    simp only [List.map_cons, List.mem_cons, not_or] at h
    simp only [flattenDiscFields, flattenObjFields]
    rw [if_neg (fun hfd => h.1 hfd.symm)]
    exact ih d _ v pfx h.2

/-- The flatten worker at a fresh prefix appends exactly the keyed
segment-level entries of the subtree. -/
def FlattenEq (s : ZodSchema) (v : JSV) : Prop :=
  ∀ (m : List (String × JSV)) (P : List String), P ≠ [] →
    (∀ x ∈ P, x ≠ "" ∧ '.' ∉ x.data) →
    (∀ q ∈ entriesAux s v, joinDot (P ++ q.1) ∉ recKeys m) →
    flattenAux m s v (joinDot P)
      = m ++ (entriesAux s v).map (fun q => (joinDot (P ++ q.1), q.2))

theorem flattenObjFields_eq : ∀ (rshape : List (String × ZodSchema)) (v : JSV)
    (m : List (String × JSV)) (P : List String),
    (∀ x ∈ P, x ≠ "" ∧ '.' ∉ x.data) →
    (∀ p ∈ rshape, FlattenEq p.2 (getProp v p.1)) →
    (∀ p ∈ rshape, nameOk p.1) →
    ((rshape.map Prod.fst).Nodup) →
    (∀ p ∈ rshape, ∀ q ∈ entriesAux p.2 (getProp v p.1),
      ∀ x ∈ q.1, x ≠ "" ∧ '.' ∉ x.data) →
    (∀ q ∈ entriesObjFields rshape v, joinDot (P ++ q.1) ∉ recKeys m) →
    flattenObjFields m rshape v (joinDot P)
      = m ++ (entriesObjFields rshape v).map (fun q => (joinDot (P ++ q.1), q.2)) := by
  intro rshape
  induction rshape with
  | nil => intro v m P _ _ _ _ _ _; simp [flattenObjFields, entriesObjFields]
  | cons p rest ih =>
    intro v m P hPwf hIH hok hnd hwf hfresh
    obtain ⟨f, fs⟩ := p
    have hEq : entriesObjFields ((f, fs) :: rest) v
        = (entriesAux fs (getProp v f)).map (fun q => (f :: q.1, q.2))
          ++ entriesObjFields rest v := by
      simp only [entriesObjFields]
    rw [hEq] at hfresh
    simp only [flattenObjFields]
    rw [hEq]
    have hfok := hok (f, fs) (List.mem_cons_self _ _)
    have hPf : joinKey (joinDot P) f = joinDot (P ++ [f]) :=
      joinKey_joinDot P (fun x hx => (hPwf x hx).1) f
    rw [hPf]
    have hwfPf : ∀ x ∈ P ++ [f], x ≠ "" ∧ '.' ∉ x.data := by
      intro x hx
      rcases List.mem_append.mp hx with hx | hx
      · exact hPwf x hx
      · rw [List.mem_singleton] at hx; subst hx; exact ⟨hfok.1, hfok.2.1⟩
    have hfr1 : ∀ q ∈ entriesAux fs (getProp v f),
        joinDot ((P ++ [f]) ++ q.1) ∉ recKeys m := by
      intro q hq
      have hin := hfresh (f :: q.1, q.2)
        (List.mem_append.mpr (Or.inl (List.mem_map_of_mem _ hq)))
      simpa [List.append_assoc] using hin
    rw [hIH (f, fs) (List.mem_cons_self _ _) m (P ++ [f]) (by simp) hwfPf hfr1]
    simp only [List.map_cons, List.nodup_cons] at hnd
    have hfr2 : ∀ q ∈ entriesObjFields rest v,
        joinDot (P ++ q.1) ∉ recKeys
          (m ++ (entriesAux fs (getProp v f)).map
            (fun q2 => (joinDot ((P ++ [f]) ++ q2.1), q2.2))) := by
      intro q hq hmem
      simp only [recKeys, List.map_append, List.mem_append, List.map_map] at hmem
      rcases hmem with hmem | hmem
      · exact hfresh q (List.mem_append.mpr (Or.inr hq))
          (by simpa [recKeys] using hmem)
      · rcases List.mem_map.mp hmem with ⟨q2, hq2, hkey⟩
        obtain ⟨p2, hp2, q3, hq3, hqe⟩ := mem_entriesObjFields hq
        subst hqe
        have hkey2 : joinDot (P ++ (f :: q2.1)) = joinDot (P ++ (p2.1 :: q3.1)) := by
          have : (P ++ [f]) ++ q2.1 = P ++ (f :: q2.1) := by simp
          rw [← this]
          exact hkey
        have hwfA : ∀ x ∈ P ++ (f :: q2.1), '.' ∉ x.data := by
          intro x hx
          rcases List.mem_append.mp hx with hx | hx
          · exact (hPwf x hx).2
          · rcases List.mem_cons.mp hx with hx | hx
            · subst hx; exact hfok.2.1
            · exact (hwf (f, fs) (List.mem_cons_self _ _) q2 hq2 x hx).2
        have hwfB : ∀ x ∈ P ++ (p2.1 :: q3.1), '.' ∉ x.data := by
          intro x hx
          rcases List.mem_append.mp hx with hx | hx
          · exact (hPwf x hx).2
          · rcases List.mem_cons.mp hx with hx | hx
            · subst hx; exact (hok p2 (List.mem_cons_of_mem _ hp2)).2.1
            · exact (hwf p2 (List.mem_cons_of_mem _ hp2) q3 hq3 x hx).2
        have hinj := joinDot_inj (by simp) (by simp) hwfA hwfB hkey2
        have hlists : f :: q2.1 = p2.1 :: q3.1 := List.append_cancel_left hinj
        have hfp : f = p2.1 := (List.cons.injEq _ _ _ _ ▸ hlists).1
        exact hnd.1 (hfp ▸ List.mem_map_of_mem Prod.fst hp2)
    have hih := ih v _ P hPwf
      (fun p2 hp2 => hIH p2 (List.mem_cons_of_mem _ hp2))
      (fun p2 hp2 => hok p2 (List.mem_cons_of_mem _ hp2))
      hnd.2
      (fun p2 hp2 => hwf p2 (List.mem_cons_of_mem _ hp2))
      hfr2
    rw [hih]
    rw [List.map_append, List.map_map, List.append_assoc]
    congr 2
    refine List.map_congr_left ?_
    intro q2 hq2
    simp [List.append_assoc]

theorem flattenRecEntries_eq : ∀ (valT : ZodSchema) (fs : List (String × JSV))
    (m : List (String × JSV)) (P : List String), P ≠ [] →
    (∀ x ∈ P, x ≠ "" ∧ '.' ∉ x.data) →
    (∀ p ∈ fs, FlattenEq valT p.2) →
    (∀ p ∈ fs, nameOk p.1) →
    ((fs.map Prod.fst).Nodup) →
    (∀ p ∈ fs, ∀ q ∈ entriesAux valT p.2, ∀ x ∈ q.1, x ≠ "" ∧ '.' ∉ x.data) →
    (∀ q ∈ entriesRecEntries valT fs, joinDot (P ++ q.1) ∉ recKeys m) →
    flattenRecEntries m valT fs (joinDot P)
      = m ++ (entriesRecEntries valT fs).map (fun q => (joinDot (P ++ q.1), q.2)) := by
  intro valT fs
  induction fs with
  | nil => intro m P _ _ _ _ _ _ _; simp [flattenRecEntries, entriesRecEntries]
  | cons p rest ih =>
    intro m P hPne hPwf hIH hok hnd hwf hfresh
    obtain ⟨k, w⟩ := p
    have hEq : entriesRecEntries valT ((k, w) :: rest)
        = (entriesAux valT w).map (fun q => (k :: q.1, q.2))
          ++ entriesRecEntries valT rest := by
      simp only [entriesRecEntries]
    rw [hEq] at hfresh
    simp only [flattenRecEntries]
    rw [hEq]
    have hfok := hok (k, w) (List.mem_cons_self _ _)
    have hPf : joinDot P ++ "." ++ k = joinDot (P ++ [k]) :=
      (joinDot_append_single P hPne k).symm
    rw [hPf]
    have hwfPf : ∀ x ∈ P ++ [k], x ≠ "" ∧ '.' ∉ x.data := by
      intro x hx
      rcases List.mem_append.mp hx with hx | hx
      · exact hPwf x hx
      · rw [List.mem_singleton] at hx; subst hx; exact ⟨hfok.1, hfok.2.1⟩
    have hfr1 : ∀ q ∈ entriesAux valT w,
        joinDot ((P ++ [k]) ++ q.1) ∉ recKeys m := by
      intro q hq
      have hin := hfresh (k :: q.1, q.2)
        (List.mem_append.mpr (Or.inl (List.mem_map_of_mem _ hq)))
      simpa [List.append_assoc] using hin
    rw [hIH (k, w) (List.mem_cons_self _ _) m (P ++ [k]) (by simp) hwfPf hfr1]
    simp only [List.map_cons, List.nodup_cons] at hnd
    have hfr2 : ∀ q ∈ entriesRecEntries valT rest,
        joinDot (P ++ q.1) ∉ recKeys
          (m ++ (entriesAux valT w).map
            (fun q2 => (joinDot ((P ++ [k]) ++ q2.1), q2.2))) := by
      intro q hq hmem
      simp only [recKeys, List.map_append, List.mem_append, List.map_map] at hmem
      rcases hmem with hmem | hmem
      · exact hfresh q (List.mem_append.mpr (Or.inr hq))
          (by simpa [recKeys] using hmem)
      · rcases List.mem_map.mp hmem with ⟨q2, hq2, hkey⟩
        obtain ⟨p2, hp2, q3, hq3, hqe⟩ := mem_entriesRecEntries hq
        subst hqe
        have hkey2 : joinDot (P ++ (k :: q2.1)) = joinDot (P ++ (p2.1 :: q3.1)) := by
          have hassoc : (P ++ [k]) ++ q2.1 = P ++ (k :: q2.1) := by simp
          rw [← hassoc]
          exact hkey
        have hwfA : ∀ x ∈ P ++ (k :: q2.1), '.' ∉ x.data := by
          intro x hx
          rcases List.mem_append.mp hx with hx | hx
          · exact (hPwf x hx).2
          · rcases List.mem_cons.mp hx with hx | hx
            · subst hx; exact hfok.2.1
            · exact (hwf (k, w) (List.mem_cons_self _ _) q2 hq2 x hx).2
        have hwfB : ∀ x ∈ P ++ (p2.1 :: q3.1), '.' ∉ x.data := by
          intro x hx
          rcases List.mem_append.mp hx with hx | hx
          · exact (hPwf x hx).2
          · rcases List.mem_cons.mp hx with hx | hx
            · subst hx; exact (hok p2 (List.mem_cons_of_mem _ hp2)).2.1
            · exact (hwf p2 (List.mem_cons_of_mem _ hp2) q3 hq3 x hx).2
        have hinj := joinDot_inj (by simp) (by simp) hwfA hwfB hkey2
        have hlists : k :: q2.1 = p2.1 :: q3.1 := List.append_cancel_left hinj
        have hfp : k = p2.1 := (List.cons.injEq _ _ _ _ ▸ hlists).1
        exact hnd.1 (hfp ▸ List.mem_map_of_mem Prod.fst hp2)
    have hih := ih _ P hPne hPwf
      (fun p2 hp2 => hIH p2 (List.mem_cons_of_mem _ hp2))
      (fun p2 hp2 => hok p2 (List.mem_cons_of_mem _ hp2))
      hnd.2
      (fun p2 hp2 => hwf p2 (List.mem_cons_of_mem _ hp2))
      hfr2
    rw [hih]
    rw [List.map_append, List.map_map, List.append_assoc]
    congr 2
    refine List.map_congr_left ?_
    intro q2 hq2
    simp [List.append_assoc]

theorem flattenArrElems_eq : ∀ (e : ZodSchema) (xs : List JSV)
    (m : List (String × JSV)) (P : List String) (i : Nat), P ≠ [] →
    (∀ x ∈ P, x ≠ "" ∧ '.' ∉ x.data) →
    (∀ x ∈ xs, FlattenEq e x) →
    (∀ x ∈ xs, ∀ q ∈ entriesAux e x, ∀ y ∈ q.1, y ≠ "" ∧ '.' ∉ y.data) →
    (∀ q ∈ entriesArrElems e xs i, joinDot (P ++ q.1) ∉ recKeys m) →
    flattenArrElems m e xs (joinDot P) i
      = m ++ (entriesArrElems e xs i).map (fun q => (joinDot (P ++ q.1), q.2)) := by
  intro e xs
  induction xs with
  | nil => intro m P i _ _ _ _ _; simp [flattenArrElems, entriesArrElems]
  | cons x rest ih =>
    intro m P i hPne hPwf hIH hwf hfresh
    have hEq : entriesArrElems e (x :: rest) i
        = (entriesAux e x).map (fun q => (toString i :: q.1, q.2))
          ++ entriesArrElems e rest (i + 1) := by
      simp only [entriesArrElems]
    rw [hEq] at hfresh
    simp only [flattenArrElems]
    rw [hEq]
    have hPf : joinDot P ++ "." ++ toString i = joinDot (P ++ [toString i]) :=
      (joinDot_append_single P hPne (toString i)).symm
    rw [hPf]
    have hwfPf : ∀ y ∈ P ++ [toString i], y ≠ "" ∧ '.' ∉ y.data := by
      intro y hy
      rcases List.mem_append.mp hy with hy | hy
      · exact hPwf y hy
      · rw [List.mem_singleton] at hy
        subst hy
        exact ⟨toString_nat_ne_empty i, toString_nat_dot_free i⟩
    have hfr1 : ∀ q ∈ entriesAux e x,
        joinDot ((P ++ [toString i]) ++ q.1) ∉ recKeys m := by
      intro q hq
      have hin := hfresh (toString i :: q.1, q.2)
        (List.mem_append.mpr (Or.inl (List.mem_map_of_mem _ hq)))
      simpa [List.append_assoc] using hin
    rw [hIH x (List.mem_cons_self _ _) m (P ++ [toString i]) (by simp) hwfPf hfr1]
    have hfr2 : ∀ q ∈ entriesArrElems e rest (i + 1),
        joinDot (P ++ q.1) ∉ recKeys
          (m ++ (entriesAux e x).map
            (fun q2 => (joinDot ((P ++ [toString i]) ++ q2.1), q2.2))) := by
      intro q hq hmem
      simp only [recKeys, List.map_append, List.mem_append, List.map_map] at hmem
      rcases hmem with hmem | hmem
      · exact hfresh q (List.mem_append.mpr (Or.inr hq))
          (by simpa [recKeys] using hmem)
      · rcases List.mem_map.mp hmem with ⟨q2, hq2, hkey⟩
        obtain ⟨n, hn, x2, hx2, q3, hq3, hqe⟩ := mem_entriesArrElems hq
        subst hqe
        have hkey2 : joinDot (P ++ (toString i :: q2.1))
            = joinDot (P ++ (toString n :: q3.1)) := by
          have hassoc : (P ++ [toString i]) ++ q2.1 = P ++ (toString i :: q2.1) := by simp
          rw [← hassoc]
          exact hkey
        have hwfA : ∀ y ∈ P ++ (toString i :: q2.1), '.' ∉ y.data := by
          intro y hy
          rcases List.mem_append.mp hy with hy | hy
          · exact (hPwf y hy).2
          · rcases List.mem_cons.mp hy with hy | hy
            · subst hy; exact toString_nat_dot_free i
            · exact (hwf x (List.mem_cons_self _ _) q2 hq2 y hy).2
        have hwfB : ∀ y ∈ P ++ (toString n :: q3.1), '.' ∉ y.data := by
          intro y hy
          rcases List.mem_append.mp hy with hy | hy
          · exact (hPwf y hy).2
          · rcases List.mem_cons.mp hy with hy | hy
            · subst hy; exact toString_nat_dot_free n
            · exact (hwf x2 (List.mem_cons_of_mem _ hx2) q3 hq3 y hy).2
        have hinj := joinDot_inj (by simp) (by simp) hwfA hwfB hkey2
        have hlists : toString i :: q2.1 = toString n :: q3.1 :=
          List.append_cancel_left hinj
        have hin2 : toString i = toString n := (List.cons.injEq _ _ _ _ ▸ hlists).1
        have := toString_nat_injective hin2
        omega
    have hih := ih _ P (i + 1) hPne hPwf
      (fun x2 hx2 => hIH x2 (List.mem_cons_of_mem _ hx2))
      (fun x2 hx2 => hwf x2 (List.mem_cons_of_mem _ hx2))
      hfr2
    rw [hih]
    rw [List.map_append, List.map_map, List.append_assoc]
    congr 2
    refine List.map_congr_left ?_
    intro q2 hq2
    simp [List.append_assoc]

theorem flattenAux_eq {s : ZodSchema} {v : JSV} (hv : Valid s v) : FlattenEq s v := by
  induction hv with
  | vstr v =>
    intro m P hPne hPwf hfresh
    have hf := hfresh ([], v) (by simp [entriesAux])
    rw [show P ++ ([] : List String) = P by simp] at hf
    show flattenAux m .zString v (joinDot P)
      = m ++ (entriesAux .zString v).map (fun q => (joinDot (P ++ q.1), q.2))
    simp only [flattenAux]
    rw [recSet_append_fresh v hf]
    simp [entriesAux]
  | vnum v =>
    intro m P hPne hPwf hfresh
    have hf := hfresh ([], v) (by simp [entriesAux])
    rw [show P ++ ([] : List String) = P by simp] at hf
    show flattenAux m .zNumber v (joinDot P)
      = m ++ (entriesAux .zNumber v).map (fun q => (joinDot (P ++ q.1), q.2))
    simp only [flattenAux]
    rw [recSet_append_fresh v hf]
    simp [entriesAux]
  | vbool v =>
    intro m P hPne hPwf hfresh
    have hf := hfresh ([], v) (by simp [entriesAux])
    rw [show P ++ ([] : List String) = P by simp] at hf
    show flattenAux m .zBool v (joinDot P)
      = m ++ (entriesAux .zBool v).map (fun q => (joinDot (P ++ q.1), q.2))
    simp only [flattenAux]
    rw [recSet_append_fresh v hf]
    simp [entriesAux]
  | @vunion opts v =>
    intro m P hPne hPwf hfresh
    have hf := hfresh ([], v) (by simp [entriesAux])
    rw [show P ++ ([] : List String) = P by simp] at hf
    show flattenAux m (.zUnion opts) v (joinDot P)
      = m ++ (entriesAux (.zUnion opts) v).map (fun q => (joinDot (P ++ q.1), q.2))
    simp only [flattenAux]
    rw [recSet_append_fresh v hf]
    simp [entriesAux]
  | vlit l =>
    intro m P hPne hPwf hfresh
    have hf := hfresh ([], l) (by simp [entriesAux])
    rw [show P ++ ([] : List String) = P by simp] at hf
    show flattenAux m (.zLiteral l) l (joinDot P)
      = m ++ (entriesAux (.zLiteral l) l).map (fun q => (joinDot (P ++ q.1), q.2))
    simp only [flattenAux]
    rw [recSet_append_fresh l hf]
    simp [entriesAux]
  | @vopt inner v h ih =>
    intro m P hPne hPwf hfresh
    simp only [entriesAux] at hfresh ⊢
    have hL : flattenAux m (.zOptional inner) v (joinDot P)
        = flattenAux m inner v (joinDot P) := by
      simp only [flattenAux]
    rw [hL]
    exact ih m P hPne hPwf hfresh
  | @vnullable inner v hn h ih =>
    intro m P hPne hPwf hfresh
    simp only [entriesAux] at hfresh ⊢
    rw [if_neg hn] at hfresh ⊢
    have hL : flattenAux m (.zNullable inner) v (joinDot P)
        = flattenAux m inner v (joinDot P) := by
      simp only [flattenAux]
      rw [if_neg hn]
    rw [hL]
    exact ih m P hPne hPwf hfresh
  | @vdefault dflt inner v hu h ih =>
    intro m P hPne hPwf hfresh
    simp only [entriesAux] at hfresh ⊢
    rw [if_neg hu] at hfresh ⊢
    have hL : flattenAux m (.zDefault dflt inner) v (joinDot P)
        = flattenAux m inner v (joinDot P) := by
      simp only [flattenAux]
      rw [if_neg hu]
    rw [hL]
    exact ih m P hPne hPwf hfresh
  | @vobj shape fields hne hnames hnd hok hf ih =>
    intro m P hPne hPwf hfresh
    simp only [entriesAux] at hfresh ⊢
    have hL : flattenAux m (.zObject shape) (.vObj fields) (joinDot P)
        = flattenObjFields m shape (.vObj fields) (joinDot P) := by
      simp only [flattenAux]
    rw [hL]
    exact flattenObjFields_eq shape (.vObj fields) m P hPwf
      (fun p hp => ih p hp)
      (fun p hp => hok p.1 (List.mem_map_of_mem Prod.fst hp))
      hnd
      (fun p hp => entries_paths_wf (hf p hp))
      hfresh
  | @varr e xs hne hna hx ih =>
    intro m P hPne hPwf hfresh
    simp only [entriesAux] at hfresh ⊢
    have hL : flattenAux m (.zArray e) (.vArr xs) (joinDot P)
        = flattenArrElems m e xs (joinDot P) 0 := by
      simp only [flattenAux]
    rw [hL]
    exact flattenArrElems_eq e xs m P 0 hPne hPwf
      (fun x hx2 => ih x hx2)
      (fun x hx2 => entries_paths_wf (hx x hx2))
      hfresh
  | @vrec valT fs hne hnd hok hvv ih =>
    intro m P hPne hPwf hfresh
    simp only [entriesAux] at hfresh ⊢
    have hL : flattenAux m (.zRecord valT) (.vObj fs) (joinDot P)
        = flattenRecEntries m valT fs (joinDot P) := by
      simp only [flattenAux]
    rw [hL]
    exact flattenRecEntries_eq valT fs m P hPne hPwf
      (fun p hp => ih p hp)
      (fun p hp => hok p.1 (List.mem_map_of_mem Prod.fst hp))
      hnd
      (fun p hp => entries_paths_wf (hvv p hp))
      hfresh
  | @vdisc d opts l oshape flds hdok hl hfind hdnotin hnd hok hnames hf ih =>
    intro m P hPne hPwf hfresh
    rw [entriesAux_disc_eq flds hl hfind hdnotin] at hfresh ⊢
    have hgp : ∀ p ∈ oshape,
        getProp (.vObj ((d, l) :: flds)) p.1 = getF flds p.1 := by
      intro p hp
      have hpd : p.1 ≠ d := fun hh => hdnotin (hh ▸ List.mem_map_of_mem Prod.fst hp)
      rw [getProp_obj, getF_cons_ne (fun hh => hpd hh.symm)]
    have hdisc : flattenAux m (.zDiscUnion d opts) (.vObj ((d, l) :: flds)) (joinDot P)
        = flattenDiscScan (recSet m (joinKey (joinDot P) d) l) opts d l
            (.vObj ((d, l) :: flds)) (joinDot P) := by
      simp only [flattenAux, getF_cons_self]
      rw [if_neg hl]
    rw [hdisc]
    have hkeyd : joinKey (joinDot P) d = joinDot (P ++ [d]) :=
      joinKey_joinDot P (fun x hx => (hPwf x hx).1) d
    rw [hkeyd]
    have hfrd : joinDot (P ++ [d]) ∉ recKeys m := by
      have hin := hfresh ([d], l) (List.mem_cons_self _ _)
      simpa using hin
    rw [recSet_append_fresh l hfrd]
    rw [flattenDiscScan_find hfind]
    have hskip : flattenDiscFields (m ++ [(joinDot (P ++ [d]), l)])
        ((d, ZodSchema.zLiteral l) :: oshape) d (.vObj ((d, l) :: flds)) (joinDot P)
        = flattenDiscFields (m ++ [(joinDot (P ++ [d]), l)]) oshape d
            (.vObj ((d, l) :: flds)) (joinDot P) := by
      simp only [flattenDiscFields]
      simp
    rw [hskip]
    rw [flattenDiscFields_no_d oshape d _ _ _ hdnotin]
    have hfr2 : ∀ q ∈ entriesObjFields oshape (.vObj ((d, l) :: flds)),
        joinDot (P ++ q.1) ∉ recKeys (m ++ [(joinDot (P ++ [d]), l)]) := by
      intro q hq hmem
      simp only [recKeys, List.map_append, List.mem_append] at hmem
      rcases hmem with hmem | hmem
      · exact hfresh q (List.mem_cons_of_mem _ hq) (by simpa [recKeys] using hmem)
      · simp only [List.map_cons, List.map_nil, List.mem_singleton] at hmem
        obtain ⟨p2, hp2, q3, hq3, hqe⟩ := mem_entriesObjFields hq
        subst hqe
        have hwfA : ∀ x ∈ P ++ (p2.1 :: q3.1), '.' ∉ x.data := by
          intro x hx
          rcases List.mem_append.mp hx with hx | hx
          · exact (hPwf x hx).2
          · rcases List.mem_cons.mp hx with hx | hx
            · subst hx
              exact (hok p2.1 (List.mem_map_of_mem Prod.fst hp2)).2.1
            · have hq3b : q3 ∈ entriesAux p2.2 (getF flds p2.1) := by
                rw [← hgp p2 hp2]
                exact hq3
              exact (entries_paths_wf (hf p2 hp2) q3 hq3b x hx).2
        have hwfB : ∀ x ∈ P ++ [d], '.' ∉ x.data := by
          intro x hx
          rcases List.mem_append.mp hx with hx | hx
          · exact (hPwf x hx).2
          · rw [List.mem_singleton] at hx
            subst hx
            exact hdok.2.1
        have hinj := joinDot_inj (by simp) (by simp) hwfA hwfB hmem
        have hlists : p2.1 :: q3.1 = [d] := List.append_cancel_left hinj
        have hpd : p2.1 = d := (List.cons.injEq _ _ _ _ ▸ hlists).1
        exact hdnotin (hpd ▸ List.mem_map_of_mem Prod.fst hp2)
    have hloop := flattenObjFields_eq oshape (.vObj ((d, l) :: flds))
      (m ++ [(joinDot (P ++ [d]), l)]) P hPwf
      (fun p hp => hgp p hp ▸ ih p hp)
      (fun p hp => hok p.1 (List.mem_map_of_mem Prod.fst hp))
      hnd
      (fun p hp => hgp p hp ▸ entries_paths_wf (hf p hp))
      hfr2
    rw [hloop]
    simp [List.append_assoc]

theorem unflatten_none_eq (data : List (String × JSV)) :
    unflattenZodFormData data none
      = data.foldl (fun acc p => nestL acc (splitDot p.1) p.2) (.vObj []) := rfl

theorem foldNest_congr : ∀ (E : List (List String × JSV)) (d : JSV),
    (∀ q ∈ E, splitDot (joinDot q.1) = q.1) →
    List.foldl (fun acc p => nestL acc (splitDot p.1) p.2) d
      (E.map (fun q => (joinDot q.1, q.2)))
      = foldNest d E := by
  intro E
  induction E with
  | nil => intro d _; rfl
  | cons q rest ih =>
    intro d h
    simp only [List.map_cons, List.foldl_cons, foldNest]
    rw [h q (List.mem_cons_self _ _)]
    exact ih _ (fun q2 hq2 => h q2 (List.mem_cons_of_mem _ hq2))

/-- C1 (amended): the unflatten-flatten round trip restores canonical
fully-populated values exactly. -/
theorem c1_round_trip (shape : List (String × ZodSchema)) (v : JSV)
    (hv : Valid (.zObject shape) v) :
    unflattenZodFormData (flattenZodFormData (.zObject shape) v) none = v := by
  cases hv with
  | @vobj _ fields hne hnames hnd hok hf =>
    have hflat : flattenZodFormData (.zObject shape) (.vObj fields)
        = (entriesObjFields shape (.vObj fields)).map (fun q => (joinDot q.1, q.2)) := by
      show flattenAux [] (.zObject shape) (.vObj fields) "" = _
      have hL : flattenAux [] (.zObject shape) (.vObj fields) ""
          = flattenObjFields [] shape (.vObj fields) "" := by
        simp only [flattenAux]
      rw [hL]
      rw [show ("" : String) = joinDot [] from rfl]
      rw [flattenObjFields_eq shape (.vObj fields) [] [] (by simp)
        (fun p hp => flattenAux_eq (hf p hp))
        (fun p hp => hok p.1 (List.mem_map_of_mem Prod.fst hp))
        hnd
        (fun p hp => entries_paths_wf (hf p hp))
        (by simp [recKeys])]
      simp
    rw [hflat]
    have hwfE : ∀ q ∈ entriesObjFields shape (.vObj fields),
        splitDot (joinDot q.1) = q.1 := by
      intro q hq
      obtain ⟨p, hp, q2, hq2, hqe⟩ := mem_entriesObjFields hq
      subst hqe
      apply splitDot_joinDot
      · simp
      · intro x hx
        rcases List.mem_cons.mp hx with hx | hx
        · subst hx
          exact (hok p.1 (List.mem_map_of_mem Prod.fst hp)).2.1
        · exact (entries_paths_wf (hf p hp) q2 hq2 x hx).2
    rw [unflatten_none_eq]
    rw [foldNest_congr _ _ hwfE]
    rw [foldNest_objGroups shape (.vObj fields) [] (by simp) hnd
      (fun p hp => ⟨entries_ne_nil (hf p hp), entries_fold (hf p hp)⟩)]
    rw [List.nil_append]
    congr 1
    exact canonical_fields_eq shape fields hnames hnd

/-- C1 counterexample: the schema {tags: array(string)} with the matching,
fully-populated value {tags: []} flattens to the empty map, so unflattening
returns the empty object, not the original value: the round trip fails on
empty arrays (and likewise empty objects and records). -/
theorem c1_counterexample :
    flattenZodFormData (.zObject [("tags", .zArray .zString)])
      (.vObj [("tags", .vArr [])]) = [] ∧
    unflattenZodFormData (flattenZodFormData (.zObject [("tags", .zArray .zString)])
      (.vObj [("tags", .vArr [])])) none ≠ .vObj [("tags", .vArr [])] := by
  have h : flattenZodFormData (.zObject [("tags", .zArray .zString)])
      (.vObj [("tags", .vArr [])]) = [] := by
    simp [flattenZodFormData, flattenAux, flattenObjFields, flattenArrElems,
      getProp, getF, joinKey]
  refine ⟨h, ?_⟩
  rw [h]
  decide

/-- Witness schema: a primitive field, an array of strings, a discriminated
union, a record and an array of objects with an optional field. -/
def c1Shape : List (String × ZodSchema) :=
  [("name", .zString),
   ("tags", .zArray .zString),
   ("pet", .zDiscUnion "kind"
      [.zObject [("kind", .zLiteral (.vStr "dog")), ("barks", .zBool)],
       .zObject [("kind", .zLiteral (.vStr "cat")), ("lives", .zNumber)]]),
   ("scores", .zRecord .zNumber),
   ("users", .zArray (.zObject [("age", .zOptional .zNumber)]))]

/-- Witness value matching `c1Shape`, canonical and fully populated. -/
def c1Value : JSV :=
  .vObj [("name", .vStr "Ann"),
   ("tags", .vArr [.vStr "a", .vStr "b"]),
   ("pet", .vObj [("kind", .vStr "cat"), ("lives", .vNum 9)]),
   ("scores", .vObj [("math", .vNum 5)]),
   ("users", .vArr [.vObj [("age", .vNum 3)], .vObj [("age", .vNum 7)]])]

instance (f : String) : Decidable (nameOk f) :=
  decidable_of_iff (f ≠ "" ∧ '.' ∉ f.data ∧ jsIsNumeric f = false) Iff.rfl

theorem c1Value_valid : Valid (.zObject c1Shape) c1Value := by
  refine Valid.vobj (by simp [c1Shape]) (by rfl) (by decide) (by decide) ?_
  intro p hp
  fin_cases hp
  · exact .vstr _
  · exact Valid.varr (by simp) rfl (fun x _ => .vstr x)
  · refine Valid.vdisc (by decide) (by decide) rfl (by decide) (by decide)
      (by decide) (by rfl) ?_
    intro p2 hp2
    fin_cases hp2
    exact .vnum _
  · exact Valid.vrec (by simp) (by decide) (by decide) (fun p2 _ => .vnum p2.2)
  · refine Valid.varr (by simp) rfl ?_
    intro x hx
    fin_cases hx
    · refine Valid.vobj (by simp) (by rfl) (by decide) (by decide) ?_
      intro p2 hp2
      fin_cases hp2
      exact .vopt (.vnum _)
    · refine Valid.vobj (by simp) (by rfl) (by decide) (by decide) ?_
      intro p2 hp2
      fin_cases hp2
      exact .vopt (.vnum _)

/-- Witness for c1_round_trip: flattening and unflattening the concrete
canonical value restores it exactly. -/
theorem c1_round_trip_witness :
    unflattenZodFormData (flattenZodFormData (.zObject c1Shape) c1Value) none
      = c1Value :=
  c1_round_trip c1Shape c1Value c1Value_valid
